import Mathlib

/-!
R-tree over sensor points (`src/main.c`).

A shallow embedding of the spatial index of `src/main.c`.

* C `int` values are integers; the results of `-`, `+`, `*` and `abs` are wrapped
  to 32 bits (`wrapInt`). Comparisons and `expandToInclude` do no arithmetic.
* Nodes live in a heap (`Heap`): a pointer is an index, `NULL` is `none`, a freed
  node is an empty cell, and dereferencing a freed or unallocated cell makes the
  operation fail (`none`).
* The arrays `children` and `sensors` are lists of the slots written so far;
  `num_entries` is the separate counter of the C struct. Reading a slot that was
  never written fails. The lists carry no capacity: a write at index
  `num_entries` always lands in the list. The number of slots the C code
  allocates is `CAPACITY`; `insertSlot` and `splitSlots` give the indices written.
  A write at an index of `CAPACITY` or more is out of bounds in C: the properties
  proved of the program bound the index of every write they rely on by `CAPACITY`,
  and the evaluations at failing inputs show what such a write leaves in the lists.
* Records are values. `free(node->sensors[i])` in the deletion has no counterpart:
  a record that another node still lists stays readable here.
* `malloc` does not initialise `bbox`; the value found there is an explicit
  argument of `createRTreeNode`, and the functions that allocate nodes take a map
  `uninit` from the new address to that value.
* Recursion (`rangeQuery`, `searchSensorInRTree`, `deleteSensorFromRTree`) and
  the descent loop of `insertSensorIntoRTree` take a fuel argument.
-/

namespace RTree

/-! ## Constants and geometry -/

/-- Source `#define MAX_ENTRIES 4`. -/
def MAX_ENTRIES : Nat := 4

/-- Source `#define MIN_ENTRIES (MAX_ENTRIES / 2)`. -/
def MIN_ENTRIES : Nat := MAX_ENTRIES / 2

/-- Source `INT_MAX` of a 32-bit `int`. -/
def INT_MAX : Int := 2147483647

/-- Source `INT_MIN` of a 32-bit `int`. -/
def INT_MIN : Int := -2147483648

/-- Result of 32-bit two's complement arithmetic. -/
def wrapInt (z : Int) : Int := (z + 2147483648) % 4294967296 - 2147483648

/-- C `abs` on `int`. -/
def absInt (z : Int) : Int := wrapInt (if z < 0 then -z else z)

/-- Source `struct BoundingBox`. -/
structure BoundingBox where
  min_x : Int
  min_y : Int
  max_x : Int
  max_y : Int
deriving DecidableEq, Repr

/-- Source `struct SensorNode`. -/
structure SensorNode where
  x : Int
  y : Int
  humidity : Int
  PollutionLevel : Int
  temperature : Int
deriving DecidableEq, Repr

/-- Source `createBoundingBoxForSensor`: the degenerate box of a point. -/
def createBoundingBoxForSensor (sensor : SensorNode) : BoundingBox :=
  ⟨sensor.x, sensor.y, sensor.x, sensor.y⟩

/-- Source `createBoundingBox`. -/
def createBoundingBox (min_x min_y max_x max_y : Int) : BoundingBox :=
  ⟨min_x, min_y, max_x, max_y⟩

/-- Source `area`: `(max_x - min_x) * (max_y - min_y)` in `int` arithmetic. -/
def area (bbox : BoundingBox) : Int :=
  wrapInt (wrapInt (bbox.max_x - bbox.min_x) * wrapInt (bbox.max_y - bbox.min_y))

/-- Source `overlaps`. -/
def overlaps (a b : BoundingBox) : Bool :=
  !(decide (a.min_x > b.max_x) || decide (a.max_x < b.min_x) ||
    decide (a.min_y > b.max_y) || decide (a.max_y < b.min_y))

/-- Source `expandToInclude`: the new value of `*a`. -/
def expandToInclude (a b : BoundingBox) : BoundingBox :=
  ⟨if a.min_x < b.min_x then a.min_x else b.min_x,
   if a.min_y < b.min_y then a.min_y else b.min_y,
   if a.max_x > b.max_x then a.max_x else b.max_x,
   if a.max_y > b.max_y then a.max_y else b.max_y⟩

/-- Growth of `b` needed to take in `e`: `area(expanded) - area(b)` as computed in
`insertSensorIntoRTree` and `splitNode`. -/
def enlargement (b e : BoundingBox) : Int :=
  wrapInt (area (expandToInclude b e) - area b)

/-! ## Nodes and the heap -/

/-- Source `struct RTreeNode`. `children` and `sensors` hold the slots written so far; for a
leaf the C pointer `children` is `NULL`, for an internal node `sensors` is. -/
structure RTreeNode where
  is_leaf : Bool
  bbox : BoundingBox
  children : List Nat
  sensors : List SensorNode
  num_entries : Nat
  parent : Option Nat
deriving DecidableEq, Repr

/-- Memory: cell `p` holds the node at address `p`, or nothing once freed. -/
abbrev Heap := List (Option RTreeNode)

/-- Read the node behind a pointer. -/
def deref (h : Heap) (p : Nat) : Option RTreeNode := (h[p]?).join

/-- Write the node behind a pointer. -/
def store (h : Heap) (p : Nat) (n : RTreeNode) : Heap := h.set p (some n)

/-- Source `free(p)`. -/
def release (h : Heap) (p : Nat) : Heap := h.set p none

/-- Source `node->children[i]`: fails on a leaf (`children == NULL`) and on an unwritten slot. -/
def childSlot (n : RTreeNode) (i : Nat) : Option Nat :=
  if n.is_leaf then none else n.children[i]?

/-- Source `node->sensors[i]`: fails on an internal node (`sensors == NULL`) and on an unwritten slot. -/
def sensorSlot (n : RTreeNode) (i : Nat) : Option SensorNode :=
  if n.is_leaf then n.sensors[i]? else none

/-- Source `array[i] = v` on a slot list. -/
def writeSlot {α : Type} (l : List α) (i : Nat) (v : α) : Option (List α) :=
  if i < l.length then some (l.set i v)
  else if i = l.length then some (l ++ [v])
  else none

/-- Source `node->children[i] = c`. -/
def setChild (n : RTreeNode) (i c : Nat) : Option RTreeNode :=
  if n.is_leaf then none else (writeSlot n.children i c).map (fun l => { n with children := l })

/-- Source `node->sensors[i] = s`. -/
def setSensor (n : RTreeNode) (i : Nat) (s : SensorNode) : Option RTreeNode :=
  if n.is_leaf then (writeSlot n.sensors i s).map (fun l => { n with sensors := l }) else none

/-- The node `createRTreeNode(is_leaf)` returns: no entries, no parent, nothing written
to the entry array; `uninit` is the content `malloc` left in `bbox`. -/
def freshNode (is_leaf : Bool) (uninit : BoundingBox) : RTreeNode :=
  ⟨is_leaf, uninit, [], [], 0, none⟩

/-- Source `createRTreeNode(is_leaf)`: a fresh cell at the end of the heap. Returns the heap and
the new pointer. -/
def createRTreeNode (h : Heap) (is_leaf : Bool) (uninit : BoundingBox) : Heap × Nat :=
  (h ++ [some (freshNode is_leaf uninit)], h.length)

/-- Box of entry `i` of a node, as `updateBoundingBox` reads it. -/
def entryBox (h : Heap) (n : RTreeNode) (i : Nat) : Option BoundingBox :=
  if n.is_leaf then (sensorSlot n i).map createBoundingBoxForSensor
  else (childSlot n i).bind (fun c => (deref h c).map (fun cn => cn.bbox))

/-- The `for` loop of `updateBoundingBox`, from index `i`, `k` iterations left. -/
def updateLoop (p : Nat) : Nat → Nat → Heap → Option Heap
  | _, 0, h => some h
  | i, k + 1, h =>
    match deref h p with
    | none => none
    | some n =>
      match entryBox h n i with
      | none => none
      | some e => updateLoop p (i + 1) k (store h p { n with bbox := expandToInclude n.bbox e })

/-- Source `updateBoundingBox(node)`. -/
def updateBoundingBox (h : Heap) (p : Nat) : Option Heap :=
  match deref h p with
  | none => none
  | some n =>
    if n.num_entries = 0 then
      some (store h p { n with bbox := ⟨INT_MAX, INT_MAX, INT_MIN, INT_MIN⟩ })
    else
      match entryBox h n 0 with
      | none => none
      | some b0 => updateLoop p 1 (n.num_entries - 1) (store h p { n with bbox := b0 })

/-! ## Insertion and split -/

/-- The child-selection `for` loop of `insertSensorIntoRTree` at one internal node:
`st` is `(best_child, min_enlargement)`. -/
def chooseLoop (h : Heap) (n : RTreeNode) (sb : BoundingBox) :
    Nat → Nat → Nat × Int → Option (Nat × Int)
  | _, 0, st => some st
  | i, k + 1, st =>
    match childSlot n i with
    | none => none
    | some c =>
      match deref h c with
      | none => none
      | some cn =>
        chooseLoop h n sb (i + 1) k
          (if enlargement cn.bbox sb < st.2 then (c, enlargement cn.bbox sb) else st)

/-- The `while (!node->is_leaf)` descent of `insertSensorIntoRTree`: the leaf reached. -/
def descend : Nat → Heap → Nat → SensorNode → Option Nat
  | 0, _, _, _ => none
  | fuel + 1, h, p, sensor =>
    match deref h p with
    | none => none
    | some n =>
      if n.is_leaf then some p
      else
        match childSlot n 0 with
        | none => none
        | some c0 =>
          match chooseLoop h n (createBoundingBoxForSensor sensor) 0 n.num_entries (c0, INT_MAX) with
          | none => none
          | some st => descend fuel h st.1 sensor

/-- Manhattan distance of two sensors as `splitNode` computes it. -/
def seedDistance (a b : SensorNode) : Int :=
  wrapInt (absInt (wrapInt (a.x - b.x)) + absInt (wrapInt (a.y - b.y)))

/-- State of the seed search: `max_distance`, `seed1`, `seed2`. -/
structure Seeds where
  max_distance : Int
  seed1 : Nat
  seed2 : Nat
deriving DecidableEq, Repr

/-- Inner seed loop: entry `a` at index `i` against the entries from index `j` on. -/
def seedInner (a : SensorNode) (i : Nat) : Nat → List SensorNode → Seeds → Seeds
  | _, [], st => st
  | j, b :: rest, st =>
    seedInner a i (j + 1) rest
      (if seedDistance a b > st.max_distance then ⟨seedDistance a b, i, j⟩ else st)

/-- Outer seed loop over the entries from index `i` on. -/
def seedOuter : Nat → List SensorNode → Seeds → Seeds
  | _, [], st => st
  | i, a :: rest, st => seedOuter (i + 1) rest (seedInner a i (i + 1) rest st)

/-- Step 1 of `splitNode` on the entries of the node. -/
def pickSeeds (entries : List SensorNode) : Seeds :=
  seedOuter 0 entries ⟨0, 0, 1⟩

/-- The two nodes under construction in `splitNode`. -/
structure SplitState where
  node1 : RTreeNode
  node2 : RTreeNode
deriving DecidableEq, Repr

/-- Source `dst->sensors[dst->num_entries++] = s`. -/
def pushSensor (n : RTreeNode) (s : SensorNode) : Option RTreeNode :=
  (setSensor n n.num_entries s).map (fun m => { m with num_entries := m.num_entries + 1 })

/-- Step 3 of `splitNode`: distribute the entries from index `i` on. -/
def distribute (seed1 seed2 : Nat) : Nat → List SensorNode → SplitState → Option SplitState
  | _, [], st => some st
  | i, s :: rest, st =>
    if i = seed1 ∨ i = seed2 then distribute seed1 seed2 (i + 1) rest st
    else
      let bbox1 := expandToInclude st.node1.bbox (createBoundingBoxForSensor s)
      let bbox2 := expandToInclude st.node2.bbox (createBoundingBoxForSensor s)
      let enlargement1 := enlargement st.node1.bbox (createBoundingBoxForSensor s)
      let enlargement2 := enlargement st.node2.bbox (createBoundingBoxForSensor s)
      if enlargement1 < enlargement2 then
        match pushSensor st.node1 s with
        | none => none
        | some m => distribute seed1 seed2 (i + 1) rest ⟨{ m with bbox := bbox1 }, st.node2⟩
      else
        match pushSensor st.node2 s with
        | none => none
        | some m => distribute seed1 seed2 (i + 1) rest ⟨st.node1, { m with bbox := bbox2 }⟩

/-- Source `parent->children[parent->num_entries++] = c`. -/
def pushChild (n : RTreeNode) (c : Nat) : Option RTreeNode :=
  (setChild n n.num_entries c).map (fun m => { m with num_entries := m.num_entries + 1 })

/-- Steps 1 to 3 of `splitNode` on a node value: the two new nodes, not yet linked.
`u1`, `u2` are the uninitialised boxes of the two allocations. Every slot below
`num_entries` is read, so a node with an unwritten one fails. -/
def splitEntries (n : RTreeNode) (u1 u2 : BoundingBox) : Option SplitState :=
  if n.sensors.length < n.num_entries then none
  else
    let entries := n.sensors.take n.num_entries
    let sd := pickSeeds entries
    match sensorSlot n sd.seed1, sensorSlot n sd.seed2 with
    | some s1, some s2 =>
      match pushSensor (freshNode n.is_leaf u1) s1, pushSensor (freshNode n.is_leaf u2) s2 with
      | some m1, some m2 => distribute sd.seed1 sd.seed2 0 entries ⟨m1, m2⟩
      | _, _ => none
    | _, _ => none

/-- Source `splitNode(node)`. The new nodes get the addresses `h.length`, `h.length + 1` and, for
a new root, `h.length + 2`; `uninit a` is the box content `malloc` leaves at address `a`. -/
def splitNode (h : Heap) (p : Nat) (uninit : Nat → BoundingBox) : Option Heap :=
  match deref h p with
  | none => none
  | some n =>
    let a1 := h.length
    let a2 := h.length + 1
    match splitEntries n (uninit a1) (uninit a2) with
    | none => none
    | some st =>
      match n.parent with
      | some q =>
        match deref h q with
        | none => none
        | some pn =>
          match pushChild pn a1 with
          | none => none
          | some pn1 =>
            match pushChild pn1 a2 with
            | none => none
            | some pn2 =>
              updateBoundingBox (store (h ++ [some st.node1, some st.node2]) q pn2) q
      | none =>
        let a3 := h.length + 2
        let new_root : RTreeNode := { freshNode false (uninit a3) with children := [a1, a2], num_entries := 2 }
        some (h ++ [some { st.node1 with parent := some a3 },
                    some { st.node2 with parent := some a3 }, some new_root])

/-- Source `insertSensorIntoRTree(root, sensor)` for a non-NULL `sensor`. -/
def insertSensorIntoRTree (fuel : Nat) (h : Heap) (root : Nat) (sensor : SensorNode)
    (uninit : Nat → BoundingBox) : Option Heap :=
  match descend fuel h root sensor with
  | none => none
  | some p =>
    match deref h p with
    | none => none
    | some n =>
      match pushSensor n sensor with
      | none => none
      | some n1 =>
        match updateBoundingBox (store h p n1) p with
        | none => none
        | some h2 =>
          match deref h2 p with
          | none => none
          | some n2 =>
            if n2.num_entries > MAX_ENTRIES then splitNode h2 p uninit else some h2

/-! ## Range query and search -/

/-- Leaf loop of `rangeQuery`: `acc` is (the callback invocations so far, `*count`). -/
def leafVisit (n : RTreeNode) (q : BoundingBox) :
    Nat → Nat → List SensorNode × Nat → Option (List SensorNode × Nat)
  | _, 0, acc => some acc
  | i, k + 1, acc =>
    match sensorSlot n i with
    | none => none
    | some s =>
      leafVisit n q (i + 1) k
        (if overlaps (createBoundingBoxForSensor s) q then (acc.1 ++ [s], acc.2 + 1) else acc)

/-- A `for` loop over the child slots `i, i+1, ...` (`k` iterations) threading a state. -/
def childLoop {σ : Type} (n : RTreeNode) (body : Nat → σ → Option σ) : Nat → Nat → σ → Option σ
  | _, 0, acc => some acc
  | i, k + 1, acc =>
    match childSlot n i with
    | none => none
    | some c =>
      match body c acc with
      | none => none
      | some acc1 => childLoop n body (i + 1) k acc1

/-- Source `rangeQuery(node, query_box, callback, count)`: the sequence of callback invocations
and the counter, appended to `acc`. -/
def rangeQuery : Nat → Heap → Nat → BoundingBox → List SensorNode × Nat →
    Option (List SensorNode × Nat)
  | 0, _, _, _, _ => none
  | fuel + 1, h, p, q, acc =>
    match deref h p with
    | none => none
    | some n =>
      if !overlaps n.bbox q then some acc
      else if n.is_leaf then leafVisit n q 0 n.num_entries acc
      else childLoop n (fun c a => rangeQuery fuel h c q a) 0 n.num_entries acc

/-- Leaf scan shared by search and delete: index of the first entry at the target's
coordinates among slots `i, i+1, ...` (`k` iterations). -/
def leafScan (n : RTreeNode) (target : SensorNode) : Nat → Nat → Option (Option Nat)
  | _, 0 => some none
  | i, k + 1 =>
    match sensorSlot n i with
    | none => none
    | some s =>
      if s.x = target.x ∧ s.y = target.y then some (some i)
      else leafScan n target (i + 1) k

/-- Internal loop of `searchSensorInRTree`: first non-NULL result among the children. -/
def searchLoop (n : RTreeNode) (body : Nat → Option (Option SensorNode)) :
    Nat → Nat → Option (Option SensorNode)
  | _, 0 => some none
  | i, k + 1 =>
    match childSlot n i with
    | none => none
    | some c =>
      match body c with
      | none => none
      | some (some r) => some (some r)
      | some none => searchLoop n body (i + 1) k

/-- Source `searchSensorInRTree(node, target)`: `some none` is `NULL`. -/
def searchSensorInRTree : Nat → Heap → Nat → SensorNode → Option (Option SensorNode)
  | 0, _, _, _ => none
  | fuel + 1, h, p, target =>
    match deref h p with
    | none => none
    | some n =>
      if !overlaps n.bbox (createBoundingBoxForSensor target) then some none
      else if n.is_leaf then
        match leafScan n target 0 n.num_entries with
        | none => none
        | some none => some none
        | some (some i) => (sensorSlot n i).map some
      else searchLoop n (fun c => searchSensorInRTree fuel h c target) 0 n.num_entries

/-! ## Deletion -/

/-- Source `for (j = i; ...; j++) a[j] = a[j + 1]`, `k` iterations. -/
def shiftSlots {α : Type} : Nat → Nat → List α → Option (List α)
  | _, 0, l => some l
  | j, k + 1, l =>
    match l[j + 1]? with
    | none => none
    | some v =>
      match writeSlot l j v with
      | none => none
      | some l1 => shiftSlots (j + 1) k l1

/-- The loop of `findSibling` over the parent's children. -/
def siblingLoop (pn : RTreeNode) (self : Nat) : Nat → Nat → Option (Option Nat)
  | _, 0 => some none
  | i, k + 1 =>
    match childSlot pn i with
    | none => none
    | some c => if c ≠ self then some (some c) else siblingLoop pn self (i + 1) k

/-- Source `findSibling(node)`: `some none` is `NULL`. -/
def findSibling (h : Heap) (p : Nat) : Option (Option Nat) :=
  match deref h p with
  | none => none
  | some n =>
    match n.parent with
    | none => some none
    | some q =>
      match deref h q with
      | none => none
      | some pn => siblingLoop pn p 0 pn.num_entries

/-- Leaf merge loop: `node->sensors[node->num_entries++] = sibling->sensors[i]`. -/
def absorbSensors (sib : RTreeNode) : Nat → Nat → RTreeNode → Option RTreeNode
  | _, 0, n => some n
  | i, k + 1, n =>
    match sensorSlot sib i with
    | none => none
    | some s =>
      match pushSensor n s with
      | none => none
      | some n1 => absorbSensors sib (i + 1) k n1

/-- Leaf merge: the loop that removes `sibling` from the parent's `children`, run after
the parent's `num_entries` was decremented. -/
def removeLoop (pn : RTreeNode) (sibling : Nat) : Nat → Nat → Option RTreeNode
  | _, 0 => some pn
  | i, k + 1 =>
    match childSlot pn i with
    | none => none
    | some c =>
      if c = sibling then
        (shiftSlots i (pn.num_entries - i) pn.children).map (fun l => { pn with children := l })
      else removeLoop pn sibling (i + 1) k

/-- Underflow handling of a leaf (`node->num_entries < MIN_ENTRIES && node->parent != NULL`). -/
def leafUnderflow (h : Heap) (p : Nat) : Option Heap :=
  match deref h p with
  | none => none
  | some n =>
    match findSibling h p with
    | none => none
    | some none => some h
    | some (some sp) =>
      match deref h sp with
      | none => none
      | some sib =>
        if sib.num_entries > MIN_ENTRIES then
          match sensorSlot sib (sib.num_entries - 1) with
          | none => none
          | some s =>
            match pushSensor n s with
            | none => none
            | some n1 =>
              let h1 := store h p n1
              match deref h1 sp with
              | none => none
              | some sib1 =>
                let h2 := store h1 sp { sib1 with num_entries := sib1.num_entries - 1 }
                match updateBoundingBox h2 p with
                | none => none
                | some h3 => updateBoundingBox h3 sp
        else
          match absorbSensors sib 0 sib.num_entries n with
          | none => none
          | some n1 =>
            let h1 := store h p n1
            match n1.parent with
            | none => none
            | some q =>
              match deref h1 q with
              | none => none
              | some pn =>
                let pn1 := { pn with num_entries := pn.num_entries - 1 }
                match removeLoop pn1 sp 0 pn1.num_entries with
                | none => none
                | some pn2 => updateBoundingBox (release (store h1 q pn2) sp) q

/-- Leaf case of `deleteSensorFromRTree`. The flag tells whether
"Sensor not found in the tree." was printed. -/
def deleteLeaf (h : Heap) (p : Nat) (target : SensorNode) : Option (Heap × Bool) :=
  match deref h p with
  | none => none
  | some n =>
    match leafScan n target 0 n.num_entries with
    | none => none
    | some none => some (h, true)
    | some (some i) =>
      match shiftSlots i (n.num_entries - 1 - i) n.sensors with
      | none => none
      | some l =>
        let h1 := store h p { n with sensors := l, num_entries := n.num_entries - 1 }
        match updateBoundingBox h1 p with
        | none => none
        | some h2 =>
          match deref h2 p with
          | none => none
          | some n2 =>
            if n2.num_entries < MIN_ENTRIES ∧ n2.parent ≠ none then
              (leafUnderflow h2 p).map (fun h3 => (h3, false))
            else some (h2, false)

/-- Internal case: index of the first child whose box overlaps the target's box. -/
def overlapLoop (h : Heap) (n : RTreeNode) (sb : BoundingBox) : Nat → Nat → Option (Option Nat)
  | _, 0 => some none
  | i, k + 1 =>
    match childSlot n i with
    | none => none
    | some c =>
      match deref h c with
      | none => none
      | some cn => if overlaps cn.bbox sb then some (some i) else overlapLoop h n sb (i + 1) k

/-- Internal merge loop over the sibling's children:
`node->children[i]->children[node->children[i]->num_entries++] = sibling->children[j];`
`sibling->children[j]->parent = node->children[i];`. -/
def absorbChildren (p i sp : Nat) : Nat → Nat → Heap → Option Heap
  | _, 0, h => some h
  | j, k + 1, h =>
    match deref h p with
    | none => none
    | some node =>
      match childSlot node i with
      | none => none
      | some c =>
        match deref h c, deref h sp with
        | some cn, some sib =>
          match childSlot sib j with
          | none => none
          | some g =>
            match pushChild cn g with
            | none => none
            | some cn1 =>
              let h1 := store h c cn1
              match deref h1 sp with
              | none => none
              | some sib1 =>
                match childSlot sib1 j with
                | none => none
                | some g1 =>
                  match deref h1 g1, deref h1 p with
                  | some gn, some node1 =>
                    match childSlot node1 i with
                    | none => none
                    | some c1 => absorbChildren p i sp (j + 1) k (store h1 g1 { gn with parent := some c1 })
                  | _, _ => none
        | _, _ => none

/-- The check made in the internal case after the recursive call returned:
`child = node->children[i]` and its borrow or merge. -/
def rebalanceChild (h : Heap) (p i : Nat) : Option Heap :=
  match deref h p with
  | none => none
  | some node =>
    match childSlot node i with
    | none => none
    | some child =>
      match deref h child with
      | none => none
      | some cn =>
        if cn.num_entries < MIN_ENTRIES then
          match findSibling h child with
          | none => none
          | some none => some h
          | some (some sp) =>
            match deref h sp with
            | none => none
            | some sib =>
              if sib.num_entries > MIN_ENTRIES then
                match childSlot sib (sib.num_entries - 1) with
                | none => none
                | some g =>
                  match setChild node i g with
                  | none => none
                  | some node1 =>
                    let h1 := store h p node1
                    match deref h1 sp with
                    | none => none
                    | some sib1 =>
                      match childSlot sib1 (sib1.num_entries - 1) with
                      | none => none
                      | some g1 =>
                        match deref h1 g1 with
                        | none => none
                        | some gn =>
                          let h2 := store h1 g1 { gn with parent := some p }
                          match deref h2 sp with
                          | none => none
                          | some sib2 =>
                            let h3 := store h2 sp { sib2 with num_entries := sib2.num_entries - 1 }
                            match updateBoundingBox h3 child with
                            | none => none
                            | some h4 =>
                              match updateBoundingBox h4 sp with
                              | none => none
                              | some h5 => updateBoundingBox h5 p
              else
                match absorbChildren p i sp 0 sib.num_entries h with
                | none => none
                | some h1 =>
                  match deref h1 p with
                  | none => none
                  | some node1 =>
                    let cnt := node1.num_entries - 1
                    match shiftSlots i (cnt - i) node1.children with
                    | none => none
                    | some l =>
                      let node2 := { node1 with num_entries := cnt, children := l }
                      let h2 := release (store h1 p node2) sp
                      match childSlot node2 i with
                      | none => none
                      | some c2 =>
                        match updateBoundingBox h2 c2 with
                        | none => none
                        | some h3 => updateBoundingBox h3 p
        else some h

/-- Source `deleteSensorFromRTree(node, sensor)`. The flag tells whether
"Sensor not found in the tree." was printed. -/
def deleteSensorFromRTree : Nat → Heap → Nat → SensorNode → Option (Heap × Bool)
  | 0, _, _, _ => none
  | fuel + 1, h, p, target =>
    match deref h p with
    | none => none
    | some n =>
      if n.is_leaf then deleteLeaf h p target
      else
        match overlapLoop h n (createBoundingBoxForSensor target) 0 n.num_entries with
        | none => none
        | some none => some (h, false)
        | some (some i) =>
          match childSlot n i with
          | none => none
          | some c =>
            match deleteSensorFromRTree fuel h c target with
            | none => none
            | some (h1, notFound) => (rebalanceChild h1 p i).map (fun h2 => (h2, notFound))

/-! ## The program's tree and the vocabulary of the properties -/

/-- The tree `main` starts with: `root = createRTreeNode(1)` at address 0. -/
def initialHeap (uninit : Nat → BoundingBox) : Heap :=
  (createRTreeNode [] true (uninit 0)).1

/-- Insert the records of a list one at a time, always through the pointer `root = 0`
that `main` holds. -/
def insertAll (fuel : Nat) (uninit : Nat → BoundingBox) : List SensorNode → Heap → Option Heap
  | [], h => some h
  | s :: rest, h =>
    match insertSensorIntoRTree fuel h 0 s uninit with
    | none => none
    | some h1 => insertAll fuel uninit rest h1

/-- The record `s` has the coordinates of `target`. -/
def sameXY (target s : SensorNode) : Bool :=
  decide (s.x = target.x ∧ s.y = target.y)

/-- The point of `s` lies within or on the boundary of `q`. -/
def inBox (q : BoundingBox) (s : SensorNode) : Bool :=
  decide (q.min_x ≤ s.x ∧ s.x ≤ q.max_x ∧ q.min_y ≤ s.y ∧ s.y ≤ q.max_y)

/-- The entries of a leaf: the slots below `num_entries`. -/
def leafEntries (n : RTreeNode) : List SensorNode :=
  n.sensors.take n.num_entries

/-- The box `updateBoundingBox` computes for a leaf with the given entries. -/
def leafBox : List SensorNode → BoundingBox
  | [] => ⟨INT_MAX, INT_MAX, INT_MIN, INT_MIN⟩
  | s :: rest =>
    rest.foldl (fun b e => expandToInclude b (createBoundingBoxForSensor e))
      (createBoundingBoxForSensor s)

/-- Box `b` contains box `e`. -/
def BoundingBox.contains (b e : BoundingBox) : Prop :=
  b.min_x ≤ e.min_x ∧ b.min_y ≤ e.min_y ∧ e.max_x ≤ b.max_x ∧ e.max_y ≤ b.max_y

/-- The address `p` holds a parentless leaf whose entries are `es`, with every slot below
`num_entries` written and, when there are entries, the box `updateBoundingBox` gives. -/
def RootLeaf (h : Heap) (p : Nat) (es : List SensorNode) : Prop :=
  ∃ n, deref h p = some n ∧ n.is_leaf = true ∧ n.parent = none ∧
    n.num_entries ≤ n.sensors.length ∧ leafEntries n = es ∧
    (es ≠ [] → n.bbox = leafBox es)

/-- Heaps the program can reach from its initial tree by calls of
`insertSensorIntoRTree(root, ·)` and `deleteSensorFromRTree(root, ·)` that return. -/
inductive Reachable : Heap → Prop
  | init (uninit : Nat → BoundingBox) : Reachable (initialHeap uninit)
  | insert {h h1 : Heap} (fuel : Nat) (s : SensorNode) (uninit : Nat → BoundingBox) :
      Reachable h → insertSensorIntoRTree fuel h 0 s uninit = some h1 → Reachable h1
  | delete {h h1 : Heap} (fuel : Nat) (t : SensorNode) (b : Bool) :
      Reachable h → deleteSensorFromRTree fuel h 0 t = some (h1, b) → Reachable h1

/-- The entries from index `i` on that step 3 of `splitNode` distributes: all but the
two seeds, in index order. -/
def nonSeeds {α : Type} (seed1 seed2 : Nat) : Nat → List α → List α
  | _, [] => []
  | i, s :: rest =>
    if i = seed1 ∨ i = seed2 then nonSeeds seed1 seed2 (i + 1) rest
    else s :: nonSeeds seed1 seed2 (i + 1) rest

/-! ## Concrete memories and trees used in the evaluations -/

/-- Fresh memory that reads as zero. -/
def zeroMem : Nat → BoundingBox := fun _ => ⟨0, 0, 0, 0⟩

/-- The records of scenario 2. -/
def scenario2 : List SensorNode := [⟨1, 1, 50, 5, 60⟩, ⟨2, 2, 55, 6, 65⟩]

/-- A leaf with six entries, as the root leaf is after six insertions. -/
def sixLeaf : RTreeNode :=
  ⟨true, ⟨0, 0, 100, 100⟩, [],
   [⟨0, 0, 0, 0, 0⟩, ⟨1, 1, 0, 0, 0⟩, ⟨2, 2, 0, 0, 0⟩, ⟨3, 3, 0, 0, 0⟩, ⟨4, 4, 0, 0, 0⟩,
    ⟨100, 100, 0, 0, 0⟩], 6, none⟩

/-- The points of scenario 1 (payloads zero). -/
def scenario1 : List SensorNode :=
  [⟨0, 0, 0, 0, 0⟩, ⟨10, 10, 0, 0, 0⟩, ⟨20, 20, 0, 0, 0⟩, ⟨30, 30, 0, 0, 0⟩, ⟨40, 40, 0, 0, 0⟩]

/-- The root leaf of scenario 1 after the fifth record was stored and its box updated,
as `splitNode` receives it. -/
def fiveLeaf : RTreeNode := ⟨true, ⟨0, 0, 40, 40⟩, [], scenario1, 5, none⟩

/-- A tree of height 2 with exact boxes and occupancy within bounds: the root (address 0)
has the leaves 1 (full) and 2 as children. -/
def tree2 : Heap :=
  [some ⟨false, ⟨0, 0, 12, 12⟩, [1, 2], [], 2, none⟩,
   some ⟨true, ⟨0, 0, 3, 3⟩, [],
     [⟨0, 0, 0, 0, 0⟩, ⟨1, 1, 0, 0, 0⟩, ⟨2, 2, 0, 0, 0⟩, ⟨3, 3, 0, 0, 0⟩], 4, some 0⟩,
   some ⟨true, ⟨10, 10, 12, 12⟩, [], [⟨10, 10, 0, 0, 0⟩, ⟨12, 12, 0, 0, 0⟩], 2, some 0⟩]

/-- A tree of height 3 with exact boxes: the root (address 0) has the internal children 1
and 2; node 1 has the single leaf 3, node 2 the leaves 4, 5 and 6. No record is at (1,1). -/
def tree3 : Heap :=
  [some ⟨false, ⟨0, 0, 31, 31⟩, [1, 2], [], 2, none⟩,
   some ⟨false, ⟨0, 0, 2, 2⟩, [3], [], 1, some 0⟩,
   some ⟨false, ⟨10, 10, 31, 31⟩, [4, 5, 6], [], 3, some 0⟩,
   some ⟨true, ⟨0, 0, 2, 2⟩, [], [⟨0, 0, 0, 0, 0⟩, ⟨2, 2, 0, 0, 0⟩], 2, some 1⟩,
   some ⟨true, ⟨10, 10, 11, 11⟩, [], [⟨10, 10, 0, 0, 0⟩, ⟨11, 11, 0, 0, 0⟩], 2, some 2⟩,
   some ⟨true, ⟨20, 20, 21, 21⟩, [], [⟨20, 20, 0, 0, 0⟩, ⟨21, 21, 0, 0, 0⟩], 2, some 2⟩,
   some ⟨true, ⟨30, 30, 31, 31⟩, [], [⟨30, 30, 0, 0, 0⟩, ⟨31, 31, 0, 0, 0⟩], 2, some 2⟩]

/-! ## Well-formed trees and occupancy -/

/-- The address `p` is the root of a subtree of height `d` whose nodes are all allocated:
a leaf with every slot below `num_entries` written, or an internal node with at least
one child whose child slots below `num_entries` are written and point to such subtrees
of height `d - 1`. -/
def WellFormed : Nat → Heap → Nat → Prop
  | 0, h, p => ∃ n, deref h p = some n ∧ n.is_leaf = true ∧ n.num_entries ≤ n.sensors.length
  | d + 1, h, p => ∃ n, deref h p = some n ∧ n.is_leaf = false ∧ 1 ≤ n.num_entries ∧
      ∀ i, i < n.num_entries → ∃ c, n.children[i]? = some c ∧ WellFormed d h c

/-- Every allocated node other than the root holds between MIN_ENTRIES and MAX_ENTRIES
entries. -/
def Occupancy (h : Heap) (root : Nat) : Prop :=
  ∀ a n, a ≠ root → deref h a = some n →
    MIN_ENTRIES ≤ n.num_entries ∧ n.num_entries ≤ MAX_ENTRIES

/-- The address `r` holds an internal node whose children are pairwise distinct leaves
with their parent reference set to `r` and every slot below `num_entries` written: a
tree of height 2. -/
def Flat (h : Heap) (r : Nat) : Prop :=
  ∃ root, deref h r = some root ∧ root.is_leaf = false ∧
    root.num_entries ≤ root.children.length ∧
    (root.children.take root.num_entries).Nodup ∧
    ∀ c ∈ root.children.take root.num_entries, c ≠ r ∧
      ∃ n, deref h c = some n ∧ n.is_leaf = true ∧ n.parent = some r ∧
        n.num_entries ≤ n.sensors.length

/-- A tree of height 2 whose root has a single leaf child holding MIN_ENTRIES records. -/
def onlyChild : Heap :=
  [some ⟨false, ⟨0, 0, 2, 2⟩, [1], [], 1, none⟩,
   some ⟨true, ⟨0, 0, 2, 2⟩, [], [⟨0, 0, 0, 0, 0⟩, ⟨2, 2, 0, 0, 0⟩], 2, some 0⟩]

/-! ## Records of a tree -/

/-- The records stored in the subtree at `p`, in pre-order: the entries of a leaf, or the
records of the children below `num_entries` one after the other. `fuel` bounds the depth. -/
def treeRecords : Nat → Heap → Nat → List SensorNode
  | 0, _, _ => []
  | fuel + 1, h, p =>
    match deref h p with
    | none => []
    | some n =>
      if n.is_leaf then leafEntries n
      else (n.children.take n.num_entries).flatMap (treeRecords fuel h)

/-- The records, in pre-order, of the leaves reached from `p` through nodes whose box
overlaps `q` (the node at `p` included). -/
def reachedRecords (q : BoundingBox) : Nat → Heap → Nat → List SensorNode
  | 0, _, _ => []
  | fuel + 1, h, p =>
    match deref h p with
    | none => []
    | some n =>
      if !overlaps n.bbox q then []
      else if n.is_leaf then leafEntries n
      else (n.children.take n.num_entries).flatMap (reachedRecords q fuel h)

/-- The address `p` is the root of a tree of height below `fuel` whose nodes are all
allocated: every leaf has its slots below `num_entries` written, every internal node has
its child slots below `num_entries` written and they point to such trees. -/
def IsTree : Nat → Heap → Nat → Prop
  | 0, _, _ => False
  | fuel + 1, h, p => ∃ n, deref h p = some n ∧
      (n.is_leaf = true → n.num_entries ≤ n.sensors.length) ∧
      (n.is_leaf = false → ∀ i, i < n.num_entries → ∃ c, n.children[i]? = some c ∧ IsTree fuel h c)

/-- In the subtree at `p` the box of every node contains the boxes of all of its entries:
the points of a leaf, the boxes of the children of an internal node. -/
def Covering : Nat → Heap → Nat → Prop
  | 0, _, _ => True
  | fuel + 1, h, p => ∀ n, deref h p = some n →
      (n.is_leaf = true → ∀ s ∈ leafEntries n, n.bbox.contains (createBoundingBoxForSensor s)) ∧
      (n.is_leaf = false → ∀ c ∈ n.children.take n.num_entries,
        (∀ cn, deref h c = some cn → n.bbox.contains cn.bbox) ∧ Covering fuel h c)

/-- Decision procedure for `Occupancy`. -/
def occupancyCheck (h : Heap) (root : Nat) : Bool :=
  (List.range h.length).all (fun a => a == root ||
    (deref h a).all (fun n => decide (MIN_ENTRIES ≤ n.num_entries ∧ n.num_entries ≤ MAX_ENTRIES)))

/-- A tree of height 2 with exact boxes and occupancy within bounds in which the boxes of
both leaves contain the point (5,5); the record at (5,5) is in the second leaf. -/
def overlapTree : Heap :=
  [some ⟨false, ⟨0, 0, 20, 20⟩, [1, 2], [], 2, none⟩,
   some ⟨true, ⟨0, 0, 10, 10⟩, [], [⟨0, 0, 0, 0, 0⟩, ⟨10, 10, 0, 0, 0⟩], 2, some 0⟩,
   some ⟨true, ⟨5, 5, 20, 20⟩, [], [⟨5, 5, 7, 8, 9⟩, ⟨20, 20, 0, 0, 0⟩], 2, some 0⟩]

/-- A tree of height 3 with exact boxes and occupancy within bounds: the root (address 0)
has the internal children 1 and 2; node 1 has the leaves 3 and 4, node 2 the leaves 5, 6
and 7; every leaf holds two records. -/
def fullTree3 : Heap :=
  [some ⟨false, ⟨0, 0, 41, 41⟩, [1, 2], [], 2, none⟩,
   some ⟨false, ⟨0, 0, 11, 11⟩, [3, 4], [], 2, some 0⟩,
   some ⟨false, ⟨20, 20, 41, 41⟩, [5, 6, 7], [], 3, some 0⟩,
   some ⟨true, ⟨0, 0, 1, 1⟩, [], [⟨0, 0, 0, 0, 0⟩, ⟨1, 1, 0, 0, 0⟩], 2, some 1⟩,
   some ⟨true, ⟨10, 10, 11, 11⟩, [], [⟨10, 10, 0, 0, 0⟩, ⟨11, 11, 0, 0, 0⟩], 2, some 1⟩,
   some ⟨true, ⟨20, 20, 21, 21⟩, [], [⟨20, 20, 0, 0, 0⟩, ⟨21, 21, 0, 0, 0⟩], 2, some 2⟩,
   some ⟨true, ⟨30, 30, 31, 31⟩, [], [⟨30, 30, 0, 0, 0⟩, ⟨31, 31, 0, 0, 0⟩], 2, some 2⟩,
   some ⟨true, ⟨40, 40, 41, 41⟩, [], [⟨40, 40, 0, 0, 0⟩, ⟨41, 41, 0, 0, 0⟩], 2, some 2⟩]

/-- A tree of height 2 with exact boxes whose two leaves hold MIN_ENTRIES records each. -/
def mergeTree : Heap :=
  [some ⟨false, ⟨0, 0, 11, 11⟩, [1, 2], [], 2, none⟩,
   some ⟨true, ⟨0, 0, 1, 1⟩, [], [⟨0, 0, 0, 0, 0⟩, ⟨1, 1, 0, 0, 0⟩], 2, some 0⟩,
   some ⟨true, ⟨10, 10, 11, 11⟩, [], [⟨10, 10, 0, 0, 0⟩, ⟨11, 11, 0, 0, 0⟩], 2, some 0⟩]

/-- Manhattan distance `|x1 - x2| + |y1 - y2|` of two points, over the integers. -/
def manhattan (a b : SensorNode) : Int :=
  (if a.x < b.x then b.x - a.x else a.x - b.x) + (if a.y < b.y then b.y - a.y else a.y - b.y)

/-- The distance `splitNode` computes for the entries at indices `i` and `j` of a list. -/
def pairDistance (l : List SensorNode) (i j : Nat) : Int :=
  match l[i]?, l[j]? with
  | some a, some b => seedDistance a b
  | _, _ => 0

/-- The pair `(i, j)` comes before `(s1, s2)` in the order of the two nested loops. -/
def pairBefore (i j s1 s2 : Nat) : Prop := i < s1 ∨ (i = s1 ∧ j < s2)

/-- Invariant of the seed search over the list `l` when every pair before `(i, j)` has been
compared: `max_distance` bounds their distances, and it is either still 0 with the
initial seeds, or the distance of the seeds, which no earlier pair reaches. -/
def SeedInv (l : List SensorNode) (st : Seeds) (i j : Nat) : Prop :=
  (∀ i1 j1, i1 < j1 → j1 < l.length → pairBefore i1 j1 i j →
    pairDistance l i1 j1 ≤ st.max_distance) ∧
  ((st.max_distance = 0 ∧ st.seed1 = 0 ∧ st.seed2 = 1) ∨
   (0 < st.max_distance ∧ pairDistance l st.seed1 st.seed2 = st.max_distance ∧
    ∀ i1 j1, i1 < j1 → j1 < l.length → pairBefore i1 j1 st.seed1 st.seed2 →
      pairDistance l i1 j1 < st.max_distance))

/-- A leaf with three entries whose pairwise distances do not all fit in an `int`. -/
def farLeaf : RTreeNode :=
  ⟨true, ⟨0, 0, 2147483647, 1⟩, [],
   [⟨0, 0, 0, 0, 0⟩, ⟨1, 0, 0, 0, 0⟩, ⟨2147483647, 1, 0, 0, 0⟩], 3, none⟩

/-- The enlargement `insertSensorIntoRTree` computes for child slot `j` of node `n`:
`area(expanded_bbox) - area(&node->children[j]->bbox)` in `int` arithmetic. -/
def slotEnlargement (h : Heap) (n : RTreeNode) (sb : BoundingBox) (j : Nat) : Int :=
  match (childSlot n j).bind (deref h) with
  | some cn => enlargement cn.bbox sb
  | none => 0

/-- Invariant of the child-selection loop before slot `i` is looked at: `min_enlargement`
is a lower bound of the enlargements of the slots seen, and `best_child` is either still
`children[0]` with `min_enlargement = INT_MAX`, or it is the child in the first slot
whose enlargement is `min_enlargement`. -/
def ChooseInv (h : Heap) (n : RTreeNode) (sb : BoundingBox) (c0 i : Nat) (st : Nat × Int) : Prop :=
  (∀ j, j < i → st.2 ≤ slotEnlargement h n sb j) ∧
  ((st.2 = INT_MAX ∧ st.1 = c0) ∨
   (∃ m, m < i ∧ n.children[m]? = some st.1 ∧ slotEnlargement h n sb m = st.2 ∧
      ∀ j, j < m → st.2 < slotEnlargement h n sb j))

/-! ## Boxes of the entries and write indices -/

/-- The box `updateBoundingBox` computes from the boxes of the entries: the first one expanded
by the others in turn, or (INT_MAX, INT_MAX, INT_MIN, INT_MIN) when there is none. -/
def unionBoxes : List BoundingBox → BoundingBox
  | [] => ⟨INT_MAX, INT_MAX, INT_MIN, INT_MIN⟩
  | b :: rest => rest.foldl expandToInclude b

/-- The boxes of the entries of a node, in index order, as `updateBoundingBox` reads them:
the degenerate boxes of the sensors of a leaf, the boxes of the children of an internal
node. -/
def entryBoxes (h : Heap) (n : RTreeNode) : List BoundingBox :=
  (List.range n.num_entries).filterMap (entryBox h n)

/-- The four coordinates of the box are values of the C type `int`. -/
def BoundingBox.inRange (b : BoundingBox) : Prop :=
  (INT_MIN ≤ b.min_x ∧ b.min_x ≤ INT_MAX) ∧ (INT_MIN ≤ b.min_y ∧ b.min_y ≤ INT_MAX) ∧
  (INT_MIN ≤ b.max_x ∧ b.max_x ≤ INT_MAX) ∧ (INT_MIN ≤ b.max_y ∧ b.max_y ≤ INT_MAX)

/-- Number of slots `createRTreeNode` allocates for the entry array of a node:
`malloc(MAX_ENTRIES * sizeof(SensorNode *))`, `malloc(MAX_ENTRIES * sizeof(RTreeNode *))`. -/
def CAPACITY : Nat := MAX_ENTRIES

/-- Index of the slot `insertSensorIntoRTree` writes, `node->sensors[node->num_entries] = sensor`:
the entry count of the leaf the descent reaches. -/
def insertSlot (fuel : Nat) (h : Heap) (root : Nat) (sensor : SensorNode) : Option Nat :=
  (descend fuel h root sensor).bind (fun p => (deref h p).map (fun n => n.num_entries))

/-- Indices of the two slots step 4 of `splitNode(node)` writes in the parent,
`parent->children[parent->num_entries++] = node1` and the same for `node2`. -/
def splitSlots (h : Heap) (p : Nat) : Option (Nat × Nat) :=
  (deref h p).bind (fun n => n.parent.bind (fun q =>
    (deref h q).map (fun pn => (pn.num_entries, pn.num_entries + 1))))

/-- A tree of height 2 with exact boxes whose root has three leaf children; leaf 1 is full. -/
def wideTree : Heap :=
  [some ⟨false, ⟨0, 0, 22, 22⟩, [1, 2, 3], [], 3, none⟩,
   some ⟨true, ⟨0, 0, 3, 3⟩, [],
     [⟨0, 0, 0, 0, 0⟩, ⟨1, 1, 0, 0, 0⟩, ⟨2, 2, 0, 0, 0⟩, ⟨3, 3, 0, 0, 0⟩], 4, some 0⟩,
   some ⟨true, ⟨10, 10, 12, 12⟩, [], [⟨10, 10, 0, 0, 0⟩, ⟨12, 12, 0, 0, 0⟩], 2, some 0⟩,
   some ⟨true, ⟨20, 20, 22, 22⟩, [], [⟨20, 20, 0, 0, 0⟩, ⟨22, 22, 0, 0, 0⟩], 2, some 0⟩]

/-! ## Writes within the allocated slots, and areas over the integers -/

/-- Indices of the slots that the insertions of a list write one after the other, always
through the pointer `root = 0` that `main` holds. -/
def insertSlots (fuel : Nat) (uninit : Nat → BoundingBox) : List SensorNode → Heap → Option (List Nat)
  | [], _ => some []
  | s :: rest, h =>
    match insertSlot fuel h 0 s, insertSensorIntoRTree fuel h 0 s uninit with
    | some i, some h1 => (insertSlots fuel uninit rest h1).map (fun is => i :: is)
    | _, _ => none

/-- Heaps the program reaches from its initial tree by calls of
`insertSensorIntoRTree(root, ·)` that write within the MAX_ENTRIES slots allocated and
by calls of `deleteSensorFromRTree(root, ·)`. -/
inductive ReachableInBounds : Heap → Prop
  | init (uninit : Nat → BoundingBox) : ReachableInBounds (initialHeap uninit)
  | insert {h h1 : Heap} (fuel : Nat) (s : SensorNode) (uninit : Nat → BoundingBox) (i : Nat) :
      ReachableInBounds h → insertSlot fuel h 0 s = some i → i < CAPACITY →
      insertSensorIntoRTree fuel h 0 s uninit = some h1 → ReachableInBounds h1
  | delete {h h1 : Heap} (fuel : Nat) (t : SensorNode) (b : Bool) :
      ReachableInBounds h → deleteSensorFromRTree fuel h 0 t = some (h1, b) →
      ReachableInBounds h1

/-- Area `(max_x - min_x) * (max_y - min_y)` of a box over the integers, without the
wrap-around of `int` arithmetic. -/
def exactArea (b : BoundingBox) : Int := (b.max_x - b.min_x) * (b.max_y - b.min_y)

/-- Growth in area of `b` needed to take in `e`, over the integers:
`area(union(b, e)) - area(b)`. -/
def exactEnlargement (b e : BoundingBox) : Int := exactArea (expandToInclude b e) - exactArea b

/-- The enlargement over the integers of the box of the child in slot `j` of node `n`. -/
def slotExactEnlargement (h : Heap) (n : RTreeNode) (sb : BoundingBox) (j : Nat) : Int :=
  match (childSlot n j).bind (deref h) with
  | some cn => exactEnlargement cn.bbox sb
  | none => 0

/-- The integer is a value of the C type `int`. -/
def fitsInt (z : Int) : Prop := INT_MIN ≤ z ∧ z ≤ INT_MAX

/-- The sides and the area of the box are computed without overflow. -/
def AreaFits (b : BoundingBox) : Prop :=
  fitsInt (b.max_x - b.min_x) ∧ fitsInt (b.max_y - b.min_y) ∧ fitsInt (exactArea b)

/-- The enlargement of `b` by `e` is computed without overflow: both areas and their
difference fit in an `int`. -/
def EnlargementFits (b e : BoundingBox) : Prop :=
  AreaFits (expandToInclude b e) ∧ AreaFits b ∧ fitsInt (exactEnlargement b e)

/-- A tree of height 2 with exact boxes: leaf 1 holds two records at (0,0), leaf 2 the
records (46340,0) and (46341,0). -/
def ovTree : Heap :=
  [some ⟨false, ⟨0, 0, 46341, 0⟩, [1, 2], [], 2, none⟩,
   some ⟨true, ⟨0, 0, 0, 0⟩, [], [⟨0, 0, 0, 0, 0⟩, ⟨0, 0, 1, 1, 1⟩], 2, some 0⟩,
   some ⟨true, ⟨46340, 0, 46341, 0⟩, [], [⟨46340, 0, 0, 0, 0⟩, ⟨46341, 0, 0, 0, 0⟩], 2, some 0⟩]

/-! ## Lemmas on the heap, the loops and the leaf operations -/

theorem deref_lt {h : Heap} {p : Nat} {n : RTreeNode} (hd : deref h p = some n) : p < h.length := by
  unfold deref at hd
  by_contra hlt
  rw [List.getElem?_eq_none (by omega)] at hd
  simp at hd

theorem deref_store_same {h : Heap} {p : Nat} (n : RTreeNode) (hp : p < h.length) :
    deref (store h p n) p = some n := by
  simp [deref, store, hp]

theorem deref_store_ne {h : Heap} {p a : Nat} (n : RTreeNode) (hne : a ≠ p) :
    deref (store h p n) a = deref h a := by
  unfold deref store
  rw [List.getElem?_set_ne (Ne.symm hne)]

theorem store_store (h : Heap) (p : Nat) (a b : RTreeNode) :
    store (store h p a) p b = store h p b := by
  simp [store]

theorem length_store (h : Heap) (p : Nat) (a : RTreeNode) : (store h p a).length = h.length := by
  simp [store]

theorem deref_append {h : Heap} {p : Nat} {n : RTreeNode} (l : Heap) (hd : deref h p = some n) :
    deref (h ++ l) p = some n := by
  have hp := deref_lt hd
  unfold deref at hd ⊢
  rw [List.getElem?_append_left hp]
  exact hd

theorem take_drop_succ {α : Type} (l : List α) (i k : Nat) (hi : i < l.length) :
    (l.drop i).take (k + 1) = l[i] :: (l.drop (i + 1)).take k := by
  rw [List.drop_eq_getElem_cons hi, List.take_succ_cons]

theorem overlaps_point (s : SensorNode) (q : BoundingBox) :
    overlaps (createBoundingBoxForSensor s) q = inBox q s := by
  unfold overlaps inBox createBoundingBoxForSensor
  simp only [gt_iff_lt]
  by_cases h1 : q.min_x ≤ s.x <;> by_cases h2 : s.x ≤ q.max_x <;>
    by_cases h3 : q.min_y ≤ s.y <;> by_cases h4 : s.y ≤ q.max_y <;>
    (simp [h1, h2, h3, h4]; try omega)

theorem leafVisit_eq (n : RTreeNode) (q : BoundingBox) (hl : n.is_leaf = true) :
    ∀ (k i : Nat) (acc : List SensorNode × Nat), i + k ≤ n.sensors.length →
      leafVisit n q i k acc =
        some (acc.1 ++ ((n.sensors.drop i).take k).filter (inBox q),
              acc.2 + (((n.sensors.drop i).take k).filter (inBox q)).length) := by
  intro k
  induction k with
  | zero => intro i acc _; simp [leafVisit]
  | succ k ih =>
    intro i acc hb
    have hi : i < n.sensors.length := by omega
    rw [take_drop_succ _ _ _ hi]
    simp only [leafVisit, sensorSlot, hl, if_true, List.getElem?_eq_getElem hi]
    rw [ih (i + 1) _ (by omega), overlaps_point]
    by_cases hin : inBox q n.sensors[i] = true
    · simp [hin, List.filter_cons, Nat.add_assoc, Nat.add_comm]
    · simp [hin, List.filter_cons]

theorem leafScan_eq (n : RTreeNode) (t : SensorNode) (hl : n.is_leaf = true) :
    ∀ (k i : Nat), i + k ≤ n.sensors.length →
      leafScan n t i k = some (List.findIdx? (sameXY t) ((n.sensors.drop i).take k) i) := by
  intro k
  induction k with
  | zero => intro i _; simp [leafScan]
  | succ k ih =>
    intro i hb
    have hi : i < n.sensors.length := by omega
    rw [take_drop_succ _ _ _ hi]
    simp only [leafScan, sensorSlot, hl, if_true, List.getElem?_eq_getElem hi, List.findIdx?_cons]
    by_cases hm : sameXY t n.sensors[i] = true
    · have : n.sensors[i].x = t.x ∧ n.sensors[i].y = t.y := by simpa [sameXY] using hm
      simp [hm, this]
    · have : ¬ (n.sensors[i].x = t.x ∧ n.sensors[i].y = t.y) := by simpa [sameXY] using hm
      simp only [hm, this, if_false]
      exact ih (i + 1) (by omega)

theorem entryBox_leaf (h : Heap) {n : RTreeNode} {i : Nat} (hl : n.is_leaf = true)
    (hi : i < n.sensors.length) :
    entryBox h n i = some (createBoundingBoxForSensor n.sensors[i]) := by
  simp [entryBox, hl, sensorSlot, List.getElem?_eq_getElem hi]

theorem store_self {h : Heap} {p : Nat} {n : RTreeNode} (hd : deref h p = some n) :
    store h p n = h := by
  have hp := deref_lt hd
  unfold store
  apply List.ext_getElem?
  intro j
  by_cases hj : p = j
  · subst hj
    simp only [List.getElem?_set_self, hp]
    unfold deref at hd
    rw [List.getElem?_eq_getElem hp] at hd ⊢
    simp at hd
    simp [hd]
  · rw [List.getElem?_set_ne hj]

/-- Fold of `expandToInclude` over the boxes of a list of sensors. -/
theorem updateLoop_leaf (p : Nat) :
    ∀ (k i : Nat) (h : Heap) (n : RTreeNode), deref h p = some n → n.is_leaf = true →
      i + k ≤ n.sensors.length →
      updateLoop p i k h =
        some (store h p { n with bbox := (List.foldl
            (fun b e => expandToInclude b (createBoundingBoxForSensor e)) n.bbox
            ((n.sensors.drop i).take k)) }) := by
  intro k
  induction k with
  | zero =>
    intro i h n hd _ _
    simp only [updateLoop, List.take_zero, List.foldl_nil]
    rw [store_self hd]
  | succ k ih =>
    intro i h n hd hl hb
    have hi : i < n.sensors.length := by omega
    have hp := deref_lt hd
    rw [take_drop_succ _ _ _ hi]
    simp only [updateLoop, hd, entryBox_leaf h hl hi]
    rw [ih (i + 1) _ { n with bbox := expandToInclude n.bbox (createBoundingBoxForSensor n.sensors[i]) }
      (deref_store_same _ hp) hl (by show i + 1 + k ≤ n.sensors.length; omega), store_store]
    simp

/-- On a leaf `updateBoundingBox` stores `leafBox` of the entries and changes nothing else. -/
theorem updateBoundingBox_leaf {h : Heap} {p : Nat} {n : RTreeNode} (hd : deref h p = some n)
    (hl : n.is_leaf = true) (hb : n.num_entries ≤ n.sensors.length) :
    updateBoundingBox h p = some (store h p { n with bbox := leafBox (leafEntries n) }) := by
  have hp := deref_lt hd
  unfold updateBoundingBox
  simp only [hd]
  by_cases h0 : n.num_entries = 0
  · simp [h0, leafEntries, leafBox]
  · have hpos : 0 < n.sensors.length := by omega
    simp only [h0, if_false, entryBox_leaf h hl hpos]
    rw [updateLoop_leaf p _ 1 _ { n with bbox := createBoundingBoxForSensor n.sensors[0] }
      (deref_store_same _ hp) hl (by simp; omega), store_store]
    have hk : n.num_entries = (n.num_entries - 1) + 1 := by omega
    have : leafEntries n = n.sensors[0] :: (n.sensors.drop 1).take (n.num_entries - 1) := by
      unfold leafEntries
      conv_lhs => rw [hk]
      have := take_drop_succ n.sensors 0 (n.num_entries - 1) hpos
      simpa using this
    rw [this]
    simp [leafBox]

theorem writeSlot_take {α : Type} (l : List α) (i : Nat) (v : α) (hi : i ≤ l.length) :
    ∃ l1, writeSlot l i v = some l1 ∧ l1.take (i + 1) = l.take i ++ [v] ∧ i + 1 ≤ l1.length := by
  unfold writeSlot
  by_cases hlt : i < l.length
  · refine ⟨l.set i v, by simp [hlt], ?_, by simp; omega⟩
    rw [List.take_succ, List.set_take, List.set_eq_of_length_le (by simp)]
    simp [hlt]
  · have he : i = l.length := by omega
    refine ⟨l ++ [v], by simp [he], ?_, by simp [he]⟩
    subst he
    simp

theorem pushSensor_leaf {n : RTreeNode} (s : SensorNode) (hl : n.is_leaf = true)
    (hb : n.num_entries ≤ n.sensors.length) :
    ∃ n1, pushSensor n s = some n1 ∧ n1.is_leaf = true ∧ n1.parent = n.parent ∧
      n1.num_entries = n.num_entries + 1 ∧ n1.num_entries ≤ n1.sensors.length ∧
      leafEntries n1 = leafEntries n ++ [s] := by
  obtain ⟨l1, hw, ht, hlen⟩ := writeSlot_take n.sensors n.num_entries s hb
  refine ⟨{ n with sensors := l1, num_entries := n.num_entries + 1 }, ?_, hl, rfl, rfl, hlen, ?_⟩
  · simp [pushSensor, setSensor, hl, hw]
  · simpa [leafEntries] using ht

theorem pushSensor_tight {m : RTreeNode} (s : SensorNode) (hl : m.is_leaf = true)
    (ht : m.num_entries = m.sensors.length) :
    pushSensor m s =
      some { m with sensors := m.sensors ++ [s], num_entries := m.num_entries + 1 } := by
  simp [pushSensor, setSensor, hl, writeSlot, ht]

theorem distribute_spec (s1 s2 : Nat) :
    ∀ (rest : List SensorNode) (i : Nat) (st : SplitState),
      st.node1.is_leaf = true → st.node1.num_entries = st.node1.sensors.length →
      st.node2.is_leaf = true → st.node2.num_entries = st.node2.sensors.length →
      ∃ st1, distribute s1 s2 i rest st = some st1 ∧
        st1.node1.is_leaf = true ∧ st1.node1.num_entries = st1.node1.sensors.length ∧
        st1.node2.is_leaf = true ∧ st1.node2.num_entries = st1.node2.sensors.length ∧
        st.node1.sensors.length ≤ st1.node1.sensors.length ∧
        st.node2.sensors.length ≤ st1.node2.sensors.length ∧
        (st1.node1.sensors ++ st1.node2.sensors).Perm
          (st.node1.sensors ++ st.node2.sensors ++ nonSeeds s1 s2 i rest) := by
  intro rest
  induction rest with
  | nil =>
    intro i st h1 t1 h2 t2
    exact ⟨st, rfl, h1, t1, h2, t2, le_refl _, le_refl _, by simp [nonSeeds]⟩
  | cons s rest ih =>
    intro i st h1 t1 h2 t2
    by_cases hseed : i = s1 ∨ i = s2
    · obtain ⟨st1, hd, r⟩ := ih (i + 1) st h1 t1 h2 t2
      refine ⟨st1, ?_, ?_⟩
      · simp only [distribute, hseed, if_true]; exact hd
      · simpa only [nonSeeds, hseed, if_true] using r
    · simp only [distribute, hseed, if_false, nonSeeds]
      split
      · rw [pushSensor_tight s h1 t1]
        obtain ⟨st1, hd, a1, b1, a2, b2, l1, l2, hp⟩ :=
          ih (i + 1) ⟨{ sensors := st.node1.sensors ++ [s], is_leaf := st.node1.is_leaf,
                        num_entries := st.node1.num_entries + 1, children := st.node1.children,
                        parent := st.node1.parent,
                        bbox := expandToInclude st.node1.bbox (createBoundingBoxForSensor s) },
                      st.node2⟩
            h1 (by simp [t1]) h2 t2
        refine ⟨st1, hd, a1, b1, a2, b2, ?_, l2, ?_⟩
        · simp at l1; omega
        · refine hp.trans ?_
          simp only [List.append_assoc, List.singleton_append]
          refine List.Perm.append_left _ ?_
          exact List.perm_middle.symm
      · rw [pushSensor_tight s h2 t2]
        obtain ⟨st1, hd, a1, b1, a2, b2, l1, l2, hp⟩ :=
          ih (i + 1) ⟨st.node1,
                      { sensors := st.node2.sensors ++ [s], is_leaf := st.node2.is_leaf,
                        num_entries := st.node2.num_entries + 1, children := st.node2.children,
                        parent := st.node2.parent,
                        bbox := expandToInclude st.node2.bbox (createBoundingBoxForSensor s) }⟩
            h1 t1 h2 (by simp [t2])
        refine ⟨st1, hd, a1, b1, a2, b2, l1, ?_, ?_⟩
        · simp at l2; omega
        · refine hp.trans ?_
          simp only [List.append_assoc, List.singleton_append]
          exact List.Perm.refl _

theorem seedInner_bound (N : Nat) (a : SensorNode) (i : Nat) :
    ∀ (rest : List SensorNode) (j : Nat) (st : Seeds), i < j → j + rest.length ≤ N →
      st.seed1 < st.seed2 ∧ st.seed2 < N →
      (seedInner a i j rest st).seed1 < (seedInner a i j rest st).seed2 ∧
        (seedInner a i j rest st).seed2 < N := by
  intro rest
  induction rest with
  | nil => intro j st _ _ hst; simpa [seedInner] using hst
  | cons b rest ih =>
    intro j st hij hN hst
    simp only [seedInner]
    simp only [List.length_cons] at hN
    apply ih (j + 1) _ (by omega) (by omega)
    split
    · constructor
      · exact hij
      · show j < N
        omega
    · exact hst

theorem seedOuter_bound (N : Nat) :
    ∀ (l : List SensorNode) (i : Nat) (st : Seeds), i + l.length ≤ N →
      st.seed1 < st.seed2 ∧ st.seed2 < N →
      (seedOuter i l st).seed1 < (seedOuter i l st).seed2 ∧ (seedOuter i l st).seed2 < N := by
  intro l
  induction l with
  | nil => intro i st _ hst; simpa [seedOuter] using hst
  | cons a rest ih =>
    intro i st hN hst
    simp only [seedOuter]
    simp only [List.length_cons] at hN
    apply ih (i + 1) _ (by omega)
    exact seedInner_bound N a i rest (i + 1) st (by omega) (by omega) hst

theorem pickSeeds_bound (l : List SensorNode) (h2 : 2 ≤ l.length) :
    (pickSeeds l).seed1 < (pickSeeds l).seed2 ∧ (pickSeeds l).seed2 < l.length := by
  unfold pickSeeds
  exact seedOuter_bound l.length l 0 ⟨0, 0, 1⟩ (by omega) ⟨by decide, by simpa using h2⟩

theorem nonSeeds_past {α : Type} (s1 s2 : Nat) :
    ∀ (l : List α) (i : Nat), s1 < i → s2 < i → nonSeeds s1 s2 i l = l := by
  intro l
  induction l with
  | nil => intro i _ _; rfl
  | cons a r ih =>
    intro i h1 h2
    have hne : ¬ (i = s1 ∨ i = s2) := by omega
    simp only [nonSeeds, hne, if_false]
    rw [ih (i + 1) (by omega) (by omega)]

theorem nonSeeds_single {α : Type} (s1 s2 : Nat) :
    ∀ (l : List α) (i : Nat) (y : α), s1 < i → i ≤ s2 → l[s2 - i]? = some y →
      l.Perm (y :: nonSeeds s1 s2 i l) := by
  intro l
  induction l with
  | nil => intro i y _ _ hy; simp at hy
  | cons a r ih =>
    intro i y h1 h2 hy
    by_cases he : i = s2
    · subst he
      simp only [Nat.sub_self, List.getElem?_cons_zero, Option.some.injEq] at hy
      subst hy
      simp only [nonSeeds, or_true, if_true]
      rw [nonSeeds_past s1 i r (i + 1) (by omega) (by omega)]
    · have hne : ¬ (i = s1 ∨ i = s2) := by omega
      have hsub : s2 - i = (s2 - (i + 1)) + 1 := by omega
      rw [hsub, List.getElem?_cons_succ] at hy
      simp only [nonSeeds, hne, if_false]
      exact ((ih (i + 1) y (by omega) (by omega) hy).cons a).trans (List.Perm.swap y a _)

theorem nonSeeds_pair {α : Type} (s1 s2 : Nat) (h12 : s1 < s2) :
    ∀ (l : List α) (i : Nat) (x y : α), i ≤ s1 → l[s1 - i]? = some x → l[s2 - i]? = some y →
      l.Perm (x :: y :: nonSeeds s1 s2 i l) := by
  intro l
  induction l with
  | nil => intro i x y _ hx _; simp at hx
  | cons a r ih =>
    intro i x y h1 hx hy
    have hsub2 : s2 - i = (s2 - (i + 1)) + 1 := by omega
    rw [hsub2, List.getElem?_cons_succ] at hy
    by_cases he : i = s1
    · subst he
      simp only [Nat.sub_self, List.getElem?_cons_zero, Option.some.injEq] at hx
      subst hx
      simp only [nonSeeds, true_or, if_true]
      exact (nonSeeds_single i s2 r (i + 1) y (by omega) (by omega) hy).cons a
    · have hne : ¬ (i = s1 ∨ i = s2) := by omega
      have hsub1 : s1 - i = (s1 - (i + 1)) + 1 := by omega
      rw [hsub1, List.getElem?_cons_succ] at hx
      simp only [nonSeeds, hne, if_false]
      refine ((ih (i + 1) x y (by omega) hx hy).cons a).trans ?_
      exact (List.Perm.swap x a _).trans ((List.Perm.swap y a _).cons x)

theorem pushSensor_parent {m m1 : RTreeNode} {s : SensorNode} (h : pushSensor m s = some m1) :
    m1.parent = m.parent := by
  unfold pushSensor setSensor at h
  split at h
  · cases hw : writeSlot m.sensors m.num_entries s with
    | none => simp [hw] at h
    | some l => simp [hw] at h; subst h; rfl
  · simp at h

theorem distribute_parent (s1 s2 : Nat) :
    ∀ (rest : List SensorNode) (i : Nat) (st st1 : SplitState),
      distribute s1 s2 i rest st = some st1 →
      (st.node1.parent = none → st1.node1.parent = none) ∧
      (st.node2.parent = none → st1.node2.parent = none) := by
  intro rest
  induction rest with
  | nil =>
    intro i st st1 h
    simp only [distribute, Option.some.injEq] at h
    subst h
    exact ⟨id, id⟩
  | cons s rest ih =>
    intro i st st1 h
    simp only [distribute] at h
    split at h
    · exact ih _ _ _ h
    · split at h
      · cases hp : pushSensor st.node1 s with
        | none => simp [hp] at h
        | some m =>
          simp only [hp] at h
          have := ih _ _ _ h
          have hm := pushSensor_parent hp
          exact ⟨fun h0 => this.1 (by simpa [hm] using h0), this.2⟩
      · cases hp : pushSensor st.node2 s with
        | none => simp [hp] at h
        | some m =>
          simp only [hp] at h
          have := ih _ _ _ h
          have hm := pushSensor_parent hp
          exact ⟨this.1, fun h0 => this.2 (by simpa [hm] using h0)⟩

theorem pushSensor_fresh (b : Bool) (u : BoundingBox) (x : SensorNode) (hb : b = true) :
    pushSensor (freshNode b u) x = some ⟨b, u, [], [x], 1, none⟩ := by
  subst hb
  simp [pushSensor, setSensor, freshNode, writeSlot]

/-- Steps 1 to 3 of `splitNode` on a leaf with at least two written entries return two
leaves, each with at least one entry, whose entries together are a permutation of the
entries of the node. -/
theorem splitEntries_spec (n : RTreeNode) (u1 u2 : BoundingBox) (hl : n.is_leaf = true)
    (hb : n.num_entries ≤ n.sensors.length) (h2 : 2 ≤ n.num_entries) :
    ∃ st, splitEntries n u1 u2 = some st ∧
      st.node1.is_leaf = true ∧ st.node2.is_leaf = true ∧
      st.node1.parent = none ∧ st.node2.parent = none ∧
      st.node1.num_entries = st.node1.sensors.length ∧
      st.node2.num_entries = st.node2.sensors.length ∧
      1 ≤ st.node1.sensors.length ∧ 1 ≤ st.node2.sensors.length ∧
      (st.node1.sensors ++ st.node2.sensors).Perm (leafEntries n) := by
  have hlen : (leafEntries n).length = n.num_entries := by simp [leafEntries, hb]
  obtain ⟨hs12, hs2⟩ := pickSeeds_bound (leafEntries n) (by omega)
  rw [hlen] at hs2
  generalize hsd : pickSeeds (leafEntries n) = sd at hs12 hs2
  have hlt1 : sd.seed1 < n.sensors.length := by omega
  have hlt2 : sd.seed2 < n.sensors.length := by omega
  obtain ⟨x, hx⟩ : ∃ x, n.sensors[sd.seed1]? = some x := ⟨_, List.getElem?_eq_getElem hlt1⟩
  obtain ⟨y, hy⟩ : ∃ y, n.sensors[sd.seed2]? = some y := ⟨_, List.getElem?_eq_getElem hlt2⟩
  obtain ⟨st1, hd, a1, b1, a2, b2, l1, l2, hp⟩ :=
    distribute_spec sd.seed1 sd.seed2 (leafEntries n) 0
      ⟨⟨n.is_leaf, u1, [], [x], 1, none⟩, ⟨n.is_leaf, u2, [], [y], 1, none⟩⟩ hl rfl hl rfl
  have hpar := distribute_parent sd.seed1 sd.seed2 (leafEntries n) 0 _ _ hd
  refine ⟨st1, ?_, a1, a2, hpar.1 rfl, hpar.2 rfl, b1, b2, by simpa using l1, by simpa using l2, ?_⟩
  · unfold splitEntries
    have hnot : ¬ n.sensors.length < n.num_entries := by omega
    have e1 : List.take n.num_entries n.sensors = leafEntries n := rfl
    simp only [hnot, if_false, e1, hsd]
    simp only [sensorSlot, hl, if_true, hx, hy]
    rw [pushSensor_fresh true u1 x rfl, pushSensor_fresh true u2 y rfl]
    rw [hl] at hd
    exact hd
  · refine hp.trans ?_
    simp only [List.singleton_append, List.cons_append, List.nil_append]
    refine (nonSeeds_pair _ _ hs12 (leafEntries n) 0 _ _ (Nat.zero_le _) ?_ ?_).symm
    · simp only [Nat.sub_zero, leafEntries]
      rw [List.getElem?_take_of_lt (by omega)]
      exact hx
    · simp only [Nat.sub_zero, leafEntries]
      rw [List.getElem?_take_of_lt (by omega)]
      exact hy

theorem expand_contains_left (a b : BoundingBox) : (expandToInclude a b).contains a := by
  unfold expandToInclude BoundingBox.contains
  refine ⟨?_, ?_, ?_, ?_⟩ <;> dsimp only <;> split <;> omega

theorem expand_contains_right (a b : BoundingBox) : (expandToInclude a b).contains b := by
  unfold expandToInclude BoundingBox.contains
  refine ⟨?_, ?_, ?_, ?_⟩ <;> dsimp only <;> split <;> omega

theorem contains_trans {a b c : BoundingBox} (h1 : a.contains b) (h2 : b.contains c) :
    a.contains c := by
  unfold BoundingBox.contains at *
  omega

theorem foldl_contains_init (l : List SensorNode) :
    ∀ b : BoundingBox,
      (l.foldl (fun b e => expandToInclude b (createBoundingBoxForSensor e)) b).contains b := by
  induction l with
  | nil => intro b; simp [BoundingBox.contains]
  | cons a r ih =>
    intro b
    simp only [List.foldl_cons]
    exact contains_trans (ih _) (expand_contains_left _ _)

theorem foldl_contains_mem (l : List SensorNode) :
    ∀ (b : BoundingBox) (e : SensorNode), e ∈ l →
      (l.foldl (fun b e => expandToInclude b (createBoundingBoxForSensor e)) b).contains
        (createBoundingBoxForSensor e) := by
  induction l with
  | nil => intro b e he; simp at he
  | cons a r ih =>
    intro b e he
    simp only [List.foldl_cons]
    rcases List.mem_cons.mp he with rfl | hr
    · exact contains_trans (foldl_contains_init r _) (expand_contains_right _ _)
    · exact ih _ e hr

theorem leafBox_contains (es : List SensorNode) (e : SensorNode) (he : e ∈ es) :
    (leafBox es).contains (createBoundingBoxForSensor e) := by
  cases es with
  | nil => simp at he
  | cons a r =>
    simp only [leafBox]
    rcases List.mem_cons.mp he with rfl | hr
    · exact foldl_contains_init r _
    · exact foldl_contains_mem r _ e hr

theorem overlaps_of_contains {b : BoundingBox} {s t : SensorNode}
    (hc : b.contains (createBoundingBoxForSensor s)) (hm : sameXY t s = true) :
    overlaps b (createBoundingBoxForSensor t) = true := by
  unfold BoundingBox.contains createBoundingBoxForSensor at hc
  unfold sameXY at hm
  simp only [decide_eq_true_eq] at hm
  unfold overlaps createBoundingBoxForSensor
  simp only [Bool.not_eq_true', Bool.or_eq_false_iff, decide_eq_false_iff_not, gt_iff_lt]
  dsimp only at hc
  omega

theorem findIdx_find (p : SensorNode → Bool) :
    ∀ (es : List SensorNode) (k : Nat),
      (List.findIdx? p es k = none ∧ es.find? p = none ∧ es.eraseP p = es ∧
        ∀ s ∈ es, p s = false) ∨
      (∃ j x, List.findIdx? p es k = some (k + j) ∧ es[j]? = some x ∧ es.find? p = some x ∧
        p x = true ∧ es.eraseP p = es.eraseIdx j ∧ j < es.length) := by
  intro es
  induction es with
  | nil => intro k; left; simp
  | cons a r ih =>
    intro k
    by_cases hp : p a = true
    · right
      exact ⟨0, a, by simp [List.findIdx?_cons, hp], by simp, by simp [hp], hp,
        by simp [List.eraseP_cons, hp], by simp⟩
    · rcases ih (k + 1) with ⟨h1, h2, h3, h4⟩ | ⟨j, x, h1, h2, h3, h4, h5, h6⟩
      · left
        refine ⟨by rw [List.findIdx?_cons, if_neg hp]; exact h1, by simp [hp, h2],
          by simp [List.eraseP_cons, hp, h3], ?_⟩
        intro s hs
        rcases List.mem_cons.mp hs with rfl | hr
        · simpa using hp
        · exact h4 s hr
      · right
        refine ⟨j + 1, x, ?_, by simpa using h2, by simp [hp, h3], h4,
          by simp [List.eraseP_cons, hp, h5], by simp; omega⟩
        simp only [List.findIdx?_cons, hp]
        rw [h1]
        simp
        omega

/-- The shift loop moves the slots `i+1 .. i+k` one place down. -/
theorem shiftSlots_spec {α : Type} :
    ∀ (k i : Nat) (l : List α), i + k + 1 ≤ l.length →
      ∃ l1, shiftSlots i k l = some l1 ∧ l1.length = l.length ∧
        l1.take (i + k) = l.take i ++ (l.drop (i + 1)).take k := by
  intro k
  induction k with
  | zero => intro i l _; exact ⟨l, rfl, rfl, by simp⟩
  | succ k ih =>
    intro i l hb
    have h1 : i + 1 < l.length := by omega
    have h0 : i < l.length := by omega
    obtain ⟨l1, hs, hlen, ht⟩ := ih (i + 1) (l.set i l[i + 1]) (by simp; omega)
    refine ⟨l1, ?_, by simpa using hlen, ?_⟩
    · simp only [shiftSlots, List.getElem?_eq_getElem h1, writeSlot, h0, if_true]
      exact hs
    · have e : i + (k + 1) = i + 1 + k := by omega
      rw [e, ht, take_drop_succ _ _ _ h1, List.take_succ, List.set_take,
        List.set_eq_of_length_le (by simp), List.drop_set_of_lt _ _ (by omega)]
      simp [h0]

theorem eraseIdx_take {α : Type} (l : List α) (i n : Nat) (hi : i < n) :
    (l.take n).eraseIdx i = l.take i ++ (l.drop (i + 1)).take (n - 1 - i) := by
  rw [List.eraseIdx_eq_take_drop_succ, List.take_take, List.drop_take]
  have e1 : min i n = i := by omega
  have e2 : n - (i + 1) = n - 1 - i := by omega
  rw [e1, e2]

theorem splitNode_parentless {h : Heap} {p : Nat} {n : RTreeNode} {st : SplitState}
    (uninit : Nat → BoundingBox) (hd : deref h p = some n) (hpar : n.parent = none)
    (hst : splitEntries n (uninit h.length) (uninit (h.length + 1)) = some st) :
    splitNode h p uninit =
      some (h ++ [some { st.node1 with parent := some (h.length + 2) },
                  some { st.node2 with parent := some (h.length + 2) },
                  some { freshNode false (uninit (h.length + 2)) with
                         children := [h.length, h.length + 1], num_entries := 2 }]) := by
  unfold splitNode
  simp only [hd, hst, hpar]

/-- Insertion into a parentless leaf at `p` returns; the node at `p` stays a parentless leaf,
its entries grow by the new record at the end and its box is recomputed, whether or not
the split runs. -/
theorem insert_rootLeaf (fuel : Nat) (uninit : Nat → BoundingBox) {h : Heap} {p : Nat}
    {es : List SensorNode} (s : SensorNode) (hr : RootLeaf h p es) :
    ∃ h1, insertSensorIntoRTree (fuel + 1) h p s uninit = some h1 ∧ RootLeaf h1 p (es ++ [s]) := by
  obtain ⟨n, hd, hl, hpar, hb, hes, _⟩ := hr
  have hp := deref_lt hd
  obtain ⟨n1, hpush, hl1, hpar1, hn1, hb1, hes1⟩ := pushSensor_leaf s hl hb
  have hd1 : deref (store h p n1) p = some n1 := deref_store_same _ hp
  have hu := updateBoundingBox_leaf hd1 hl1 hb1
  rw [store_store] at hu
  have hd2 : deref (store h p { n1 with bbox := leafBox (leafEntries n1) }) p =
      some { n1 with bbox := leafBox (leafEntries n1) } := deref_store_same _ hp
  have hroot : RootLeaf (store h p { n1 with bbox := leafBox (leafEntries n1) }) p (es ++ [s]) :=
    ⟨_, hd2, hl1, by rw [← hpar]; exact hpar1, hb1, by rw [← hes]; exact hes1,
      fun _ => by rw [← hes, ← hes1]⟩
  unfold insertSensorIntoRTree
  simp only [descend, hd, hl, if_true, hpush, hu, hd2]
  split
  · rename_i hgt
    have h2 : 2 ≤ n1.num_entries := by
      have : MAX_ENTRIES = 4 := rfl
      simp only [gt_iff_lt] at hgt
      omega
    obtain ⟨st, hst, _⟩ := splitEntries_spec { n1 with bbox := leafBox (leafEntries n1) }
      (uninit (store h p { n1 with bbox := leafBox (leafEntries n1) }).length)
      (uninit ((store h p { n1 with bbox := leafBox (leafEntries n1) }).length + 1)) hl1 hb1 h2
    have hparn : n1.parent = none := by rw [hpar1, hpar]
    rw [splitNode_parentless uninit hd2 hparn hst]
    refine ⟨_, rfl, ?_⟩
    obtain ⟨m, hm, r⟩ := hroot
    exact ⟨m, deref_append _ hm, r⟩
  · exact ⟨_, rfl, hroot⟩

/-- Range query on a parentless leaf with an exact box reports the entries inside the query
box, in order, and counts them. -/
theorem rangeQuery_rootLeaf (fuel : Nat) {h : Heap} {p : Nat} {es : List SensorNode}
    (q : BoundingBox) (acc : List SensorNode × Nat) (hr : RootLeaf h p es) :
    rangeQuery (fuel + 1) h p q acc =
      some (acc.1 ++ es.filter (inBox q), acc.2 + (es.filter (inBox q)).length) := by
  obtain ⟨n, hd, hl, _, hb, hes, hbox⟩ := hr
  have hv := leafVisit_eq n q hl n.num_entries 0 acc (by omega)
  simp only [List.drop_zero] at hv
  have e1 : List.take n.num_entries n.sensors = es := hes
  rw [e1] at hv
  simp only [rangeQuery, hd, hl, if_true, hv]
  split
  · rename_i hno
    have hnone : es.filter (inBox q) = [] := by
      rw [List.filter_eq_nil_iff]
      intro s hs hin
      have hne : es ≠ [] := List.ne_nil_of_mem hs
      have hc := leafBox_contains es s hs
      rw [← hbox hne] at hc
      have hov : overlaps n.bbox q = true := by
        unfold BoundingBox.contains createBoundingBoxForSensor at hc
        unfold inBox at hin
        simp only [decide_eq_true_eq] at hin
        unfold overlaps
        simp only [Bool.not_eq_true', Bool.or_eq_false_iff, decide_eq_false_iff_not, gt_iff_lt]
        dsimp only at hc
        omega
      simp [hov] at hno
    simp [hnone]
  · rfl

/-- Search on a parentless leaf with an exact box returns the first entry at the target's
coordinates. -/
theorem search_rootLeaf (fuel : Nat) {h : Heap} {p : Nat} {es : List SensorNode}
    (t : SensorNode) (hr : RootLeaf h p es) :
    searchSensorInRTree (fuel + 1) h p t = some (es.find? (sameXY t)) := by
  obtain ⟨n, hd, hl, _, hb, hes, hbox⟩ := hr
  have hs := leafScan_eq n t hl n.num_entries 0 (by omega)
  simp only [List.drop_zero] at hs
  have e1 : List.take n.num_entries n.sensors = es := hes
  rw [e1] at hs
  simp only [searchSensorInRTree, hd, hl, if_true, hs]
  rcases findIdx_find (sameXY t) es 0 with ⟨h1, h2, _, _⟩ | ⟨j, x, h1, h2, h3, h4, _, h6⟩
  · rw [h1, h2]
    split <;> rfl
  · have hmem : x ∈ es := List.getElem?_mem h2
    have hne : es ≠ [] := List.ne_nil_of_mem hmem
    have hc := leafBox_contains es x hmem
    rw [← hbox hne] at hc
    have hov := overlaps_of_contains hc h4
    have hj : n.sensors[j]? = some x := by
      rw [← hes] at h2
      unfold leafEntries at h2
      rw [List.getElem?_take] at h2
      split at h2
      · exact h2
      · simp at h2
    simp only [hov, Bool.not_true, Bool.false_eq_true, if_false, h1, Nat.zero_add, sensorSlot, hl,
      if_true, hj, h3, Option.map_some']

/-- Deletion on a parentless leaf returns, removes the first entry at the target's
coordinates and recomputes the box; the not-found flag is set exactly when no entry
matches, and then the heap is unchanged. -/
theorem delete_rootLeaf (fuel : Nat) {h : Heap} {p : Nat} {es : List SensorNode}
    (t : SensorNode) (hr : RootLeaf h p es) :
    ∃ h1 b, deleteSensorFromRTree (fuel + 1) h p t = some (h1, b) ∧
      RootLeaf h1 p (es.eraseP (sameXY t)) ∧
      (b = true ↔ ∀ s ∈ es, sameXY t s = false) ∧
      (b = true → h1 = h) := by
  have hr0 := hr
  obtain ⟨n, hd, hl, hpar, hb, hes, hbox⟩ := hr
  have hp := deref_lt hd
  have hs := leafScan_eq n t hl n.num_entries 0 (by omega)
  simp only [List.drop_zero] at hs
  have e1 : List.take n.num_entries n.sensors = es := hes
  rw [e1] at hs
  obtain ⟨il, bb, ch, se, ne, pa⟩ := n
  dsimp only at hl hpar hb hs
  subst hl hpar
  simp only [deleteSensorFromRTree, hd, if_true, deleteLeaf, hs]
  rcases findIdx_find (sameXY t) es 0 with ⟨h1, _, h3, h4⟩ | ⟨j, x, h1, h2, _, h4, h5, h6⟩
  · rw [h1]
    refine ⟨h, true, rfl, ?_, by simpa using h4, fun _ => rfl⟩
    rw [h3]
    exact hr0
  · rw [h1]
    have hlen : es.length = ne := by rw [← hes]; simp [leafEntries, hb]
    have hjn : j < ne := by omega
    obtain ⟨l1, hsh, hl1len, hl1t⟩ := shiftSlots_spec (ne - 1 - j) j se (by omega)
    simp only [Nat.zero_add, hsh]
    have hd1 : deref (store h p ⟨true, bb, ch, l1, ne - 1, none⟩) p =
        some ⟨true, bb, ch, l1, ne - 1, none⟩ := deref_store_same _ hp
    have hb1 : ne - 1 ≤ l1.length := by omega
    have hu := updateBoundingBox_leaf hd1 rfl hb1
    rw [store_store] at hu
    simp only [hu]
    rw [deref_store_same _ hp]
    simp only [ne_eq, not_true_eq_false, and_false, if_false]
    have hent : leafEntries ⟨true, bb, ch, l1, ne - 1, none⟩ = es.eraseP (sameXY t) := by
      have e2 : j + (ne - 1 - j) = ne - 1 := by omega
      rw [e2] at hl1t
      show List.take (ne - 1) l1 = _
      rw [hl1t, h5, ← hes]
      exact (eraseIdx_take se j ne hjn).symm
    refine ⟨_, false, rfl, ⟨_, deref_store_same _ hp, rfl, rfl, hb1, hent, fun _ => ?_⟩, ?_, ?_⟩
    · show leafBox _ = _
      rw [hent]
    · constructor
      · intro hf; cases hf
      · intro hall
        have := hall x (List.getElem?_mem h2)
        rw [h4] at this
        cases this
    · intro hf; cases hf

theorem initial_rootLeaf (uninit : Nat → BoundingBox) : RootLeaf (initialHeap uninit) 0 [] :=
  ⟨freshNode true (uninit 0), rfl, rfl, rfl, Nat.le_refl _, rfl, fun hne => absurd rfl hne⟩

theorem insertAll_rootLeaf (fuel : Nat) (uninit : Nat → BoundingBox) :
    ∀ (l : List SensorNode) (h : Heap) (es : List SensorNode), RootLeaf h 0 es →
      ∃ h1, insertAll (fuel + 1) uninit l h = some h1 ∧ RootLeaf h1 0 (es ++ l) := by
  intro l
  induction l with
  | nil => intro h es hr; exact ⟨h, rfl, by simpa using hr⟩
  | cons s rest ih =>
    intro h es hr
    obtain ⟨h1, hi, hr1⟩ := insert_rootLeaf fuel uninit s hr
    obtain ⟨h2, hi2, hr2⟩ := ih h1 (es ++ [s]) hr1
    refine ⟨h2, ?_, by simpa using hr2⟩
    simp only [insertAll, hi]
    exact hi2

theorem reachable_rootLeaf {h : Heap} (hr : Reachable h) : ∃ es, RootLeaf h 0 es := by
  induction hr with
  | init uninit => exact ⟨[], initial_rootLeaf uninit⟩
  | insert fuel s uninit _ hstep ih =>
    obtain ⟨es, hes⟩ := ih
    cases fuel with
    | zero => simp [insertSensorIntoRTree, descend] at hstep
    | succ k =>
      obtain ⟨h2, hi, hr2⟩ := insert_rootLeaf k uninit s hes
      rw [hi] at hstep
      cases hstep
      exact ⟨_, hr2⟩
  | delete fuel t b _ hstep ih =>
    obtain ⟨es, hes⟩ := ih
    cases fuel with
    | zero => simp [deleteSensorFromRTree] at hstep
    | succ k =>
      obtain ⟨h2, b2, hi, hr2, _⟩ := delete_rootLeaf k t hes
      rw [hi] at hstep
      cases hstep
      exact ⟨_, hr2⟩

theorem updateLoop_frame (p : Nat) :
    ∀ (k i : Nat) (h h1 : Heap), updateLoop p i k h = some h1 →
      ∀ a, a ≠ p → deref h1 a = deref h a := by
  intro k
  induction k with
  | zero =>
    intro i h h1 hu a _
    simp only [updateLoop, Option.some.injEq] at hu
    rw [hu]
  | succ k ih =>
    intro i h h1 hu a ha
    simp only [updateLoop] at hu
    cases hd : deref h p with
    | none => simp [hd] at hu
    | some n =>
      simp only [hd] at hu
      cases he : entryBox h n i with
      | none => simp [he] at hu
      | some e =>
        simp only [he] at hu
        rw [ih _ _ _ hu a ha, deref_store_ne _ ha]

theorem updateBoundingBox_frame {h h1 : Heap} {p : Nat} (hu : updateBoundingBox h p = some h1) :
    ∀ a, a ≠ p → deref h1 a = deref h a := by
  intro a ha
  unfold updateBoundingBox at hu
  cases hd : deref h p with
  | none => simp [hd] at hu
  | some n =>
    simp only [hd] at hu
    split at hu
    · simp only [Option.some.injEq] at hu
      rw [← hu, deref_store_ne _ ha]
    · cases he : entryBox h n 0 with
      | none => simp [he] at hu
      | some e =>
        simp only [he] at hu
        rw [updateLoop_frame p _ _ _ _ hu a ha, deref_store_ne _ ha]

theorem deref_append_new (h : Heap) (a b : RTreeNode) :
    deref (h ++ [some a, some b]) h.length = some a ∧
    deref (h ++ [some a, some b]) (h.length + 1) = some b := by
  unfold deref
  constructor
  · rw [List.getElem?_append_right (Nat.le_refl _)]
    simp
  · rw [List.getElem?_append_right (by omega)]
    simp

theorem chooseLoop_mem (h : Heap) (n : RTreeNode) (sb : BoundingBox) (P : Nat → Prop)
    (hl : n.is_leaf = false) :
    ∀ (k i : Nat) (st : Nat × Int), P st.1 →
      (∀ j, i ≤ j → j < i + k → ∃ c, n.children[j]? = some c ∧ P c ∧ ∃ cn, deref h c = some cn) →
      ∃ st1, chooseLoop h n sb i k st = some st1 ∧ P st1.1 := by
  intro k
  induction k with
  | zero => intro i st hP _; exact ⟨st, rfl, hP⟩
  | succ k ih =>
    intro i st hP hall
    obtain ⟨c, hc, hPc, cn, hcn⟩ := hall i (Nat.le_refl _) (by omega)
    simp only [chooseLoop, childSlot, hl, Bool.false_eq_true, if_false, hc, hcn]
    apply ih
    · split
      · exact hPc
      · exact hP
    · intro j hj1 hj2
      exact hall j (by omega) (by omega)

theorem wellFormed_deref {d : Nat} {h : Heap} {p : Nat} (hw : WellFormed d h p) :
    ∃ n, deref h p = some n := by
  cases d with
  | zero => obtain ⟨n, hn, _⟩ := hw; exact ⟨n, hn⟩
  | succ d => obtain ⟨n, hn, _⟩ := hw; exact ⟨n, hn⟩

theorem descend_wellFormed (h : Heap) (s : SensorNode) :
    ∀ (d p : Nat), WellFormed d h p → ∀ fuel,
      ∃ q, descend (d + 1 + fuel) h p s = some q ∧ WellFormed 0 h q := by
  intro d
  induction d with
  | zero =>
    intro p hw fuel
    obtain ⟨n, hn, hl, hb⟩ := hw
    refine ⟨p, ?_, n, hn, hl, hb⟩
    have e : 0 + 1 + fuel = fuel + 1 := by omega
    rw [e]
    simp [descend, hn, hl]
  | succ d ih =>
    intro p hw fuel
    obtain ⟨n, hn, hl, h1, hch⟩ := hw
    obtain ⟨c0, hc0, hw0⟩ := hch 0 (by omega)
    have e : d + 1 + 1 + fuel = (d + 1 + fuel) + 1 := by omega
    rw [e]
    simp only [descend, hn, hl, Bool.false_eq_true, if_false, childSlot, hc0]
    obtain ⟨st1, hst, hP⟩ := chooseLoop_mem h n (createBoundingBoxForSensor s)
      (fun c => WellFormed d h c) hl n.num_entries 0 (c0, INT_MAX) hw0
      (fun j _ hj => by
        obtain ⟨c, hc, hwc⟩ := hch j (by omega)
        exact ⟨c, hc, hwc, wellFormed_deref hwc⟩)
    rw [hst]
    exact ih st1.1 hP fuel

/-- Insertion that reaches a leaf with room changes that leaf only: one more entry at the end
and the box recomputed. -/
theorem insert_no_overflow (h : Heap) (r d fuel : Nat) (s : SensorNode)
    (uninit : Nat → BoundingBox) (hw : WellFormed d h r)
    (hroom : ∀ q n, descend (d + 1 + fuel) h r s = some q → deref h q = some n →
      n.num_entries < MAX_ENTRIES) :
    ∃ q n n1, descend (d + 1 + fuel) h r s = some q ∧ deref h q = some n ∧
      insertSensorIntoRTree (d + 1 + fuel) h r s uninit = some (store h q n1) ∧
      n1.is_leaf = true ∧ n1.num_entries = n.num_entries + 1 ∧
      n1.num_entries ≤ MAX_ENTRIES ∧ leafEntries n1 = leafEntries n ++ [s] ∧
      n1.bbox = leafBox (leafEntries n1) ∧ n1.parent = n.parent := by
  obtain ⟨q, hq, n, hn, hl, hb⟩ := descend_wellFormed h s d r hw fuel
  have hlt := hroom q n hq hn
  have hp := deref_lt hn
  obtain ⟨n1, hpush, hl1, hpar1, hn1, hb1, hes1⟩ := pushSensor_leaf s hl hb
  have hd1 : deref (store h q n1) q = some n1 := deref_store_same _ hp
  have hu := updateBoundingBox_leaf hd1 hl1 hb1
  rw [store_store] at hu
  refine ⟨q, n, { n1 with bbox := leafBox (leafEntries n1) }, hq, hn, ?_, hl1, hn1, ?_, hes1,
    rfl, hpar1⟩
  · unfold insertSensorIntoRTree
    simp only [hq, hn, hpush, hu]
    rw [deref_store_same _ hp]
    have hno : ¬ n1.num_entries > MAX_ENTRIES := by omega
    simp only [hno, if_false]
  · show n1.num_entries ≤ MAX_ENTRIES
    omega

theorem shiftSlots_drop {α : Type} :
    ∀ (k i : Nat) (l l1 : List α), shiftSlots i k l = some l1 →
      l1.drop (i + k) = l.drop (i + k) := by
  intro k
  induction k with
  | zero => intro i l l1 hs; simp only [shiftSlots, Option.some.injEq] at hs; rw [hs]
  | succ k ih =>
    intro i l l1 hs
    simp only [shiftSlots] at hs
    cases hg : l[i + 1]? with
    | none => simp [hg] at hs
    | some v =>
      simp only [hg] at hs
      have hlt : i + 1 < l.length := by
        by_contra hc
        rw [List.getElem?_eq_none (by omega)] at hg
        cases hg
      have h0 : i < l.length := by omega
      simp only [writeSlot, h0, if_true] at hs
      have := ih (i + 1) _ _ hs
      have e : i + (k + 1) = i + 1 + k := by omega
      rw [e, this, List.drop_set_of_lt _ _ (by omega)]

theorem deref_release_same (h : Heap) (p : Nat) : deref (release h p) p = none := by
  unfold deref release
  by_cases hp : p < h.length
  · simp [hp]
  · rw [List.getElem?_eq_none (by simp; omega)]
    rfl

theorem deref_release_ne (h : Heap) {p a : Nat} (hne : a ≠ p) :
    deref (release h p) a = deref h a := by
  unfold deref release
  rw [List.getElem?_set_ne (Ne.symm hne)]

theorem updateLoop_internal (p : Nat) :
    ∀ (k i : Nat) (h : Heap) (n : RTreeNode), deref h p = some n → n.is_leaf = false →
      (∀ j, i ≤ j → j < i + k →
        ∃ c cn, n.children[j]? = some c ∧ c ≠ p ∧ deref h c = some cn) →
      ∃ b, updateLoop p i k h = some (store h p { n with bbox := b }) := by
  intro k
  induction k with
  | zero =>
    intro i h n hd _ _
    exact ⟨n.bbox, by simp only [updateLoop]; rw [store_self hd]⟩
  | succ k ih =>
    intro i h n hd hl hall
    have hp := deref_lt hd
    obtain ⟨c, cn, hc, hcp, hcn⟩ := hall i (Nat.le_refl _) (by omega)
    have he : entryBox h n i = some cn.bbox := by
      simp [entryBox, hl, childSlot, hc, hcn]
    simp only [updateLoop, hd, he]
    obtain ⟨b, hb⟩ := ih (i + 1) (store h p { n with bbox := expandToInclude n.bbox cn.bbox })
      { n with bbox := expandToInclude n.bbox cn.bbox } (deref_store_same _ hp) hl
      (fun j hj1 hj2 => by
        obtain ⟨c2, cn2, hc2, hcp2, hcn2⟩ := hall j (by omega) (by omega)
        exact ⟨c2, cn2, hc2, hcp2, by rw [deref_store_ne _ hcp2]; exact hcn2⟩)
    rw [store_store] at hb
    exact ⟨b, hb⟩

theorem updateBoundingBox_internal {h : Heap} {p : Nat} {n : RTreeNode}
    (hd : deref h p = some n) (hl : n.is_leaf = false)
    (hall : ∀ j, j < n.num_entries →
      ∃ c cn, n.children[j]? = some c ∧ c ≠ p ∧ deref h c = some cn) :
    ∃ b, updateBoundingBox h p = some (store h p { n with bbox := b }) := by
  have hp := deref_lt hd
  unfold updateBoundingBox
  simp only [hd]
  by_cases h0 : n.num_entries = 0
  · simp only [h0, if_true]
    exact ⟨_, rfl⟩
  · obtain ⟨c, cn, hc, hcp, hcn⟩ := hall 0 (by omega)
    have he : entryBox h n 0 = some cn.bbox := by
      simp [entryBox, hl, childSlot, hc, hcn]
    simp only [h0, if_false, he]
    obtain ⟨b, hb⟩ := updateLoop_internal p (n.num_entries - 1) 1
      (store h p { n with bbox := cn.bbox }) { n with bbox := cn.bbox }
      (deref_store_same _ hp) hl
      (fun j hj1 hj2 => by
        obtain ⟨c2, cn2, hc2, hcp2, hcn2⟩ := hall j (by omega)
        exact ⟨c2, cn2, hc2, hcp2, by rw [deref_store_ne _ hcp2]; exact hcn2⟩)
    rw [store_store] at hb
    exact ⟨b, hb⟩

theorem siblingLoop_spec (pn : RTreeNode) (self : Nat) (hl : pn.is_leaf = false) :
    ∀ (k i : Nat), i + k ≤ pn.children.length →
      siblingLoop pn self i k =
        some (((pn.children.drop i).take k).find? (fun c => decide (c ≠ self))) := by
  intro k
  induction k with
  | zero => intro i _; simp [siblingLoop]
  | succ k ih =>
    intro i hb
    have hi : i < pn.children.length := by omega
    rw [take_drop_succ _ _ _ hi]
    simp only [siblingLoop, childSlot, hl, Bool.false_eq_true, if_false,
      List.getElem?_eq_getElem hi, List.find?_cons]
    by_cases hne : pn.children[i] ≠ self
    · simp [hne]
    · simp only [hne, if_false, decide_False]
      exact ih (i + 1) (by omega)

theorem absorbSensors_spec (sib : RTreeNode) (hsl : sib.is_leaf = true) :
    ∀ (k i : Nat) (n : RTreeNode), i + k ≤ sib.sensors.length → n.is_leaf = true →
      n.num_entries ≤ n.sensors.length →
      ∃ n1, absorbSensors sib i k n = some n1 ∧ n1.is_leaf = true ∧ n1.parent = n.parent ∧
        n1.num_entries = n.num_entries + k ∧ n1.num_entries ≤ n1.sensors.length := by
  intro k
  induction k with
  | zero => intro i n _ hl hb; exact ⟨n, rfl, hl, rfl, rfl, hb⟩
  | succ k ih =>
    intro i n hb hl hwf
    have hi : i < sib.sensors.length := by omega
    obtain ⟨n1, hpush, hl1, hpar1, hn1, hb1, _⟩ := pushSensor_leaf sib.sensors[i] hl hwf
    obtain ⟨n2, ha, hl2, hpar2, hn2, hb2⟩ := ih (i + 1) n1 (by omega) hl1 hb1
    refine ⟨n2, ?_, hl2, by rw [hpar2, hpar1], by rw [hn2, hn1]; omega, hb2⟩
    simp only [absorbSensors, sensorSlot, hsl, if_true, List.getElem?_eq_getElem hi, hpush]
    exact ha

/-- The removal loop of the leaf merge erases the first occurrence of the sibling among the
parent's children and keeps the slots from the new count on. -/
theorem removeLoop_spec (pn : RTreeNode) (s : Nat) (hl : pn.is_leaf = false)
    (hlen : pn.num_entries + 1 ≤ pn.children.length) :
    ∀ (k i : Nat), i + k = pn.num_entries →
      s ∈ (pn.children.take (pn.num_entries + 1)).drop i →
      ∃ l, removeLoop pn s i k = some { pn with children := l } ∧
        l.length = pn.children.length ∧
        l.drop pn.num_entries = pn.children.drop pn.num_entries ∧
        l.take pn.num_entries =
          pn.children.take i ++ ((pn.children.take (pn.num_entries + 1)).drop i).erase s := by
  obtain ⟨il, bb, ch, se, ne, pa⟩ := pn
  dsimp only at hl hlen ⊢
  subst hl
  intro k
  induction k with
  | zero =>
    intro i hik hs
    have hi : i = ne := by omega
    subst hi
    refine ⟨ch, rfl, rfl, rfl, ?_⟩
    have hd : (ch.take (i + 1)).drop i = [ch[i]] := by
      rw [List.drop_take]
      have : i + 1 - i = 1 := by omega
      rw [this]
      simpa using take_drop_succ ch i 0 (by omega)
    rw [hd] at hs ⊢
    have hs1 : s = ch[i] := by simpa using hs
    simp [hs1]
  | succ k ih =>
    intro i hik hs
    have hi : i < ch.length := by omega
    have hd : (ch.take (ne + 1)).drop i = ch[i] :: (ch.take (ne + 1)).drop (i + 1) := by
      rw [List.drop_take, List.drop_take, List.drop_eq_getElem_cons hi]
      have : ne + 1 - i = (ne + 1 - (i + 1)) + 1 := by omega
      rw [this, List.take_succ_cons]
    rw [hd] at hs ⊢
    simp only [removeLoop, childSlot, Bool.false_eq_true, if_false, List.getElem?_eq_getElem hi]
    by_cases hc : ch[i] = s
    · simp only [hc, if_true]
      obtain ⟨l1, hsh, hl1, ht⟩ := shiftSlots_spec (ne - i) i ch (by omega)
      have hdrop := shiftSlots_drop _ _ _ _ hsh
      have e : i + (ne - i) = ne := by omega
      rw [e] at ht hdrop
      refine ⟨l1, by simp [hsh], hl1, hdrop, ?_⟩
      rw [ht, ← hc, List.erase_cons_head, List.drop_take]
      have : ne + 1 - (i + 1) = ne - i := by omega
      rw [this]
    · simp only [hc, if_false]
      have hs2 : s ∈ (ch.take (ne + 1)).drop (i + 1) := by
        rcases List.mem_cons.mp hs with h1 | h1
        · exact absurd h1.symm hc
        · exact h1
      obtain ⟨l, hr, hlen2, hdr, ht⟩ := ih (i + 1) (by omega) hs2
      refine ⟨l, hr, hlen2, hdr, ?_⟩
      have hne2 : ¬ (ch[i] == s) = true := by simpa using hc
      have e3 : List.take (i + 1) ch = List.take i ch ++ [ch[i]] := by
        rw [List.take_succ, List.getElem?_eq_getElem hi]
        rfl
      rw [ht, List.erase_cons_tail hne2, e3, List.append_assoc]
      rfl

theorem rebalanceChild_noop {h : Heap} {r i v : Nat} {root cn : RTreeNode}
    (hr : deref h r = some root) (hrl : root.is_leaf = false)
    (hv : root.children[i]? = some v) (hcn : deref h v = some cn)
    (hmin : MIN_ENTRIES ≤ cn.num_entries) :
    rebalanceChild h r i = some h := by
  unfold rebalanceChild
  have hno : ¬ cn.num_entries < MIN_ENTRIES := by omega
  simp only [hr, childSlot, hrl, Bool.false_eq_true, if_false, hv, hcn, hno]

theorem overlapLoop_spec (h : Heap) (n : RTreeNode) (sb : BoundingBox)
    (hl : n.is_leaf = false) :
    ∀ (k i : Nat),
      (∀ j, i ≤ j → j < i + k → ∃ c cn, n.children[j]? = some c ∧ deref h c = some cn) →
      overlapLoop h n sb i k = some none ∨
        ∃ j, i ≤ j ∧ j < i + k ∧ overlapLoop h n sb i k = some (some j) := by
  intro k
  induction k with
  | zero => intro i _; left; rfl
  | succ k ih =>
    intro i hall
    obtain ⟨c, cn, hc, hcn⟩ := hall i (Nat.le_refl _) (by omega)
    simp only [overlapLoop, childSlot, hl, Bool.false_eq_true, if_false, hc, hcn]
    by_cases ho : overlaps cn.bbox sb = true
    · right
      exact ⟨i, Nat.le_refl _, by omega, by simp [ho]⟩
    · simp only [ho, if_false]
      rcases ih (i + 1) (fun j hj1 hj2 => hall j (by omega) (by omega)) with h1 | ⟨j, a, b, e⟩
      · left; exact h1
      · right; exact ⟨j, by omega, by omega, e⟩

theorem deleteLeaf_step {h : Heap} {p : Nat} {n : RTreeNode} (t : SensorNode)
    (hd : deref h p = some n) (hl : n.is_leaf = true)
    (hb : n.num_entries ≤ n.sensors.length) :
    deleteLeaf h p t = some (h, true) ∨
    ∃ n2, n2.is_leaf = true ∧ n2.parent = n.parent ∧ n2.num_entries + 1 = n.num_entries ∧
      n2.num_entries ≤ n2.sensors.length ∧
      leafEntries n2 = (leafEntries n).eraseP (sameXY t) ∧
      n2.bbox = leafBox (leafEntries n2) ∧
      deleteLeaf h p t =
        (if n2.num_entries < MIN_ENTRIES ∧ n2.parent ≠ none then
          (leafUnderflow (store h p n2) p).map (fun h3 => (h3, false))
        else some (store h p n2, false)) := by
  have hp := deref_lt hd
  have hs := leafScan_eq n t hl n.num_entries 0 (by omega)
  simp only [List.drop_zero] at hs
  obtain ⟨il, bb, ch, se, ne, pa⟩ := n
  dsimp only at hl hb hs
  subst hl
  simp only [deleteLeaf, hd, hs]
  rcases findIdx_find (sameXY t) (List.take ne se) 0 with
    ⟨h1, _, _, _⟩ | ⟨j, x, h1, h2, _, h4, h5, h6⟩
  · left
    rw [h1]
  · right
    rw [h1]
    have hlen : (List.take ne se).length = ne := by simp [hb]
    have hjn : j < ne := by omega
    obtain ⟨l1, hsh, hl1len, hl1t⟩ := shiftSlots_spec (ne - 1 - j) j se (by omega)
    simp only [Nat.zero_add, hsh]
    have hd1 : deref (store h p ⟨true, bb, ch, l1, ne - 1, pa⟩) p =
        some ⟨true, bb, ch, l1, ne - 1, pa⟩ := deref_store_same _ hp
    have hb1 : ne - 1 ≤ l1.length := by omega
    have hu := updateBoundingBox_leaf hd1 rfl hb1
    rw [store_store] at hu
    simp only [hu]
    rw [deref_store_same _ hp]
    have hent : leafEntries ⟨true, bb, ch, l1, ne - 1, pa⟩ =
        (List.take ne se).eraseP (sameXY t) := by
      have e2 : j + (ne - 1 - j) = ne - 1 := by omega
      rw [e2] at hl1t
      show List.take (ne - 1) l1 = _
      rw [hl1t, h5]
      exact (eraseIdx_take se j ne hjn).symm
    refine ⟨⟨true, leafBox (leafEntries ⟨true, bb, ch, l1, ne - 1, pa⟩), ch, l1, ne - 1, pa⟩,
      rfl, rfl, ?_, hb1, hent, rfl, rfl⟩
    show ne - 1 + 1 = ne
    omega

/-- Borrow at leaf level: when the sibling holds more than MIN_ENTRIES entries, exactly the
underflowed leaf and the sibling change; the leaf gains one entry and the sibling
loses one. -/
theorem leafUnderflow_borrow {h : Heap} {c s : Nat} {n sib : RTreeNode}
    (hn : deref h c = some n) (hnl : n.is_leaf = true) (hnb : n.num_entries ≤ n.sensors.length)
    (hs : deref h s = some sib) (hsl : sib.is_leaf = true)
    (hsb : sib.num_entries ≤ sib.sensors.length) (hne : s ≠ c)
    (hfind : findSibling h c = some (some s)) (hbig : sib.num_entries > MIN_ENTRIES) :
    ∃ h1 n1 sib1, leafUnderflow h c = some h1 ∧
      deref h1 c = some n1 ∧ n1.is_leaf = true ∧ n1.num_entries = n.num_entries + 1 ∧
      n1.parent = n.parent ∧ n1.num_entries ≤ n1.sensors.length ∧
      deref h1 s = some sib1 ∧ sib1.is_leaf = true ∧ sib1.num_entries + 1 = sib.num_entries ∧
      sib1.parent = sib.parent ∧ sib1.num_entries ≤ sib1.sensors.length ∧
      (∀ a, a ≠ c → a ≠ s → deref h1 a = deref h a) := by
  have hpc := deref_lt hn
  have hps := deref_lt hs
  obtain ⟨il, bb, ch, se, ne, pa⟩ := n
  obtain ⟨sil, sbb, sch, sse, sne, spa⟩ := sib
  dsimp only at hnl hnb hsl hsb hbig ⊢
  subst hnl hsl
  have hpos : 0 < sne := by omega
  have hlast : sne - 1 < sse.length := by omega
  obtain ⟨n3, hpush, hl3, hpar3, hn3, hb3, _⟩ :=
    pushSensor_leaf (n := ⟨true, bb, ch, se, ne, pa⟩) sse[sne - 1] rfl hnb
  have hs3 : deref (store h c n3) s = some ⟨true, sbb, sch, sse, sne, spa⟩ := by
    rw [deref_store_ne _ hne]; exact hs
  have hc4 : deref (store (store h c n3) s ⟨true, sbb, sch, sse, sne - 1, spa⟩) c = some n3 := by
    rw [deref_store_ne _ (Ne.symm hne)]
    exact deref_store_same _ hpc
  have hu1 := updateBoundingBox_leaf hc4 hl3 hb3
  have hs5 : deref (store (store (store h c n3) s ⟨true, sbb, sch, sse, sne - 1, spa⟩) c
      { n3 with bbox := leafBox (leafEntries n3) }) s =
      some ⟨true, sbb, sch, sse, sne - 1, spa⟩ := by
    rw [deref_store_ne _ hne]
    exact deref_store_same _ (by rw [length_store]; exact hps)
  have hsb1 : sne - 1 ≤ sse.length := by omega
  have hu2 := updateBoundingBox_leaf hs5 rfl hsb1
  obtain ⟨hF, hu3, hFe⟩ : ∃ hF, updateBoundingBox (store (store (store h c n3) s
      ⟨true, sbb, sch, sse, sne - 1, spa⟩) c
      { n3 with bbox := leafBox (leafEntries n3) }) s = some hF ∧ hF = _ := ⟨_, hu2, rfl⟩
  refine ⟨hF, { n3 with bbox := leafBox (leafEntries n3) },
    ⟨true, leafBox (leafEntries ⟨true, sbb, sch, sse, sne - 1, spa⟩), sch, sse, sne - 1, spa⟩,
    ?_, ?_, hl3, hn3, hpar3, hb3, ?_, rfl, ?_, rfl, hsb1, ?_⟩
  · unfold leafUnderflow
    simp only [hn, hfind, hs, hbig, if_true, sensorSlot, List.getElem?_eq_getElem hlast,
      hpush, hs3, hu1]
    exact hu3
  all_goals subst hFe
  · rw [deref_store_ne _ (Ne.symm hne)]
    exact deref_store_same _ (by rw [length_store, length_store]; exact hpc)
  · exact deref_store_same _ (by rw [length_store, length_store, length_store]; exact hps)
  · show sne - 1 + 1 = sne
    omega
  · intro a hac has
    rw [deref_store_ne _ has, deref_store_ne _ hac, deref_store_ne _ has, deref_store_ne _ hac]

/-- Merge at leaf level: the underflowed leaf takes all entries of the sibling, the sibling
is freed and removed from the parent's children (the order of the others kept), and the
parent's count drops by one. -/
theorem leafUnderflow_merge {h : Heap} {c s r : Nat} {n sib root : RTreeNode}
    (hn : deref h c = some n) (hnl : n.is_leaf = true) (hnb : n.num_entries ≤ n.sensors.length)
    (hpar : n.parent = some r)
    (hs : deref h s = some sib) (hsl : sib.is_leaf = true)
    (hsb : sib.num_entries ≤ sib.sensors.length)
    (hr : deref h r = some root) (hrl : root.is_leaf = false)
    (hk : root.num_entries ≤ root.children.length) (hk1 : 1 ≤ root.num_entries)
    (hne : s ≠ c) (hcr : c ≠ r) (hsr : s ≠ r)
    (hfind : findSibling h c = some (some s)) (hsmall : ¬ sib.num_entries > MIN_ENTRIES)
    (hmem : s ∈ root.children.take root.num_entries)
    (hnd : (root.children.take root.num_entries).Nodup)
    (hch : ∀ v ∈ root.children.take root.num_entries, v ≠ r ∧ ∃ m, deref h v = some m) :
    ∃ h1 n1 root1, leafUnderflow h c = some h1 ∧
      deref h1 c = some n1 ∧ n1.is_leaf = true ∧
      n1.num_entries = n.num_entries + sib.num_entries ∧
      n1.parent = n.parent ∧ n1.num_entries ≤ n1.sensors.length ∧
      deref h1 s = none ∧
      deref h1 r = some root1 ∧ root1.is_leaf = false ∧ root1.parent = root.parent ∧
      root1.num_entries = root.num_entries - 1 ∧
      root1.children.length = root.children.length ∧
      root1.children.take (root.num_entries - 1) =
        (root.children.take root.num_entries).erase s ∧
      root1.children.drop (root.num_entries - 1) = root.children.drop (root.num_entries - 1) ∧
      (∀ a, a ≠ c → a ≠ s → a ≠ r → deref h1 a = deref h a) := by
  have hpc := deref_lt hn
  have hps := deref_lt hs
  have hpr := deref_lt hr
  obtain ⟨il, bb, ch, se, ne, pa⟩ := n
  obtain ⟨sil, sbb, sch, sse, sne, spa⟩ := sib
  obtain ⟨ril, rbb, rch, rse, rne, rpa⟩ := root
  dsimp only at hnl hnb hsl hsb hsmall hpar hrl hk hk1 hmem hnd hch ⊢
  subst hnl hsl hrl hpar
  obtain ⟨n3, habs, hl3, hpar3, hn3, hb3⟩ :=
    absorbSensors_spec ⟨true, sbb, sch, sse, sne, spa⟩ rfl sne 0 ⟨true, bb, ch, se, ne, some r⟩
      (by simpa using hsb) rfl hnb
  have hr3 : deref (store h c n3) r = some ⟨false, rbb, rch, rse, rne, rpa⟩ := by
    rw [deref_store_ne _ (Ne.symm hcr)]; exact hr
  have hk2 : rne - 1 + 1 = rne := by omega
  obtain ⟨l, hrem, hlen, hdrop, htake⟩ :=
    removeLoop_spec ⟨false, rbb, rch, rse, rne - 1, rpa⟩ s rfl (by show rne - 1 + 1 ≤ rch.length; omega)
      (rne - 1) 0 (by show 0 + (rne - 1) = rne - 1; omega)
      (by show s ∈ List.drop 0 (List.take (rne - 1 + 1) rch); rw [hk2]; simpa using hmem)
  dsimp only at hrem hlen hdrop htake
  rw [hk2] at htake
  simp only [List.take_zero, List.nil_append, List.drop_zero] at htake
  have hr5 : deref (release (store (store h c n3) r ⟨false, rbb, l, rse, rne - 1, rpa⟩) s) r =
      some ⟨false, rbb, l, rse, rne - 1, rpa⟩ := by
    rw [deref_release_ne _ (Ne.symm hsr)]
    exact deref_store_same _ (by rw [length_store]; exact hpr)
  have hall : ∀ j, j < rne - 1 → ∃ v vn, l[j]? = some v ∧ v ≠ r ∧
      deref (release (store (store h c n3) r ⟨false, rbb, l, rse, rne - 1, rpa⟩) s) v =
        some vn := by
    intro j hj
    have hjl : j < (List.take (rne - 1) l).length := by simp; omega
    have hv : (List.take (rne - 1) l)[j] ∈ (List.take rne rch).erase s := by
      rw [← htake]; exact List.getElem_mem _
    have hv2 := (List.Nodup.mem_erase_iff hnd).mp hv
    obtain ⟨hvr, m, hm⟩ := hch _ hv2.2
    have hget : l[j]? = some (List.take (rne - 1) l)[j] := by
      rw [List.getElem_take, List.getElem?_eq_getElem]
    refine ⟨_, if (List.take (rne - 1) l)[j] = c then n3 else m, hget, hvr, ?_⟩
    rw [deref_release_ne _ hv2.1, deref_store_ne _ hvr]
    by_cases hvc : (List.take (rne - 1) l)[j] = c
    · rw [hvc, if_pos rfl]
      exact deref_store_same _ hpc
    · rw [if_neg hvc, deref_store_ne _ hvc]
      exact hm
  obtain ⟨b, hu⟩ := updateBoundingBox_internal hr5 rfl hall
  obtain ⟨hF, hu3, hFe⟩ : ∃ hF, updateBoundingBox
      (release (store (store h c n3) r ⟨false, rbb, l, rse, rne - 1, rpa⟩) s) r = some hF ∧
      hF = _ := ⟨_, hu, rfl⟩
  refine ⟨hF, n3, ⟨false, b, l, rse, rne - 1, rpa⟩, ?_, ?_, hl3, hn3, hpar3, hb3, ?_, ?_, rfl, rfl,
    rfl, hlen, htake, hdrop, ?_⟩
  · unfold leafUnderflow
    simp only [hn, hfind, hs, hsmall, if_false, habs, hpar3, hr3, hrem, Option.map_some']
    exact hu3
  all_goals subst hFe
  · rw [deref_store_ne _ hcr, deref_release_ne _ (Ne.symm hne), deref_store_ne _ hcr]
    exact deref_store_same _ hpc
  · rw [deref_store_ne _ hsr]
    exact deref_release_same _ _
  · exact deref_store_same _ (by
      show r < (release (store (store h c n3) r _) s).length
      simp only [release, List.length_set, length_store]
      exact hpr)
  · intro a hac has har
    rw [deref_store_ne _ har, deref_release_ne _ has, deref_store_ne _ har, deref_store_ne _ hac]

theorem nodup_all_eq {l : List Nat} {c : Nat} (hnd : l.Nodup) (hall : ∀ v ∈ l, v = c) :
    l.length ≤ 1 := by
  cases l with
  | nil => simp
  | cons a r =>
    cases r with
    | nil => simp
    | cons b r2 =>
      have ha := hall a (by simp)
      have hb := hall b (by simp)
      rw [List.nodup_cons] at hnd
      exact absurd (by rw [ha, hb]; simp) hnd.1

theorem findSibling_flat {h : Heap} {c r : Nat} {n root : RTreeNode}
    (hn : deref h c = some n) (hpar : n.parent = some r) (hr : deref h r = some root)
    (hrl : root.is_leaf = false) (hk : root.num_entries ≤ root.children.length) :
    findSibling h c =
      some ((root.children.take root.num_entries).find? (fun v => decide (v ≠ c))) := by
  unfold findSibling
  simp only [hn, hpar, hr]
  have := siblingLoop_spec root c hrl root.num_entries 0 (by omega)
  simpa using this

theorem leafUnderflow_none {h : Heap} {c : Nat} {n : RTreeNode} (hn : deref h c = some n)
    (hfind : findSibling h c = some none) : leafUnderflow h c = some h := by
  unfold leafUnderflow
  simp only [hn, hfind]

theorem rebalanceChild_nosibling {h : Heap} {r i c : Nat} {root cn : RTreeNode}
    (hr : deref h r = some root) (hrl : root.is_leaf = false)
    (hv : root.children[i]? = some c) (hcn : deref h c = some cn)
    (hfind : findSibling h c = some none) :
    rebalanceChild h r i = some h := by
  unfold rebalanceChild
  simp only [hr, childSlot, hrl, Bool.false_eq_true, if_false, hv, hcn, hfind]
  split <;> rfl

theorem mem_take_of_getElem? {l : List Nat} {i k c : Nat} (hi : l[i]? = some c) (hik : i < k) :
    c ∈ l.take k := by
  have : (l.take k)[i]? = some c := by rw [List.getElem?_take_of_lt hik]; exact hi
  exact List.getElem?_mem this

theorem underflow_flat {h : Heap} {r c i : Nat} {root n : RTreeNode}
    (hr : deref h r = some root) (hrl : root.is_leaf = false)
    (hk : root.num_entries ≤ root.children.length)
    (hnd : (root.children.take root.num_entries).Nodup)
    (hch : ∀ v ∈ root.children.take root.num_entries, v ≠ r ∧
      ∃ m, deref h v = some m ∧ m.is_leaf = true ∧ m.parent = some r ∧
        m.num_entries ≤ m.sensors.length)
    (hi : root.children[i]? = some c) (hik : i < root.num_entries)
    (hn : deref h c = some n) (hn1 : n.num_entries + 1 = MIN_ENTRIES)
    (hocc : ∀ a m, a ≠ r → a ≠ c → deref h a = some m →
      MIN_ENTRIES ≤ m.num_entries ∧ m.num_entries ≤ MAX_ENTRIES) :
    ∃ h1, leafUnderflow h c = some h1 ∧ rebalanceChild h1 r i = some h1 ∧
      ∀ a m, a ≠ r → deref h1 a = some m →
        MIN_ENTRIES - 1 ≤ m.num_entries ∧ m.num_entries ≤ MAX_ENTRIES ∧
        (2 ≤ root.num_entries → MIN_ENTRIES ≤ m.num_entries) := by
  have hMIN : MIN_ENTRIES = 2 := rfl
  have hMAX : MAX_ENTRIES = 4 := rfl
  have hc : c ∈ root.children.take root.num_entries := mem_take_of_getElem? hi hik
  obtain ⟨hcr, n0, hn0, hnl, hpar, hnb⟩ := hch c hc
  rw [hn] at hn0
  cases hn0
  have hfs := findSibling_flat hn hpar hr hrl hk
  cases hf : (root.children.take root.num_entries).find? (fun v => decide (v ≠ c)) with
  | none =>
    rw [hf] at hfs
    refine ⟨h, leafUnderflow_none hn hfs, rebalanceChild_nosibling hr hrl hi hn hfs, ?_⟩
    have hall : ∀ v ∈ root.children.take root.num_entries, v = c := by
      intro v hv
      have := List.find?_eq_none.mp hf v hv
      simpa using this
    have hlen := nodup_all_eq hnd hall
    simp only [List.length_take] at hlen
    intro a m har ham
    by_cases hac : a = c
    · subst hac
      rw [hn] at ham
      cases ham
      omega
    · have := hocc a m har hac ham
      omega
  | some s =>
    rw [hf] at hfs
    have hsmem : s ∈ root.children.take root.num_entries := List.mem_of_find?_eq_some hf
    have hsc : s ≠ c := by simpa using List.find?_some hf
    obtain ⟨hsr, sib, hsib, hsl, hspar, hsb⟩ := hch s hsmem
    have hsocc := hocc s sib hsr hsc hsib
    by_cases hbig : sib.num_entries > MIN_ENTRIES
    · obtain ⟨h1, n1, sib1, hlu, hc1, hl1, hcnt1, _, _, hs1, _, hscnt, _, _, hfr⟩ :=
        leafUnderflow_borrow hn hnl hnb hsib hsl hsb hsc hfs hbig
      have hr1 : deref h1 r = some root := by rw [hfr r (Ne.symm hcr) (Ne.symm hsr)]; exact hr
      refine ⟨h1, hlu, rebalanceChild_noop hr1 hrl hi hc1 (by omega), ?_⟩
      intro a m har ham
      by_cases hac : a = c
      · subst hac
        rw [hc1] at ham
        cases ham
        omega
      · by_cases has : a = s
        · subst has
          rw [hs1] at ham
          cases ham
          omega
        · rw [hfr a hac has] at ham
          have := hocc a m har hac ham
          omega
    · obtain ⟨h1, n1, root1, hlu, hc1, hl1, hcnt1, _, _, hs1, hr1, hrl1, _, hrcnt, hrlen, hrtake,
        hrdrop, hfr⟩ :=
        leafUnderflow_merge hn hnl hnb hpar hsib hsl hsb hr hrl hk (by omega) hsc hcr hsr hfs hbig
          hsmem hnd (fun v hv => ⟨(hch v hv).1, by
            obtain ⟨_, m, hm, _⟩ := hch v hv
            exact ⟨m, hm⟩⟩)
      have hbound : ∀ a m, a ≠ r → deref h1 a = some m →
          MIN_ENTRIES ≤ m.num_entries ∧ m.num_entries ≤ MAX_ENTRIES := by
        intro a m har ham
        by_cases hac : a = c
        · subst hac
          rw [hc1] at ham
          cases ham
          omega
        · by_cases has : a = s
          · subst has
            rw [hs1] at ham
            cases ham
          · rw [hfr a hac has har] at ham
            exact hocc a m har hac ham
      have hslot : ∃ v, root1.children[i]? = some v ∧
          v ∈ root.children.take root.num_entries ∧ v ≠ s := by
        by_cases hlt : i < root.num_entries - 1
        · have hil : i < (root1.children.take (root.num_entries - 1)).length := by
            simp only [List.length_take, hrlen]; omega
          have hv : (root1.children.take (root.num_entries - 1))[i] ∈
              (root.children.take root.num_entries).erase s := by
            rw [← hrtake]; exact List.getElem_mem _
          have hv2 := (List.Nodup.mem_erase_iff hnd).mp hv
          refine ⟨_, ?_, hv2.2, hv2.1⟩
          rw [List.getElem_take, List.getElem?_eq_getElem]
        · have hie : i = root.num_entries - 1 := by omega
          refine ⟨c, ?_, hc, Ne.symm hsc⟩
          have e1 : root1.children[i]? = (root1.children.drop (root.num_entries - 1))[0]? := by
            rw [List.getElem?_drop, hie]; rfl
          have e2 : root.children[i]? = (root.children.drop (root.num_entries - 1))[0]? := by
            rw [List.getElem?_drop, hie]; rfl
          rw [e1, hrdrop, ← e2]
          exact hi
      obtain ⟨v, hv, hvm, hvs⟩ := hslot
      obtain ⟨hvr, vm, hvd, _⟩ := hch v hvm
      have hvd1 : ∃ vn, deref h1 v = some vn := by
        by_cases hvc : v = c
        · exact ⟨n1, by rw [hvc]; exact hc1⟩
        · exact ⟨vm, by rw [hfr v hvc hvs hvr]; exact hvd⟩
      obtain ⟨vn, hvn⟩ := hvd1
      refine ⟨h1, hlu, rebalanceChild_noop hr1 hrl1 hv hvn (hbound v vn hvr hvn).1, ?_⟩
      intro a m har ham
      have := hbound a m har ham
      omega

/-- Deletion on a tree of height 2 with occupancy within bounds returns and keeps the upper
bound; it keeps the lower bound when the root has at least two children. -/
theorem delete_flat (h : Heap) (r : Nat) (t : SensorNode) (fuel : Nat) (hflat : Flat h r)
    (hocc : Occupancy h r) :
    ∃ h1 b, deleteSensorFromRTree (fuel + 2) h r t = some (h1, b) ∧
      (∀ a n, a ≠ r → deref h1 a = some n →
        MIN_ENTRIES - 1 ≤ n.num_entries ∧ n.num_entries ≤ MAX_ENTRIES) ∧
      ((∀ root, deref h r = some root → 2 ≤ root.num_entries) → Occupancy h1 r) := by
  have hMIN : MIN_ENTRIES = 2 := rfl
  have hMAX : MAX_ENTRIES = 4 := rfl
  obtain ⟨root, hr, hrl, hk, hnd, hch⟩ := hflat
  suffices hsuff : ∃ h1 b, deleteSensorFromRTree (fuel + 2) h r t = some (h1, b) ∧
      (∀ a n, a ≠ r → deref h1 a = some n →
        MIN_ENTRIES - 1 ≤ n.num_entries ∧ n.num_entries ≤ MAX_ENTRIES) ∧
      (2 ≤ root.num_entries → Occupancy h1 r) by
    obtain ⟨h1, b, hd, ha, hb⟩ := hsuff
    exact ⟨h1, b, hd, ha, fun h2 => hb (h2 root hr)⟩
  have hkeep : (∀ a n, a ≠ r → deref h a = some n →
        MIN_ENTRIES - 1 ≤ n.num_entries ∧ n.num_entries ≤ MAX_ENTRIES) ∧
      (2 ≤ root.num_entries → Occupancy h r) :=
    ⟨fun a n har han => by have := hocc a n har han; omega, fun _ => hocc⟩
  have hloop := overlapLoop_spec h root (createBoundingBoxForSensor t) hrl root.num_entries 0
    (fun j _ hj => by
      have hjl : j < root.children.length := by omega
      have hmem : root.children[j] ∈ root.children.take root.num_entries :=
        mem_take_of_getElem? (List.getElem?_eq_getElem hjl) (by omega)
      obtain ⟨_, m, hm, _⟩ := hch _ hmem
      exact ⟨_, m, List.getElem?_eq_getElem hjl, hm⟩)
  simp only [deleteSensorFromRTree, hr, hrl, Bool.false_eq_true, if_false]
  rcases hloop with hnone | ⟨i, _, hik, hsome⟩
  · rw [hnone]
    exact ⟨h, false, rfl, hkeep⟩
  · rw [hsome]
    simp only [Nat.zero_add] at hik
    have hil : i < root.children.length := by omega
    have hi : root.children[i]? = some root.children[i] := List.getElem?_eq_getElem hil
    have hc : root.children[i] ∈ root.children.take root.num_entries :=
      mem_take_of_getElem? hi hik
    obtain ⟨hcr, n, hn, hnl, hpar, hnb⟩ := hch _ hc
    have hnocc := hocc _ n hcr hn
    simp only [childSlot, hrl, Bool.false_eq_true, if_false, hi, hn, hnl, if_true]
    rcases deleteLeaf_step t hn hnl hnb with hnf | ⟨n2, hl2, hpar2, hcnt2, hb2, _, _, hdel⟩
    · rw [hnf]
      simp only
      rw [rebalanceChild_noop hr hrl hi hn hnocc.1]
      exact ⟨h, true, rfl, hkeep⟩
    · rw [hdel]
      have hp := deref_lt hn
      have hn2 : deref (store h root.children[i] n2) root.children[i] = some n2 :=
        deref_store_same _ hp
      have hr2 : deref (store h root.children[i] n2) r = some root := by
        rw [deref_store_ne _ (Ne.symm hcr)]; exact hr
      by_cases hsmall : n2.num_entries < MIN_ENTRIES
      · have hcond : n2.num_entries < MIN_ENTRIES ∧ n2.parent ≠ none := by
          refine ⟨hsmall, ?_⟩
          rw [hpar2, hpar]
          simp
        rw [if_pos hcond]
        obtain ⟨h1, hlu, hreb, hbounds⟩ :=
          underflow_flat (h := store h root.children[i] n2) hr2 hrl hk hnd
            (fun v hv => by
              obtain ⟨hvr, m, hm, hml, hmp, hmb⟩ := hch v hv
              refine ⟨hvr, ?_⟩
              by_cases hvc : v = root.children[i]
              · subst hvc
                exact ⟨n2, hn2, hl2, by rw [hpar2, hpar], hb2⟩
              · exact ⟨m, by rw [deref_store_ne _ hvc]; exact hm, hml, hmp, hmb⟩)
            hi hik hn2 (by omega)
            (fun a m har hac ham => by
              rw [deref_store_ne _ hac] at ham
              exact hocc a m har ham)
        rw [hlu]
        simp only [Option.map_some', hreb]
        refine ⟨h1, false, rfl, fun a m har ham => ?_, fun h2 a m har ham => ?_⟩
        · have := hbounds a m har ham
          omega
        · have := hbounds a m har ham
          exact ⟨this.2.2 h2, this.2.1⟩
      · have hcond : ¬ (n2.num_entries < MIN_ENTRIES ∧ n2.parent ≠ none) := fun hx => hsmall hx.1
        rw [if_neg hcond]
        simp only
        rw [rebalanceChild_noop hr2 hrl hi hn2 (by omega)]
        have hb : ∀ a m, a ≠ r → deref (store h root.children[i] n2) a = some m →
            MIN_ENTRIES ≤ m.num_entries ∧ m.num_entries ≤ MAX_ENTRIES := by
          intro a m har ham
          by_cases hac : a = root.children[i]
          · subst hac
            rw [hn2] at ham
            cases ham
            omega
          · rw [deref_store_ne _ hac] at ham
            exact hocc a m har ham
        refine ⟨_, false, rfl, fun a m har ham => ?_, fun _ => hb⟩
        have := hb a m har ham
        omega

theorem occupancy_tree2 : Occupancy tree2 0 := by
  intro a n ha hd
  match a, ha with
  | 1, _ =>
    have : n = ⟨true, ⟨0, 0, 3, 3⟩, [],
        [⟨0, 0, 0, 0, 0⟩, ⟨1, 1, 0, 0, 0⟩, ⟨2, 2, 0, 0, 0⟩, ⟨3, 3, 0, 0, 0⟩], 4, some 0⟩ :=
      (Option.some.inj hd).symm
    subst this
    decide
  | 2, _ =>
    have : n = ⟨true, ⟨10, 10, 12, 12⟩, [], [⟨10, 10, 0, 0, 0⟩, ⟨12, 12, 0, 0, 0⟩], 2, some 0⟩ :=
      (Option.some.inj hd).symm
    subst this
    decide
  | a + 3, _ => simp [deref, tree2] at hd

theorem wellFormed_tree2 : WellFormed 1 tree2 0 := by
  refine ⟨_, rfl, rfl, by decide, ?_⟩
  intro i hi
  match i, hi with
  | 0, _ => exact ⟨1, rfl, _, rfl, rfl, by decide⟩
  | 1, _ => exact ⟨2, rfl, _, rfl, rfl, by decide⟩

theorem flat_tree2 : Flat tree2 0 := by
  refine ⟨_, rfl, rfl, by decide, by decide, ?_⟩
  intro c hc
  have hc2 : c = 1 ∨ c = 2 := by simpa using hc
  rcases hc2 with rfl | rfl
  · exact ⟨by decide, _, rfl, rfl, rfl, by decide⟩
  · exact ⟨by decide, _, rfl, rfl, rfl, by decide⟩

theorem deleteLeaf_absent {h : Heap} {p : Nat} {n : RTreeNode} (t : SensorNode)
    (hd : deref h p = some n) (hl : n.is_leaf = true)
    (hb : n.num_entries ≤ n.sensors.length)
    (habs : ∀ s ∈ leafEntries n, sameXY t s = false) :
    deleteLeaf h p t = some (h, true) := by
  have hs := leafScan_eq n t hl n.num_entries 0 (by omega)
  simp only [List.drop_zero] at hs
  simp only [deleteLeaf, hd, hs]
  rcases findIdx_find (sameXY t) (List.take n.num_entries n.sensors) 0 with
    ⟨h1, _, _, _⟩ | ⟨j, x, _, h2, _, h4, _, _⟩
  · rw [h1]
  · have := habs x (List.getElem?_mem h2)
    rw [h4] at this
    cases this

theorem wellFormed_unique (h : Heap) :
    ∀ (d e p : Nat), WellFormed d h p → WellFormed e h p → d = e := by
  intro d
  induction d with
  | zero =>
    intro e p hd he
    obtain ⟨n, hn, hl, _⟩ := hd
    cases e with
    | zero => rfl
    | succ e =>
      obtain ⟨m, hm, hml, _⟩ := he
      rw [hn] at hm
      cases hm
      rw [hl] at hml
      cases hml
  | succ d ih =>
    intro e p hd he
    obtain ⟨n, hn, hl, h1, hch⟩ := hd
    cases e with
    | zero =>
      obtain ⟨m, hm, hml, _⟩ := he
      rw [hn] at hm
      cases hm
      rw [hl] at hml
      cases hml
    | succ e =>
      obtain ⟨m, hm, _, _, hch2⟩ := he
      rw [hn] at hm
      cases hm
      obtain ⟨c, hc, hwc⟩ := hch 0 (by omega)
      obtain ⟨c2, hc2, hwc2⟩ := hch2 0 (by omega)
      rw [hc] at hc2
      cases hc2
      rw [ih e c hwc hwc2]

/-- Deleting an absent coordinate from a well-formed subtree without underfull nodes below
its root leaves the heap unchanged. -/
theorem delete_absent_rec (h : Heap) (t : SensorNode)
    (habs : ∀ a n, deref h a = some n → n.is_leaf = true →
      ∀ s ∈ leafEntries n, sameXY t s = false) :
    ∀ (d p : Nat), WellFormed d h p →
      (∀ e c n, e < d → WellFormed e h c → deref h c = some n →
        MIN_ENTRIES ≤ n.num_entries) →
      ∀ fuel, ∃ b, deleteSensorFromRTree (d + 1 + fuel) h p t = some (h, b) ∧
        (d = 0 → b = true) ∧
        (∀ n, deref h p = some n → n.is_leaf = false →
          overlapLoop h n (createBoundingBoxForSensor t) 0 n.num_entries = some none →
          b = false) := by
  intro d
  induction d with
  | zero =>
    intro p hw _ fuel
    obtain ⟨n, hn, hl, hb⟩ := hw
    have e : 0 + 1 + fuel = fuel + 1 := by omega
    rw [e]
    refine ⟨true, ?_, fun _ => rfl, ?_⟩
    · simp only [deleteSensorFromRTree, hn, hl, if_true]
      exact deleteLeaf_absent t hn hl hb (habs p n hn hl)
    · intro m hm hml _
      rw [hn] at hm
      cases hm
      rw [hl] at hml
      cases hml
  | succ d ih =>
    intro p hw hmin fuel
    obtain ⟨n, hn, hl, h1, hch⟩ := hw
    have e : d + 1 + 1 + fuel = (d + 1 + fuel) + 1 := by omega
    rw [e]
    have hloop := overlapLoop_spec h n (createBoundingBoxForSensor t) hl n.num_entries 0
      (fun j _ hj => by
        obtain ⟨c, hc, hwc⟩ := hch j (by omega)
        obtain ⟨cn, hcn⟩ := wellFormed_deref hwc
        exact ⟨c, cn, hc, hcn⟩)
    rcases hloop with hnone | ⟨i, _, hik, hsome⟩
    · refine ⟨false, ?_, fun hd => by omega, fun _ _ _ _ => rfl⟩
      simp only [deleteSensorFromRTree, hn, hl, Bool.false_eq_true, if_false, hnone]
    · obtain ⟨c, hc, hwc⟩ := hch i (by omega)
      obtain ⟨cn, hcn⟩ := wellFormed_deref hwc
      obtain ⟨b, hrec, _⟩ := ih c hwc
        (fun e2 c2 n2 he2 hw2 hn2 => hmin e2 c2 n2 (by omega) hw2 hn2) fuel
      refine ⟨b, ?_, fun hd => by omega, ?_⟩
      · simp only [deleteSensorFromRTree, hn, hl, Bool.false_eq_true, if_false, hsome, childSlot,
          hc]
        rw [hrec]
        simp only
        rw [rebalanceChild_noop hn hl hc hcn (hmin d c cn (by omega) hwc hcn)]
        rfl
      · intro m hm _ hov
        rw [hn] at hm
        cases hm
        rw [hsome] at hov
        cases hov

theorem insertSlot_rootLeaf (fuel : Nat) {h : Heap} {p : Nat} {es : List SensorNode}
    (s : SensorNode) (hr : RootLeaf h p es) : insertSlot (fuel + 1) h p s = some es.length := by
  obtain ⟨n, hd, hl, _, hb, hes, _⟩ := hr
  have hlen : es.length = n.num_entries := by
    rw [← hes]
    unfold leafEntries
    rw [List.length_take]
    omega
  simp [insertSlot, descend, hd, hl, hlen]

theorem insertSlots_rootLeaf (fuel : Nat) (uninit : Nat → BoundingBox) :
    ∀ (l : List SensorNode) (h : Heap) (es : List SensorNode), RootLeaf h 0 es →
      insertSlots (fuel + 1) uninit l h = some (List.range' es.length l.length) := by
  intro l
  induction l with
  | nil => intro h es _; rfl
  | cons s rest ih =>
    intro h es hr
    obtain ⟨h1, hins, hr1⟩ := insert_rootLeaf fuel uninit s hr
    simp only [insertSlots, insertSlot_rootLeaf fuel s hr, hins, ih h1 _ hr1,
      List.length_append, List.length_singleton, Option.map_some', List.length_cons]
    rfl

theorem reachableInBounds_reachable {h : Heap} (hr : ReachableInBounds h) : Reachable h := by
  induction hr with
  | init uninit => exact Reachable.init uninit
  | insert fuel s uninit i _ _ _ hins ih => exact Reachable.insert fuel s uninit ih hins
  | delete fuel t b _ hdel ih => exact Reachable.delete fuel t b ih hdel

/-! ## C1: range query after a sequence of insertions -/

/-- C1 holds up to MAX_ENTRIES insertions and breaks at the next one. For every sequence `l`
of at most MAX_ENTRIES records inserted one at a time through `root` into the initial
tree, the insertions return, the k-th writes slot k-1 of the root leaf, below the
MAX_ENTRIES slots allocated, and `rangeQuery` on the root invokes the visitor on exactly
the inserted records with `q.min_x ≤ x ≤ q.max_x` and `q.min_y ≤ y ≤ q.max_y`, each once,
and adds their number to the counter; every permutation of the insertion order reports
the same records up to order; the box covering the whole `int` domain reports all of
them. When `l` has MAX_ENTRIES records, the insertion of any further record `s` stores
it at index MAX_ENTRIES, which is not below the number of slots allocated. -/
theorem inserts_reach_capacity (fuel : Nat) (uninit : Nat → BoundingBox)
    (l : List SensorNode) (q : BoundingBox) (acc : List SensorNode × Nat)
    (hlen : l.length ≤ MAX_ENTRIES) :
    ∃ h, insertAll (fuel + 1) uninit l (initialHeap uninit) = some h ∧
      insertSlots (fuel + 1) uninit l (initialHeap uninit) = some (List.range l.length) ∧
      (∀ i ∈ List.range l.length, i < CAPACITY) ∧
      rangeQuery (fuel + 1) h 0 q acc =
        some (acc.1 ++ l.filter (inBox q), acc.2 + (l.filter (inBox q)).length) ∧
      (∀ l2 : List SensorNode, l2.Perm l →
        ∃ h2 r, insertAll (fuel + 1) uninit l2 (initialHeap uninit) = some h2 ∧
          insertSlots (fuel + 1) uninit l2 (initialHeap uninit) = some (List.range l.length) ∧
          rangeQuery (fuel + 1) h2 0 q acc = some r ∧
          r.1.Perm (acc.1 ++ l.filter (inBox q)) ∧
          r.2 = acc.2 + (l.filter (inBox q)).length) ∧
      ((∀ s ∈ l, INT_MIN ≤ s.x ∧ s.x ≤ INT_MAX ∧ INT_MIN ≤ s.y ∧ s.y ≤ INT_MAX) →
        rangeQuery (fuel + 1) h 0 ⟨INT_MIN, INT_MIN, INT_MAX, INT_MAX⟩ ([], 0) =
          some (l, l.length)) ∧
      (l.length = MAX_ENTRIES → ∀ s : SensorNode,
        insertSlot (fuel + 1) h 0 s = some MAX_ENTRIES ∧ ¬ MAX_ENTRIES < CAPACITY) := by
  obtain ⟨h, hi, hr⟩ :=
    insertAll_rootLeaf fuel uninit l (initialHeap uninit) [] (initial_rootLeaf uninit)
  simp only [List.nil_append] at hr
  have hsl : ∀ l2 : List SensorNode,
      insertSlots (fuel + 1) uninit l2 (initialHeap uninit) = some (List.range l2.length) := by
    intro l2
    rw [insertSlots_rootLeaf fuel uninit l2 (initialHeap uninit) [] (initial_rootLeaf uninit),
      List.range_eq_range']
    rfl
  refine ⟨h, hi, hsl l, ?_, rangeQuery_rootLeaf fuel q acc hr, ?_, ?_, ?_⟩
  · intro i hi2
    have := List.mem_range.mp hi2
    show i < MAX_ENTRIES
    omega
  · intro l2 hperm
    obtain ⟨h2, hi2, hr2⟩ :=
      insertAll_rootLeaf fuel uninit l2 (initialHeap uninit) [] (initial_rootLeaf uninit)
    simp only [List.nil_append] at hr2
    refine ⟨h2, _, hi2, ?_, rangeQuery_rootLeaf fuel q acc hr2, ?_, ?_⟩
    · rw [hsl l2, hperm.length_eq]
    · exact List.Perm.append_left _ (hperm.filter _)
    · simp only
      rw [(hperm.filter (inBox q)).length_eq]
  · intro hdom
    rw [rangeQuery_rootLeaf fuel _ _ hr]
    have hall : l.filter (inBox ⟨INT_MIN, INT_MIN, INT_MAX, INT_MAX⟩) = l := by
      rw [List.filter_eq_self]
      intro s hs
      have := hdom s hs
      simp only [inBox, decide_eq_true_eq]
      exact this
    rw [hall]
    simp
  · intro hfull s
    refine ⟨?_, by decide⟩
    rw [insertSlot_rootLeaf fuel s hr, hfull]

set_option maxRecDepth 20000 in
/-- C1 on scenario 2 and at the failing input, scenario 1. Inserting (1,1,50,5,60) and
(2,2,55,6,65) writes the slots 0 and 1, and the query box (0,0,3,3) reports both, count 2.
The insertions of (0,0), (10,10), (20,20) and (30,30) write the slots 0 to 3 of the root
leaf, and a range query reports what was inserted; the insertion of (40,40) then writes
slot 4 of the 4-slot array. -/
theorem inserts_reach_capacity_scenarios :
    (∃ h, insertAll 1 zeroMem scenario2 (initialHeap zeroMem) = some h ∧
      insertSlots 1 zeroMem scenario2 (initialHeap zeroMem) = some [0, 1] ∧
      rangeQuery 1 h 0 ⟨0, 0, 3, 3⟩ ([], 0) = some (scenario2, 2)) ∧
    (∃ h, insertAll 1 zeroMem (scenario1.take 4) (initialHeap zeroMem) = some h ∧
      insertSlots 1 zeroMem (scenario1.take 4) (initialHeap zeroMem) = some [0, 1, 2, 3] ∧
      rangeQuery 1 h 0 ⟨5, 5, 25, 25⟩ ([], 0) =
        some ([⟨10, 10, 0, 0, 0⟩, ⟨20, 20, 0, 0, 0⟩], 2) ∧
      insertSlot 1 h 0 ⟨40, 40, 0, 0, 0⟩ = some 4 ∧ ¬ 4 < CAPACITY) ∧
    insertSlots 1 zeroMem scenario1 (initialHeap zeroMem) = some [0, 1, 2, 3, 4] := by
  obtain ⟨g, g1, g2, _, g4, _⟩ :=
    inserts_reach_capacity 0 zeroMem scenario2 ⟨0, 0, 3, 3⟩ ([], 0) (by decide)
  obtain ⟨h, h1, h2, _, h4, _, _, h7⟩ :=
    inserts_reach_capacity 0 zeroMem (scenario1.take 4) ⟨5, 5, 25, 25⟩ ([], 0) (by decide)
  exact ⟨⟨g, g1, g2, g4⟩, ⟨h, h1, h2, h4, (h7 rfl ⟨40, 40, 0, 0, 0⟩).1, by decide⟩, rfl⟩

/-! ## C2: search after insert -/

/-- C2 fails as stated: with (1,1,50,5,60) stored, inserting r = (1,1,55,6,65) and
searching r's coordinates returns the older record, whose payload differs from r's. -/
theorem search_after_insert_counterexample :
    ∃ h h1, Reachable h ∧
      insertSensorIntoRTree 1 h 0 ⟨1, 1, 55, 6, 65⟩ zeroMem = some h1 ∧
      searchSensorInRTree 1 h1 0 ⟨1, 1, 55, 6, 65⟩ = some (some ⟨1, 1, 50, 5, 60⟩) ∧
      (⟨1, 1, 50, 5, 60⟩ : SensorNode).humidity ≠ (⟨1, 1, 55, 6, 65⟩ : SensorNode).humidity := by
  refine ⟨(store (initialHeap zeroMem) 0 ⟨true, ⟨1, 1, 1, 1⟩, [], [⟨1, 1, 50, 5, 60⟩], 1, none⟩), _,
    Reachable.insert 1 ⟨1, 1, 50, 5, 60⟩ zeroMem (Reachable.init zeroMem) rfl, rfl, rfl, by decide⟩

/-- C2 (amended): in every state reached by insertions that write within the allocated slots
and by deletions, inserting `r` while the root leaf has room (the write index is below
the MAX_ENTRIES slots allocated) returns and leaves such a state, and searching a target
with `r`'s coordinates afterwards returns a record (not NULL) with `r`'s coordinates; it
is `r` itself, payload included, whenever the same search returned NULL before the
insertion. -/
theorem search_after_insert (h : Heap) (hreach : ReachableInBounds h) (r t : SensorNode)
    (htx : t.x = r.x) (hty : t.y = r.y) (fuel : Nat) (uninit : Nat → BoundingBox) (i : Nat)
    (hslot : insertSlot (fuel + 1) h 0 r = some i) (hroom : i < CAPACITY) :
    ∃ h1 s, insertSensorIntoRTree (fuel + 1) h 0 r uninit = some h1 ∧
      ReachableInBounds h1 ∧ h1.length = h.length ∧
      searchSensorInRTree (fuel + 1) h1 0 t = some (some s) ∧
      s.x = r.x ∧ s.y = r.y ∧
      (searchSensorInRTree (fuel + 1) h 0 t = some none → s = r) := by
  obtain ⟨es, hes⟩ := reachable_rootLeaf (reachableInBounds_reachable hreach)
  obtain ⟨h1, hi, hr1⟩ := insert_rootLeaf fuel uninit r hes
  have hin : ReachableInBounds h1 := ReachableInBounds.insert (fuel + 1) r uninit i hreach hslot hroom hi
  have hlen : h1.length = h.length := by
    have hsl := insertSlot_rootLeaf fuel r hes
    obtain ⟨n, hd, hl, _, hb, hes2, _⟩ := hes
    rw [hsl] at hslot
    have hi2 : es.length = i := Option.some.inj hslot
    have hnum : n.num_entries = es.length := by
      rw [← hes2]
      unfold leafEntries
      rw [List.length_take]
      omega
    have e : 0 + 1 + fuel = fuel + 1 := by omega
    obtain ⟨q, n0, n1, _, _, hins, _⟩ :=
      insert_no_overflow h 0 0 fuel r uninit ⟨n, hd, hl, hb⟩ (by
        intro q m hq hm
        rw [e] at hq
        have hdesc : descend (fuel + 1) h 0 r = some 0 := by simp [descend, hd, hl]
        rw [hdesc] at hq
        have hq0 : 0 = q := Option.some.inj hq
        subst hq0
        rw [hd] at hm
        have := Option.some.inj hm
        subst this
        have : i < MAX_ENTRIES := hroom
        omega)
    rw [e, hi] at hins
    rw [Option.some.inj hins, length_store]
  have hs1 := search_rootLeaf fuel t hr1
  have hs0 := search_rootLeaf fuel t hes
  have hpr : sameXY t r = true := by simp [sameXY, htx, hty]
  rw [List.find?_append] at hs1
  cases hf : es.find? (sameXY t) with
  | none =>
    refine ⟨h1, r, hi, hin, hlen, ?_, rfl, rfl, fun _ => rfl⟩
    rw [hs1, hf]
    simp [hpr]
  | some s =>
    have hps : sameXY t s = true := List.find?_some hf
    simp only [sameXY, decide_eq_true_eq] at hps
    refine ⟨h1, s, hi, hin, hlen, ?_, by rw [hps.1, htx], by rw [hps.2, hty], ?_⟩
    · rw [hs1, hf]; rfl
    · intro hnone
      rw [hs0, hf] at hnone
      cases hnone

/-- The amended C2 at the first insertion of scenario 2. -/
theorem search_after_insert_scenario2 :
    insertSlot 1 (initialHeap zeroMem) 0 ⟨1, 1, 50, 5, 60⟩ = some 0 ∧ 0 < CAPACITY ∧
    ∃ h1 s, insertSensorIntoRTree 1 (initialHeap zeroMem) 0 ⟨1, 1, 50, 5, 60⟩ zeroMem = some h1 ∧
      searchSensorInRTree 1 h1 0 ⟨1, 1, 0, 0, 0⟩ = some (some s) ∧
      s.x = 1 ∧ s.y = 1 ∧
      (searchSensorInRTree 1 (initialHeap zeroMem) 0 ⟨1, 1, 0, 0, 0⟩ = some none →
        s = ⟨1, 1, 50, 5, 60⟩) := by
  obtain ⟨h1, s, a, _, _, b, c, d, e⟩ :=
    search_after_insert (initialHeap zeroMem) (ReachableInBounds.init zeroMem)
      ⟨1, 1, 50, 5, 60⟩ ⟨1, 1, 0, 0, 0⟩ rfl rfl 0 zeroMem 0 rfl (by decide)
  exact ⟨rfl, by decide, h1, s, a, b, c, d, e⟩

/-! ## C3: search after delete -/

set_option maxRecDepth 20000 in
/-- C4 at the failing input: `tree2` has exact boxes; inserting (20,20) puts the record
into leaf 2, whose box becomes (10,10,20,20), while the root's box stays (0,0,12,12) and
no longer contains that child's box; the search for the record just inserted returns
NULL and a range query around it reports nothing. -/
theorem insert_leaves_ancestor_box_stale :
    (insertSensorIntoRTree 2 tree2 0 ⟨20, 20, 1, 2, 3⟩ zeroMem).bind
        (fun h1 => (deref h1 2).map (fun n => (n.bbox, leafEntries n))) =
      some (⟨10, 10, 20, 20⟩, [⟨10, 10, 0, 0, 0⟩, ⟨12, 12, 0, 0, 0⟩, ⟨20, 20, 1, 2, 3⟩]) ∧
    (insertSensorIntoRTree 2 tree2 0 ⟨20, 20, 1, 2, 3⟩ zeroMem).bind
        (fun h1 => (deref h1 0).map (fun n => (n.bbox, n.children, n.num_entries))) =
      some (⟨0, 0, 12, 12⟩, [1, 2], 2) ∧
    ¬ (⟨0, 0, 12, 12⟩ : BoundingBox).contains ⟨10, 10, 20, 20⟩ ∧
    (insertSensorIntoRTree 2 tree2 0 ⟨20, 20, 1, 2, 3⟩ zeroMem).bind
        (fun h1 => searchSensorInRTree 2 h1 0 ⟨20, 20, 1, 2, 3⟩) = some none ∧
    (insertSensorIntoRTree 2 tree2 0 ⟨20, 20, 1, 2, 3⟩ zeroMem).bind
        (fun h1 => rangeQuery 2 h1 0 ⟨15, 15, 25, 25⟩ ([], 0)) = some ([], 0) :=
  ⟨rfl, rfl, by unfold BoundingBox.contains; decide, rfl, rfl⟩

/-! ## C5: occupancy -/

/-- C5 fails as stated: in `onlyChild` the single non-root node holds MIN_ENTRIES = 2
records; deleting (0,0) leaves it with one record, fewer than MIN_ENTRIES, because it
has no sibling to borrow from or merge with. -/
theorem occupancy_counterexample :
    (deref onlyChild 1).map (fun n => n.num_entries) = some 2 ∧
    (deref onlyChild 0).map (fun n => (n.is_leaf, n.children, n.num_entries)) =
      some (false, [1], 1) ∧
    (deleteSensorFromRTree 2 onlyChild 0 ⟨0, 0, 0, 0, 0⟩).bind
        (fun res => (deref res.1 1).map (fun n => (n.num_entries, n.parent))) =
      some (1, some 0) ∧
    (deleteSensorFromRTree 2 onlyChild 0 ⟨0, 0, 0, 0, 0⟩).bind
        (fun res => (deref res.1 0).map (fun n => (n.children, n.num_entries))) =
      some ([1], 1) ∧
    ¬ MIN_ENTRIES ≤ 1 :=
  ⟨rfl, rfl, rfl, rfl, by decide⟩

/-- C5 (amended): let every allocated node other than the root `r` hold between
MIN_ENTRIES and MAX_ENTRIES entries. (1) On a well-formed tree of any height, an
`insertSensorIntoRTree` whose descent reaches a leaf with fewer than MAX_ENTRIES
entries returns and every non-root node still holds between MIN_ENTRIES and MAX_ENTRIES
entries. (2) On a leaf root, `deleteSensorFromRTree` returns and the same holds. (3) On a
tree of height 2 (a root whose children are leaves), `deleteSensorFromRTree`, including
the leaf-level borrow or merge, returns and every non-root node holds at most
MAX_ENTRIES and at least MIN_ENTRIES - 1 entries, and at least MIN_ENTRIES when the
root had two or more children. Splits under a parent and trees of height 3 or more
under deletion are not covered. -/
theorem occupancy_preserved (h : Heap) (r : Nat) (hocc : Occupancy h r) :
    (∀ (d fuel : Nat) (s : SensorNode) (uninit : Nat → BoundingBox), WellFormed d h r →
      (∀ q n, descend (d + 1 + fuel) h r s = some q → deref h q = some n →
        n.num_entries < MAX_ENTRIES) →
      ∃ h1, insertSensorIntoRTree (d + 1 + fuel) h r s uninit = some h1 ∧ Occupancy h1 r) ∧
    (∀ (fuel : Nat) (t : SensorNode) (es : List SensorNode), RootLeaf h r es →
      ∃ h1 b, deleteSensorFromRTree (fuel + 1) h r t = some (h1, b) ∧ Occupancy h1 r) ∧
    (∀ (fuel : Nat) (t : SensorNode), Flat h r →
      ∃ h1 b, deleteSensorFromRTree (fuel + 2) h r t = some (h1, b) ∧
        (∀ a n, a ≠ r → deref h1 a = some n →
          MIN_ENTRIES - 1 ≤ n.num_entries ∧ n.num_entries ≤ MAX_ENTRIES) ∧
        ((∀ root, deref h r = some root → 2 ≤ root.num_entries) → Occupancy h1 r)) := by
  refine ⟨?_, ?_, ?_⟩
  · intro d fuel s uninit hw hroom
    obtain ⟨q, n, n1, _, hn, hins, _, hcnt, hmax, _⟩ :=
      insert_no_overflow h r d fuel s uninit hw hroom
    refine ⟨_, hins, ?_⟩
    intro a m har ham
    by_cases haq : a = q
    · subst haq
      rw [deref_store_same _ (deref_lt hn)] at ham
      cases ham
      have := hocc a n har hn
      omega
    · rw [deref_store_ne _ haq] at ham
      exact hocc a m har ham
  · intro fuel t es hroot
    obtain ⟨n, hn, hl, hpar, hb, _⟩ := hroot
    simp only [deleteSensorFromRTree, hn, hl, if_true]
    rcases deleteLeaf_step t hn hl hb with hnf | ⟨n2, _, hpar2, _, _, _, _, hdel⟩
    · exact ⟨h, true, hnf, hocc⟩
    · have hcond : ¬ (n2.num_entries < MIN_ENTRIES ∧ n2.parent ≠ none) := by
        rw [hpar2, hpar]
        simp
      rw [if_neg hcond] at hdel
      refine ⟨_, false, hdel, ?_⟩
      intro a m har ham
      rw [deref_store_ne _ har] at ham
      exact hocc a m har ham
  · intro fuel t hflat
    exact delete_flat h r t fuel hflat hocc

/-- The amended C5 on `tree2`: inserting (20,20), which reaches the leaf with two records,
and deleting (10,10), which makes that leaf borrow from its full sibling, both return
and keep every non-root node between MIN_ENTRIES and MAX_ENTRIES entries; so does
deleting (1,1) from a leaf root holding the records of scenario 2. -/
theorem occupancy_preserved_tree2 :
    Occupancy tree2 0 ∧
    (∃ h1, insertSensorIntoRTree 2 tree2 0 ⟨20, 20, 1, 2, 3⟩ zeroMem = some h1 ∧
      Occupancy h1 0) ∧
    (∃ h1 b, deleteSensorFromRTree 2 tree2 0 ⟨10, 10, 0, 0, 0⟩ = some (h1, b) ∧
      Occupancy h1 0) ∧
    (∃ h1 b, deleteSensorFromRTree 1 [some ⟨true, ⟨1, 1, 2, 2⟩, [], scenario2, 2, none⟩] 0
        ⟨1, 1, 0, 0, 0⟩ = some (h1, b) ∧ Occupancy h1 0) := by
  obtain ⟨hins, _, hdel⟩ := occupancy_preserved tree2 0 occupancy_tree2
  refine ⟨occupancy_tree2, ?_, ?_, ?_⟩
  rotate_left 2
  · have hocc1 : Occupancy [some ⟨true, ⟨1, 1, 2, 2⟩, [], scenario2, 2, none⟩] 0 := by
      intro a n ha hn
      match a, ha with
      | a + 1, _ => simp [deref] at hn
    obtain ⟨_, hleaf, _⟩ := occupancy_preserved _ 0 hocc1
    exact hleaf 0 ⟨1, 1, 0, 0, 0⟩ scenario2 ⟨_, rfl, rfl, rfl, by decide, rfl, fun _ => rfl⟩
  · refine hins 1 0 ⟨20, 20, 1, 2, 3⟩ zeroMem wellFormed_tree2 ?_
    intro q n hq hn
    have hq2 : q = 2 := by
      have : descend 2 tree2 0 ⟨20, 20, 1, 2, 3⟩ = some 2 := rfl
      rw [this] at hq
      exact (Option.some.inj hq).symm
    subst hq2
    have : n = ⟨true, ⟨10, 10, 12, 12⟩, [], [⟨10, 10, 0, 0, 0⟩, ⟨12, 12, 0, 0, 0⟩], 2, some 0⟩ :=
      (Option.some.inj hn).symm
    subst this
    decide
  · obtain ⟨h1, b, hd, _, hoc⟩ := hdel 0 ⟨10, 10, 0, 0, 0⟩ flat_tree2
    refine ⟨h1, b, hd, hoc ?_⟩
    intro root hroot
    have : root = ⟨false, ⟨0, 0, 12, 12⟩, [1, 2], [], 2, none⟩ := (Option.some.inj hroot).symm
    subst this
    decide

set_option maxRecDepth 20000 in
/-- Occupancy after a split under a parent: in `tree2` every non-root node holds between
MIN_ENTRIES and MAX_ENTRIES entries; inserting (1,2) overflows leaf 1 and triggers
`splitNode`, after which leaf 1 is still a child of the root and holds 5 entries, and
one of the new siblings holds a single entry. -/
theorem insert_breaks_occupancy :
    (insertSensorIntoRTree 2 tree2 0 ⟨1, 2, 1, 2, 3⟩ zeroMem).bind
        (fun h1 => (deref h1 0).map (fun n => (n.children, n.num_entries))) =
      some ([1, 2, 3, 4], 4) ∧
    (insertSensorIntoRTree 2 tree2 0 ⟨1, 2, 1, 2, 3⟩ zeroMem).bind
        (fun h1 => (deref h1 1).map (fun n => n.num_entries)) = some 5 ∧
    (insertSensorIntoRTree 2 tree2 0 ⟨1, 2, 1, 2, 3⟩ zeroMem).bind
        (fun h1 => (deref h1 3).map (fun n => n.num_entries)) = some 1 ∧
    ¬ 5 ≤ MAX_ENTRIES ∧ ¬ MIN_ENTRIES ≤ 1 :=
  ⟨rfl, rfl, rfl, by decide, by decide⟩

/-! ## C6: the root after the first split -/

/-- C6 at the failing input, for every content of uninitialised memory: after the five
insertions of scenario 1 through `root`, the node at `root` is still a parentless leaf; it
holds all five records, more than MAX_ENTRIES. -/
theorem root_stays_leaf_after_split (fuel : Nat) (uninit : Nat → BoundingBox) :
    ∃ h n, insertAll (fuel + 1) uninit scenario1 (initialHeap uninit) = some h ∧
      deref h 0 = some n ∧ n.is_leaf = true ∧ n.parent = none ∧
      leafEntries n = scenario1 ∧ n.num_entries = 5 ∧ ¬ n.num_entries ≤ MAX_ENTRIES := by
  obtain ⟨h, hi, n, hd, hl, hpar, hb, hes, _⟩ :=
    insertAll_rootLeaf fuel uninit scenario1 (initialHeap uninit) [] (initial_rootLeaf uninit)
  simp only [List.nil_append] at hes
  have h5 : n.num_entries = 5 := by
    have := congrArg List.length hes
    simp only [leafEntries, List.length_take, scenario1, List.length_cons, List.length_nil] at this
    omega
  exact ⟨h, n, hi, hd, hl, hpar, hes, h5, by rw [h5]; decide⟩

set_option maxRecDepth 20000 in
/-- Scenario 1 with zeroed fresh memory: the split allocates the leaves 1 and 2 and the
internal node 3 with children [1, 2], to which the leaves' parent references point; the
cell at `root` (address 0) is a leaf and refers to none of them. -/
theorem scenario1_new_root_unreachable :
    (insertAll 1 zeroMem scenario1 (initialHeap zeroMem)).bind
        (fun h => (deref h 3).map (fun n => (n.is_leaf, n.children, n.num_entries, n.parent))) =
      some (false, [1, 2], 2, none) ∧
    (insertAll 1 zeroMem scenario1 (initialHeap zeroMem)).bind
        (fun h => (deref h 1).map (fun n => (n.is_leaf, n.num_entries, n.parent))) =
      some (true, 1, some 3) ∧
    (insertAll 1 zeroMem scenario1 (initialHeap zeroMem)).bind
        (fun h => (deref h 2).map (fun n => (n.is_leaf, n.num_entries, n.parent))) =
      some (true, 4, some 3) ∧
    (insertAll 1 zeroMem scenario1 (initialHeap zeroMem)).bind
        (fun h => (deref h 0).map (fun n => (n.is_leaf, n.children, n.num_entries, n.parent))) =
      some (true, [], 5, none) :=
  ⟨rfl, rfl, rfl, rfl⟩

/-! ## C7: the split partitions the entries -/

set_option maxRecDepth 20000 in
/-- C7 fails as stated for more than MAX_ENTRIES + 1 entries: splitting a leaf with six
entries gives a sibling with five entries, more than MAX_ENTRIES, the fifth of them
stored at index 4 of the sibling's array. The run of six insertions from the empty tree
calls `splitNode` on such a leaf, the caller's root (C6), and leaves a sibling with five
entries at address 5. And whatever the distribution, two siblings whose counts sum to
2 * MAX_ENTRIES + 1 cannot both hold at most MAX_ENTRIES entries. -/
theorem splitNode_partition_counterexample :
    sixLeaf.is_leaf = true ∧ 2 ≤ sixLeaf.num_entries ∧
      sixLeaf.num_entries ≤ sixLeaf.sensors.length ∧
      (splitNode [some sixLeaf] 0 zeroMem).bind
        (fun h1 => (deref h1 2).map (fun n2 => n2.num_entries)) = some 5 ∧
      ¬ 5 ≤ MAX_ENTRIES ∧
      (splitNode [some sixLeaf] 0 zeroMem).bind
        (fun h1 => (deref h1 2).bind (fun n2 => sensorSlot n2 4)) = some ⟨4, 4, 0, 0, 0⟩ ∧
      (insertAll 1 zeroMem sixLeaf.sensors (initialHeap zeroMem)).bind
        (fun h6 => (deref h6 5).map (fun n2 => (n2.is_leaf, n2.num_entries))) =
        some (true, 5) ∧
      (∀ a b : Nat, a + b = 2 * MAX_ENTRIES + 1 → ¬ (a ≤ MAX_ENTRIES ∧ b ≤ MAX_ENTRIES)) :=
  ⟨rfl, by decide, by decide, rfl, by decide, rfl, rfl, fun a b hab ⟨ha, hb⟩ => by omega⟩

/-- C7 (amended): for every leaf `n` at address `p` with `num_entries` written entries,
`2 ≤ num_entries ≤ MAX_ENTRIES + 1`, steps 1 to 3 of `splitNode` return two siblings such
that every entry of `n` is in exactly one of them (their entries together are a
permutation of the entries of `n`), their entry counts sum to that of `n`, and each holds
at least 1 and at most MAX_ENTRIES entries (at most `num_entries - 1`), all stored in
slots below the MAX_ENTRIES allocated. For a parentless `n`, `splitNode` returns and
stores the siblings at the two new addresses under a new root with two children; for `n`
with a parent, whenever `splitNode` returns the two new addresses hold the siblings. -/
theorem splitNode_partition (h : Heap) (p : Nat) (n : RTreeNode) (uninit : Nat → BoundingBox)
    (hd : deref h p = some n) (hl : n.is_leaf = true)
    (hb : n.num_entries ≤ n.sensors.length) (h2 : 2 ≤ n.num_entries)
    (hcap : n.num_entries ≤ MAX_ENTRIES + 1) :
    ∃ st, splitEntries n (uninit h.length) (uninit (h.length + 1)) = some st ∧
      st.node1.is_leaf = true ∧ st.node2.is_leaf = true ∧
      (leafEntries st.node1 ++ leafEntries st.node2).Perm (leafEntries n) ∧
      st.node1.num_entries + st.node2.num_entries = n.num_entries ∧
      1 ≤ st.node1.num_entries ∧ st.node1.num_entries ≤ MAX_ENTRIES ∧
      1 ≤ st.node2.num_entries ∧ st.node2.num_entries ≤ MAX_ENTRIES ∧
      st.node1.num_entries ≤ n.num_entries - 1 ∧ st.node2.num_entries ≤ n.num_entries - 1 ∧
      st.node1.sensors.length = st.node1.num_entries ∧
      st.node2.sensors.length = st.node2.num_entries ∧
      st.node1.sensors.length ≤ CAPACITY ∧ st.node2.sensors.length ≤ CAPACITY ∧
      (n.parent = none →
        splitNode h p uninit =
          some (h ++ [some { st.node1 with parent := some (h.length + 2) },
                      some { st.node2 with parent := some (h.length + 2) },
                      some { freshNode false (uninit (h.length + 2)) with
                             children := [h.length, h.length + 1], num_entries := 2 }])) ∧
      (∀ q h1, n.parent = some q → splitNode h p uninit = some h1 →
        deref h1 h.length = some st.node1 ∧ deref h1 (h.length + 1) = some st.node2) := by
  obtain ⟨st, hst, l1, l2, _, _, c1, c2, g1, g2, hperm⟩ :=
    splitEntries_spec n (uninit h.length) (uninit (h.length + 1)) hl hb h2
  have e1 : leafEntries st.node1 = st.node1.sensors := by
    unfold leafEntries; rw [c1]; exact List.take_length _
  have e2 : leafEntries st.node2 = st.node2.sensors := by
    unfold leafEntries; rw [c2]; exact List.take_length _
  have hlen : (leafEntries n).length = n.num_entries := by simp [leafEntries, hb]
  have hsum : st.node1.num_entries + st.node2.num_entries = n.num_entries := by
    have := hperm.length_eq
    rw [List.length_append, hlen] at this
    omega
  have hM : MAX_ENTRIES = 4 := rfl
  have hC : CAPACITY = 4 := rfl
  refine ⟨st, hst, l1, l2, by rw [e1, e2]; exact hperm, hsum, by omega, by omega, by omega,
    by omega, by omega, by omega, c1.symm, c2.symm, by omega, by omega, ?_, ?_⟩
  · intro hpar
    exact splitNode_parentless uninit hd hpar hst
  · intro q h1 hpar hsplit
    unfold splitNode at hsplit
    simp only [hd, hst, hpar] at hsplit
    cases hdq : deref h q with
    | none => simp [hdq] at hsplit
    | some pn =>
      have hq := deref_lt hdq
      simp only [hdq] at hsplit
      cases hp1 : pushChild pn h.length with
      | none => simp [hp1] at hsplit
      | some pn1 =>
        simp only [hp1] at hsplit
        cases hp2 : pushChild pn1 (h.length + 1) with
        | none => simp [hp2] at hsplit
        | some pn2 =>
          simp only [hp2] at hsplit
          have hf := updateBoundingBox_frame hsplit
          have hnew := deref_append_new h st.node1 st.node2
          rw [hf _ (by omega), hf _ (by omega), deref_store_ne _ (by omega),
            deref_store_ne _ (by omega)]
          exact hnew

/-- The amended C7 on the overflowed root leaf of scenario 1. -/
theorem splitNode_partition_scenario1 :
    ∃ st, splitEntries fiveLeaf (zeroMem 1) (zeroMem 2) = some st ∧
      (leafEntries st.node1 ++ leafEntries st.node2).Perm scenario1 ∧
      st.node1.num_entries + st.node2.num_entries = 5 ∧
      1 ≤ st.node1.num_entries ∧ st.node1.num_entries ≤ MAX_ENTRIES ∧
      1 ≤ st.node2.num_entries ∧ st.node2.num_entries ≤ MAX_ENTRIES := by
  obtain ⟨st, a, _, _, b, c, d, e, f, g, _⟩ :=
    splitNode_partition [some fiveLeaf] 0 fiveLeaf zeroMem rfl rfl (by decide) (by decide)
      (by decide)
  exact ⟨st, a, b, c, d, e, f, g⟩

/-! ## C8: the boxes of the siblings -/

set_option maxRecDepth 20000 in
/-- C8 at the failing input: splitting the overflowed leaf of scenario 1 with zeroed fresh
memory. The second sibling is seeded with (40,40) and receives (10,10), (20,20), (30,30);
its box ends as (0,0,30,30), which is not the minimum bounding rectangle (10,10,40,40)
of its entries and does not contain its seed; the union of the two siblings' boxes,
(0,0,30,30), does not contain the original node's box (0,0,40,40). -/
theorem split_boxes_start_uninitialised :
    (splitEntries fiveLeaf (zeroMem 1) (zeroMem 2)).map
        (fun st => (st.node1.bbox, leafEntries st.node1)) =
      some (⟨0, 0, 0, 0⟩, [⟨0, 0, 0, 0, 0⟩]) ∧
    (splitEntries fiveLeaf (zeroMem 1) (zeroMem 2)).map
        (fun st => (st.node2.bbox, leafEntries st.node2)) =
      some (⟨0, 0, 30, 30⟩,
        [⟨40, 40, 0, 0, 0⟩, ⟨10, 10, 0, 0, 0⟩, ⟨20, 20, 0, 0, 0⟩, ⟨30, 30, 0, 0, 0⟩]) ∧
    leafBox [⟨40, 40, 0, 0, 0⟩, ⟨10, 10, 0, 0, 0⟩, ⟨20, 20, 0, 0, 0⟩, ⟨30, 30, 0, 0, 0⟩] =
      ⟨10, 10, 40, 40⟩ ∧
    ¬ (⟨0, 0, 30, 30⟩ : BoundingBox).contains (createBoundingBoxForSensor ⟨40, 40, 0, 0, 0⟩) ∧
    expandToInclude ⟨0, 0, 0, 0⟩ ⟨0, 0, 30, 30⟩ = ⟨0, 0, 30, 30⟩ ∧
    ¬ (⟨0, 0, 30, 30⟩ : BoundingBox).contains fiveLeaf.bbox :=
  ⟨rfl, rfl, rfl, by unfold BoundingBox.contains; decide, rfl,
    by unfold BoundingBox.contains; decide⟩

/-! ## C9: relinking the parent after a split -/

set_option maxRecDepth 20000 in
/-- C9 at the failing input: after the split of leaf 1 of `tree2` the parent's entry list
is [1, 2, 3, 4]: the original node 1 is still in it with all five records, the parent's
count grew by two, the new siblings 3 and 4 have no parent reference, and each record
of node 1 is stored a second time in a sibling. -/
theorem split_keeps_original_in_parent :
    (insertSensorIntoRTree 2 tree2 0 ⟨1, 2, 1, 2, 3⟩ zeroMem).bind
        (fun h1 => (deref h1 0).map (fun n => (n.children, n.num_entries))) =
      some ([1, 2, 3, 4], 2 + 2) ∧
    (insertSensorIntoRTree 2 tree2 0 ⟨1, 2, 1, 2, 3⟩ zeroMem).bind
        (fun h1 => (deref h1 3).map (fun n => (n.parent, leafEntries n))) =
      some (none, [⟨0, 0, 0, 0, 0⟩]) ∧
    (insertSensorIntoRTree 2 tree2 0 ⟨1, 2, 1, 2, 3⟩ zeroMem).bind
        (fun h1 => (deref h1 4).map (fun n => (n.parent, leafEntries n))) =
      some (none, [⟨3, 3, 0, 0, 0⟩, ⟨1, 1, 0, 0, 0⟩, ⟨2, 2, 0, 0, 0⟩, ⟨1, 2, 1, 2, 3⟩]) ∧
    (insertSensorIntoRTree 2 tree2 0 ⟨1, 2, 1, 2, 3⟩ zeroMem).bind
        (fun h1 => (deref h1 1).map leafEntries) =
      some [⟨0, 0, 0, 0, 0⟩, ⟨1, 1, 0, 0, 0⟩, ⟨2, 2, 0, 0, 0⟩, ⟨3, 3, 0, 0, 0⟩,
        ⟨1, 2, 1, 2, 3⟩] ∧
    (insertSensorIntoRTree 2 tree2 0 ⟨1, 2, 1, 2, 3⟩ zeroMem).bind
        (fun h1 => rangeQuery 2 h1 0 ⟨1, 2, 1, 2⟩ ([], 0)) =
      some ([⟨1, 2, 1, 2, 3⟩, ⟨1, 2, 1, 2, 3⟩], 2) :=
  ⟨rfl, rfl, rfl, rfl, rfl⟩

/-! ## C10: deleting an absent coordinate -/

set_option maxRecDepth 20000 in
/-- C10 fails as stated: `tree3` stores no record at (1,1), and (0,0) is found in it.
`deleteSensorFromRTree(root, (1,1))` prints "Sensor not found in the tree." and then
rebalances: the root's children change from [1, 2] to [6, 2], node 2 drops to 2 entries,
and the subtree of node 1 is cut off, so that (0,0) is no longer found. -/
theorem delete_absent_mutates :
    searchSensorInRTree 3 tree3 0 ⟨1, 1, 0, 0, 0⟩ = some none ∧
    rangeQuery 3 tree3 0 ⟨1, 1, 1, 1⟩ ([], 0) = some ([], 0) ∧
    searchSensorInRTree 3 tree3 0 ⟨0, 0, 0, 0, 0⟩ = some (some ⟨0, 0, 0, 0, 0⟩) ∧
    (deleteSensorFromRTree 3 tree3 0 ⟨1, 1, 0, 0, 0⟩).map (fun r => r.2) = some true ∧
    (deleteSensorFromRTree 3 tree3 0 ⟨1, 1, 0, 0, 0⟩).bind
        (fun r => (deref r.1 0).map (fun n => (n.children, n.num_entries, n.bbox))) =
      some ([6, 2], 2, ⟨10, 10, 31, 31⟩) ∧
    (deleteSensorFromRTree 3 tree3 0 ⟨1, 1, 0, 0, 0⟩).bind
        (fun r => (deref r.1 2).map (fun n => n.num_entries)) = some 2 ∧
    (deleteSensorFromRTree 3 tree3 0 ⟨1, 1, 0, 0, 0⟩).bind
        (fun r => searchSensorInRTree 3 r.1 0 ⟨0, 0, 0, 0, 0⟩) = some none :=
  ⟨rfl, rfl, rfl, rfl, rfl, rfl, rfl⟩

/-- C10 (amended): on every well-formed tree of any height in which every node other than
the root holds at least MIN_ENTRIES entries, and for every target whose coordinates no
stored record has, `deleteSensorFromRTree` returns and leaves the whole heap unchanged
(so calling it again does the same); "Sensor not found in the tree." is printed when the
root is a leaf, and nothing is printed when the root is internal and no child's box
overlaps the target. -/
theorem delete_absent_noop (h : Heap) (r d fuel : Nat) (t : SensorNode)
    (hw : WellFormed d h r)
    (hmin : ∀ a n, a ≠ r → deref h a = some n → MIN_ENTRIES ≤ n.num_entries)
    (habs : ∀ a n, deref h a = some n → n.is_leaf = true →
      ∀ s ∈ leafEntries n, sameXY t s = false) :
    ∃ b, deleteSensorFromRTree (d + 1 + fuel) h r t = some (h, b) ∧
      (deleteSensorFromRTree (d + 1 + fuel) h r t).bind
        (fun res => deleteSensorFromRTree (d + 1 + fuel) res.1 r t) = some (h, b) ∧
      (d = 0 → b = true) ∧
      (∀ n, deref h r = some n → n.is_leaf = false →
        overlapLoop h n (createBoundingBoxForSensor t) 0 n.num_entries = some none →
        b = false) := by
  obtain ⟨b, hdel, h0, hpr⟩ := delete_absent_rec h t habs d r hw
    (fun e c n he hwc hn => by
      refine hmin c n ?_ hn
      intro hcr
      subst hcr
      have := wellFormed_unique h e d c hwc hw
      omega) fuel
  refine ⟨b, hdel, ?_, h0, hpr⟩
  rw [hdel]
  exact hdel

/-- The amended C10 on `tree2`: deleting the absent (2,1), which descends into leaf 1,
and the absent (50,50), which no child's box overlaps, both leave the heap unchanged;
only the first prints "Sensor not found in the tree.". -/
theorem delete_absent_noop_tree2 :
    deleteSensorFromRTree 2 tree2 0 ⟨2, 1, 0, 0, 0⟩ = some (tree2, true) ∧
    deleteSensorFromRTree 2 tree2 0 ⟨50, 50, 0, 0, 0⟩ = some (tree2, false) := by
  have habs : ∀ (t : SensorNode), (t = ⟨2, 1, 0, 0, 0⟩ ∨ t = ⟨50, 50, 0, 0, 0⟩) →
      ∀ a n, deref tree2 a = some n → n.is_leaf = true →
        ∀ s ∈ leafEntries n, sameXY t s = false := by
    intro t ht a n hn _
    match a with
    | 0 =>
      have : n = ⟨false, ⟨0, 0, 12, 12⟩, [1, 2], [], 2, none⟩ := (Option.some.inj hn).symm
      subst this
      rcases ht with rfl | rfl <;> decide
    | 1 =>
      have : n = ⟨true, ⟨0, 0, 3, 3⟩, [],
          [⟨0, 0, 0, 0, 0⟩, ⟨1, 1, 0, 0, 0⟩, ⟨2, 2, 0, 0, 0⟩, ⟨3, 3, 0, 0, 0⟩], 4, some 0⟩ :=
        (Option.some.inj hn).symm
      subst this
      rcases ht with rfl | rfl <;> decide
    | 2 =>
      have : n = ⟨true, ⟨10, 10, 12, 12⟩, [], [⟨10, 10, 0, 0, 0⟩, ⟨12, 12, 0, 0, 0⟩], 2, some 0⟩ :=
        (Option.some.inj hn).symm
      subst this
      rcases ht with rfl | rfl <;> decide
    | a + 3 => simp [deref, tree2] at hn
  have hmin : ∀ a n, a ≠ 0 → deref tree2 a = some n → MIN_ENTRIES ≤ n.num_entries :=
    fun a n ha hn => (occupancy_tree2 a n ha hn).1
  obtain ⟨b1, hd1, _, _, _⟩ :=
    delete_absent_noop tree2 0 1 0 ⟨2, 1, 0, 0, 0⟩ wellFormed_tree2 hmin (habs _ (Or.inl rfl))
  obtain ⟨b2, hd2, _, _, hp2⟩ :=
    delete_absent_noop tree2 0 1 0 ⟨50, 50, 0, 0, 0⟩ wellFormed_tree2 hmin (habs _ (Or.inr rfl))
  have hb2 : b2 = false := hp2 _ rfl rfl rfl
  have hb1 : b1 = true := by
    have : (deleteSensorFromRTree 2 tree2 0 ⟨2, 1, 0, 0, 0⟩).map (fun res => res.2) = some true :=
      rfl
    rw [hd1] at this
    exact Option.some.inj this
  subst hb1 hb2
  exact ⟨hd1, hd2⟩

/-! ## Lemmas on trees of any height, the descent and the seed search -/

theorem wellFormed_isTree (h : Heap) : ∀ (d p : Nat), WellFormed d h p → IsTree (d + 1) h p := by
  intro d
  induction d with
  | zero =>
    intro p ⟨n, hd, hl, hb⟩
    exact ⟨n, hd, fun _ => hb, fun hf => by rw [hl] at hf; exact absurd hf (by decide)⟩
  | succ d ih =>
    intro p ⟨n, hd, hl, _, hall⟩
    refine ⟨n, hd, fun ht => by rw [hl] at ht; exact absurd ht (by decide), fun _ i hi => ?_⟩
    obtain ⟨c, hc, hw⟩ := hall i hi
    exact ⟨c, hc, ih c hw⟩

theorem childLoop_spec (n : RTreeNode) (body : Nat → List SensorNode × Nat → Option (List SensorNode × Nat))
    (F : Nat → List SensorNode) (hl : n.is_leaf = false) :
    ∀ (k i : Nat) (acc : List SensorNode × Nat),
      (∀ j, i ≤ j → j < i + k → ∃ c, n.children[j]? = some c ∧
        ∀ a, body c a = some (a.1 ++ F c, a.2 + (F c).length)) →
      childLoop n body i k acc =
        some (acc.1 ++ ((n.children.drop i).take k).flatMap F,
              acc.2 + (((n.children.drop i).take k).flatMap F).length) := by
  intro k
  induction k with
  | zero => intro i acc _; simp [childLoop]
  | succ k ih =>
    intro i acc hall
    obtain ⟨c, hc, hb⟩ := hall i (Nat.le_refl _) (by omega)
    have hlt : i < n.children.length := by
      by_contra hge
      rw [List.getElem?_eq_none (by omega)] at hc
      simp at hc
    have hci : n.children[i] = c := by
      rw [List.getElem?_eq_getElem hlt] at hc
      exact Option.some.inj hc
    rw [take_drop_succ n.children i k hlt, hci]
    simp only [childLoop, childSlot, hl, Bool.false_eq_true, if_false, hc, hb]
    rw [ih (i + 1) _ (fun j h1 h2 => hall j (by omega) (by omega))]
    simp only [List.flatMap_cons, List.append_assoc, List.length_append, Nat.add_assoc]

theorem rangeQuery_reached (h : Heap) (q : BoundingBox) :
    ∀ (f p : Nat), IsTree f h p → ∀ (k : Nat) (acc : List SensorNode × Nat),
      rangeQuery (f + k) h p q acc =
        some (acc.1 ++ (reachedRecords q f h p).filter (inBox q),
              acc.2 + ((reachedRecords q f h p).filter (inBox q)).length) := by
  intro f
  induction f with
  | zero => intro p ht; exact absurd ht (by simp [IsTree])
  | succ f ih =>
    intro p ⟨n, hd, hleaf, hint⟩ k acc
    have e : f + 1 + k = (f + k) + 1 := by omega
    rw [e]
    simp only [rangeQuery, reachedRecords, hd]
    cases hov : overlaps n.bbox q
    · simp
    · cases hl : n.is_leaf
      · simp only [Bool.not_true, Bool.false_eq_true, if_false]
        have := childLoop_spec n (fun c a => rangeQuery (f + k) h c q a)
          (fun c => (reachedRecords q f h c).filter (inBox q)) hl n.num_entries 0 acc
          (fun j _ hj => by
            obtain ⟨c, hc, ht⟩ := hint hl j (by omega)
            exact ⟨c, hc, fun a => ih c ht k a⟩)
        rw [this]
        simp only [List.drop_zero, List.filter_flatMap]
      · simp only [Bool.not_true, Bool.false_eq_true, if_false, if_true]
        have hv := leafVisit_eq n q hl n.num_entries 0 acc (by have := hleaf hl; omega)
        simp only [List.drop_zero] at hv
        rw [hv]
        rfl

theorem covering_records (h : Heap) :
    ∀ (f p : Nat) (n : RTreeNode), Covering f h p → deref h p = some n →
      ∀ s ∈ treeRecords f h p, n.bbox.contains (createBoundingBoxForSensor s) := by
  intro f
  induction f with
  | zero => intro p n _ _ s hs; simp [treeRecords] at hs
  | succ f ih =>
    intro p n hc hd s hs
    obtain ⟨hcl, hci⟩ := hc n hd
    simp only [treeRecords, hd] at hs
    cases hl : n.is_leaf
    · simp only [hl, Bool.false_eq_true, if_false, List.mem_flatMap] at hs
      obtain ⟨c, hcm, hsc⟩ := hs
      obtain ⟨hbox, hcov⟩ := hci hl c hcm
      cases hdc : deref h c with
      | none =>
        cases f with
        | zero => simp [treeRecords] at hsc
        | succ f => simp [treeRecords, hdc] at hsc
      | some cn => exact contains_trans (hbox cn hdc) (ih c cn hcov hdc s hsc)
    · simp only [hl, if_true] at hs
      exact hcl hl s hs

theorem overlaps_of_inBox {b q : BoundingBox} {s : SensorNode}
    (hc : b.contains (createBoundingBoxForSensor s)) (hin : inBox q s = true) :
    overlaps b q = true := by
  unfold BoundingBox.contains createBoundingBoxForSensor at hc
  unfold inBox at hin
  simp only [decide_eq_true_eq] at hin
  unfold overlaps
  simp only [Bool.not_eq_true', Bool.or_eq_false_iff, decide_eq_false_iff_not, gt_iff_lt]
  dsimp only at hc
  omega

theorem reached_filter_covering (h : Heap) (q : BoundingBox) :
    ∀ (f p : Nat), Covering f h p →
      (reachedRecords q f h p).filter (inBox q) = (treeRecords f h p).filter (inBox q) := by
  intro f
  induction f with
  | zero => intro p _; rfl
  | succ f ih =>
    intro p hc
    cases hd : deref h p with
    | none => simp [reachedRecords, treeRecords, hd]
    | some n =>
      have hrec := covering_records h (f + 1) p n hc hd
      obtain ⟨_, hci⟩ := hc n hd
      cases hov : overlaps n.bbox q
      · have hnil : (treeRecords (f + 1) h p).filter (inBox q) = [] := by
          rw [List.filter_eq_nil_iff]
          intro s hs hin
          have := overlaps_of_inBox (hrec s hs) hin
          rw [hov] at this
          exact absurd this (by decide)
        rw [hnil]
        simp [reachedRecords, hd, hov]
      · simp only [reachedRecords, treeRecords, hd, hov, Bool.not_true, Bool.false_eq_true,
          if_false]
        cases hl : n.is_leaf
        · simp only [Bool.false_eq_true, if_false, List.filter_flatMap]
          apply List.flatMap_congr
          intro c hcm
          exact ih c (hci hl c hcm).2
        · simp

theorem searchLoop_spec (n : RTreeNode) (body : Nat → Option (Option SensorNode))
    (F : Nat → List SensorNode) (P : SensorNode → Bool) (hl : n.is_leaf = false) :
    ∀ (k i : Nat),
      (∀ j, i ≤ j → j < i + k → ∃ c, n.children[j]? = some c ∧ body c = some ((F c).find? P)) →
      searchLoop n body i k = some ((((n.children.drop i).take k).flatMap F).find? P) := by
  intro k
  induction k with
  | zero => intro i _; simp [searchLoop]
  | succ k ih =>
    intro i hall
    obtain ⟨c, hc, hb⟩ := hall i (Nat.le_refl _) (by omega)
    have hlt : i < n.children.length := by
      by_contra hge
      rw [List.getElem?_eq_none (by omega)] at hc
      simp at hc
    have hci : n.children[i] = c := by
      rw [List.getElem?_eq_getElem hlt] at hc
      exact Option.some.inj hc
    rw [take_drop_succ n.children i k hlt, hci]
    simp only [searchLoop, childSlot, hl, Bool.false_eq_true, if_false, hc, hb,
      List.flatMap_cons, List.find?_append]
    cases hf : (F c).find? P with
    | some r => simp
    | none =>
      simp only [Option.none_or]
      exact ih (i + 1) (fun j h1 h2 => hall j (by omega) (by omega))

theorem leafSearch_eq {n : RTreeNode} (t : SensorNode) (hl : n.is_leaf = true)
    (hb : n.num_entries ≤ n.sensors.length) :
    (match leafScan n t 0 n.num_entries with
      | none => none
      | some none => some none
      | some (some i) => (sensorSlot n i).map some) = some ((leafEntries n).find? (sameXY t)) := by
  have hs := leafScan_eq n t hl n.num_entries 0 (by omega)
  simp only [List.drop_zero] at hs
  rw [hs]
  rcases findIdx_find (sameXY t) (List.take n.num_entries n.sensors) 0 with
    ⟨h1, h2, _, _⟩ | ⟨j, x, h1, h2, h3, h4, _, h6⟩
  · rw [h1]
    unfold leafEntries
    rw [h2]
  · have hj : n.sensors[j]? = some x := by
      rw [List.getElem?_take] at h2
      split at h2
      · exact h2
      · simp at h2
    rw [h1]
    unfold leafEntries
    simp only [Nat.zero_add, sensorSlot, hl, if_true, hj, h3, Option.map_some']

theorem search_reached (h : Heap) (t : SensorNode) :
    ∀ (f p : Nat), IsTree f h p → ∀ (k : Nat),
      searchSensorInRTree (f + k) h p t =
        some ((reachedRecords (createBoundingBoxForSensor t) f h p).find? (sameXY t)) := by
  intro f
  induction f with
  | zero => intro p ht; exact absurd ht (by simp [IsTree])
  | succ f ih =>
    intro p ⟨n, hd, hleaf, hint⟩ k
    have e : f + 1 + k = (f + k) + 1 := by omega
    rw [e]
    simp only [searchSensorInRTree, reachedRecords, hd]
    cases hov : overlaps n.bbox (createBoundingBoxForSensor t)
    · simp
    · cases hl : n.is_leaf
      · simp only [Bool.not_true, Bool.false_eq_true, if_false]
        have := searchLoop_spec n (fun c => searchSensorInRTree (f + k) h c t)
          (reachedRecords (createBoundingBoxForSensor t) f h) (sameXY t) hl n.num_entries 0
          (fun j _ hj => by
            obtain ⟨c, hc, ht⟩ := hint hl j (by omega)
            exact ⟨c, hc, ih c ht k⟩)
        rw [this]
        simp only [List.drop_zero]
      · simp only [Bool.not_true, Bool.false_eq_true, if_false, if_true]
        exact leafSearch_eq t hl (hleaf hl)

theorem reached_sublist (h : Heap) (q : BoundingBox) :
    ∀ (f p : Nat), (reachedRecords q f h p).Sublist (treeRecords f h p) := by
  intro f
  induction f with
  | zero => intro p; exact List.Sublist.refl _
  | succ f ih =>
    intro p
    simp only [reachedRecords, treeRecords]
    cases hd : deref h p with
    | none => exact List.Sublist.refl _
    | some n =>
      dsimp only
      cases hov : overlaps n.bbox q
      · simp
      · cases hl : n.is_leaf
        · simp only [Bool.not_true, Bool.false_eq_true, if_false]
          generalize n.children.take n.num_entries = l
          induction l with
          | nil => simp
          | cons c l ihl =>
            simp only [List.flatMap_cons]
            exact List.Sublist.append (ih c) ihl
        · simp

theorem isTree_tree2 : IsTree 2 tree2 0 := wellFormed_isTree tree2 1 0 wellFormed_tree2

theorem covering_tree2 : Covering 2 tree2 0 := by
  intro n hn
  have : n = ⟨false, ⟨0, 0, 12, 12⟩, [1, 2], [], 2, none⟩ := (Option.some.inj hn).symm
  subst this
  refine ⟨fun hl => absurd hl (by decide), fun _ c hc => ?_⟩
  have hc2 : c = 1 ∨ c = 2 := by simpa using hc
  rcases hc2 with rfl | rfl
  · refine ⟨fun cn hcn => ?_, fun m hm => ?_⟩
    · have : cn = ⟨true, ⟨0, 0, 3, 3⟩, [],
          [⟨0, 0, 0, 0, 0⟩, ⟨1, 1, 0, 0, 0⟩, ⟨2, 2, 0, 0, 0⟩, ⟨3, 3, 0, 0, 0⟩], 4, some 0⟩ :=
        (Option.some.inj hcn).symm
      subst this
      unfold BoundingBox.contains
      decide
    · have : m = ⟨true, ⟨0, 0, 3, 3⟩, [],
          [⟨0, 0, 0, 0, 0⟩, ⟨1, 1, 0, 0, 0⟩, ⟨2, 2, 0, 0, 0⟩, ⟨3, 3, 0, 0, 0⟩], 4, some 0⟩ :=
        (Option.some.inj hm).symm
      subst this
      refine ⟨fun _ s hs => ?_, fun hl => absurd hl (by decide)⟩
      have hs2 : s = ⟨0, 0, 0, 0, 0⟩ ∨ s = ⟨1, 1, 0, 0, 0⟩ ∨ s = ⟨2, 2, 0, 0, 0⟩ ∨
          s = ⟨3, 3, 0, 0, 0⟩ := by simpa [leafEntries] using hs
      unfold BoundingBox.contains
      rcases hs2 with rfl | rfl | rfl | rfl <;> decide
  · refine ⟨fun cn hcn => ?_, fun m hm => ?_⟩
    · have : cn = ⟨true, ⟨10, 10, 12, 12⟩, [], [⟨10, 10, 0, 0, 0⟩, ⟨12, 12, 0, 0, 0⟩], 2,
          some 0⟩ := (Option.some.inj hcn).symm
      subst this
      unfold BoundingBox.contains
      decide
    · have : m = ⟨true, ⟨10, 10, 12, 12⟩, [], [⟨10, 10, 0, 0, 0⟩, ⟨12, 12, 0, 0, 0⟩], 2,
          some 0⟩ := (Option.some.inj hm).symm
      subst this
      refine ⟨fun _ s hs => ?_, fun hl => absurd hl (by decide)⟩
      have hs2 : s = ⟨10, 10, 0, 0, 0⟩ ∨ s = ⟨12, 12, 0, 0, 0⟩ := by
        simpa [leafEntries] using hs
      unfold BoundingBox.contains
      rcases hs2 with rfl | rfl <;> decide

/-- Inserting a record into a parentless leaf with room and deleting its coordinates again
gives back the entries; only the cell of the leaf is written. The box the leaf had before
plays no part. -/
theorem insert_delete_leaf {h : Heap} {p : Nat} {n : RTreeNode} (r t : SensorNode)
    (fuel : Nat) (uninit : Nat → BoundingBox) (hd : deref h p = some n)
    (hl : n.is_leaf = true) (hpar : n.parent = none) (hb : n.num_entries ≤ n.sensors.length)
    (hlt : n.num_entries < MAX_ENTRIES)
    (habs : ∀ s ∈ leafEntries n, ¬ (s.x = r.x ∧ s.y = r.y))
    (htx : t.x = r.x) (hty : t.y = r.y) :
    ∃ h1 h2, insertSensorIntoRTree (fuel + 1) h p r uninit = some h1 ∧
      deleteSensorFromRTree (fuel + 1) h1 p t = some (h2, false) ∧
      RootLeaf h2 p (leafEntries n) ∧ h2.length = h.length ∧
      (∀ a, a ≠ p → deref h2 a = deref h a) := by
  have hdesc : descend (fuel + 1) h p r = some p := by simp [descend, hd, hl]
  have e : 0 + 1 + fuel = fuel + 1 := by omega
  obtain ⟨q, n0, n1, hq, hn0, hins, hl1, hn1, _, hes1, hbox1, hpar1⟩ :=
    insert_no_overflow h p 0 fuel r uninit ⟨n, hd, hl, hb⟩ (by
      intro q m hq hm
      rw [e, hdesc] at hq
      have hqp : p = q := Option.some.inj hq
      subst hqp
      rw [hd] at hm
      have := Option.some.inj hm
      subst this
      exact hlt)
  rw [e] at hq hins
  rw [hdesc] at hq
  have hqp : p = q := Option.some.inj hq
  subst hqp
  rw [hd] at hn0
  have hnn := Option.some.inj hn0
  subst hnn
  have hp := deref_lt hd
  have hd1 : deref (store h p n1) p = some n1 := deref_store_same _ hp
  have hb1 : n1.num_entries ≤ n1.sensors.length := by
    have hlen := congrArg List.length hes1
    unfold leafEntries at hlen
    rw [List.length_append, List.length_take, List.length_take] at hlen
    simp only [List.length_singleton] at hlen
    omega
  have hr1 : RootLeaf (store h p n1) p (leafEntries n ++ [r]) :=
    ⟨n1, hd1, hl1, hpar1.trans hpar, hb1, hes1, fun _ => by rw [hbox1, hes1]⟩
  have hmatch : sameXY t r = true := by simp [sameXY, htx, hty]
  obtain ⟨h2, b, hdel, hr2, hbt, _⟩ := delete_rootLeaf fuel t hr1
  have hbf : b = false := by
    cases b with
    | false => rfl
    | true =>
      have := hbt.mp rfl r (by simp)
      rw [hmatch] at this
      exact absurd this (by decide)
  subst hbf
  have herase : (leafEntries n ++ [r]).eraseP (sameXY t) = leafEntries n := by
    rw [List.eraseP_append_right]
    · simp [List.eraseP, hmatch]
    · intro s hs
      have := habs s hs
      simp only [sameXY, htx, hty, decide_eq_true_eq]
      exact this
  rw [herase] at hr2
  have hdl : deleteSensorFromRTree (fuel + 1) (store h p n1) p t =
      deleteLeaf (store h p n1) p t := by
    simp only [deleteSensorFromRTree, hd1, hl1, if_true]
  refine ⟨_, h2, hins, hdel, hr2, ?_⟩
  rw [hdl] at hdel
  rcases deleteLeaf_step t hd1 hl1 hb1 with hnf | ⟨n2, _, hpar2, _, _, _, _, hstep⟩
  · rw [hnf] at hdel
    simp at hdel
  · have hno : ¬ (n2.num_entries < MIN_ENTRIES ∧ n2.parent ≠ none) := by
      rw [hpar2, hpar1, hpar]
      simp
    rw [hstep, if_neg hno] at hdel
    have hh2 : store (store h p n1) p n2 = h2 := (Prod.mk.inj (Option.some.inj hdel)).1
    subst hh2
    refine ⟨by rw [length_store, length_store], fun a ha => ?_⟩
    rw [deref_store_ne _ ha, deref_store_ne _ ha]

theorem occupancy_of_check {h : Heap} {root : Nat} (hc : occupancyCheck h root = true) :
    Occupancy h root := by
  intro a n ha hd
  unfold occupancyCheck at hc
  rw [List.all_eq_true] at hc
  have := hc a (List.mem_range.mpr (deref_lt hd))
  rw [hd] at this
  simpa [ha] using this

theorem seedDistance_eq (a b : SensorNode) (hno : manhattan a b ≤ INT_MAX) :
    seedDistance a b = manhattan a b := by
  unfold manhattan INT_MAX at *
  unfold seedDistance absInt wrapInt
  split_ifs at hno ⊢ <;> omega

theorem manhattan_nonneg (a b : SensorNode) : 0 ≤ manhattan a b := by
  unfold manhattan
  split_ifs <;> omega

theorem drop_cons_getElem? {α : Type} {l rest : List α} {j : Nat} {b : α}
    (hd : l.drop j = b :: rest) : l[j]? = some b ∧ l.drop (j + 1) = rest ∧ j < l.length := by
  have hlt : j < l.length := by
    by_contra hge
    rw [List.drop_eq_nil_of_le (by omega)] at hd
    cases hd
  have e := List.drop_eq_getElem_cons hlt
  rw [e] at hd
  have h1 := (List.cons.inj hd).1
  have h2 := (List.cons.inj hd).2
  exact ⟨by rw [List.getElem?_eq_getElem hlt, h1], h2, hlt⟩

theorem seedInner_inv (l : List SensorNode) (a : SensorNode) (i : Nat)
    (ha : l[i]? = some a) :
    ∀ (rest : List SensorNode) (j : Nat) (st : Seeds), l.drop j = rest → i < j →
      SeedInv l st i j → SeedInv l (seedInner a i j rest st) i l.length := by
  intro rest
  induction rest with
  | nil =>
    intro j st hd _ ⟨hA, hB⟩
    have hj : l.length ≤ j := by
      by_contra hlt
      have := List.drop_eq_getElem_cons (show j < l.length by omega)
      rw [this] at hd
      cases hd
    refine ⟨fun i1 j1 h1 h2 hb => hA i1 j1 h1 h2 ?_, hB⟩
    rcases hb with hb | ⟨hb1, hb2⟩
    · exact Or.inl hb
    · exact Or.inr ⟨hb1, by omega⟩
  | cons b rest ih =>
    intro j st hd hij ⟨hA, hB⟩
    obtain ⟨hb, hrest, hjl⟩ := drop_cons_getElem? hd
    have hD : pairDistance l i j = seedDistance a b := by simp [pairDistance, ha, hb]
    have hmax0 : 0 ≤ st.max_distance := by
      rcases hB with ⟨h0, _, _⟩ | ⟨h0, _, _⟩ <;> omega
    simp only [seedInner]
    apply ih (j + 1) _ hrest (by omega)
    by_cases hgt : seedDistance a b > st.max_distance
    · rw [if_pos hgt]
      refine ⟨fun i1 j1 h1 h2 hbf => ?_, Or.inr ⟨by show 0 < seedDistance a b; omega, hD, ?_⟩⟩
      · show pairDistance l i1 j1 ≤ seedDistance a b
        rcases hbf with hbf | ⟨hb1, hb2⟩
        · have := hA i1 j1 h1 h2 (Or.inl hbf)
          omega
        · by_cases hj1 : j1 = j
          · subst hj1
            subst hb1
            omega
          · have := hA i1 j1 h1 h2 (Or.inr ⟨hb1, by omega⟩)
            omega
      · intro i1 j1 h1 h2 hbf
        show pairDistance l i1 j1 < seedDistance a b
        have := hA i1 j1 h1 h2 hbf
        omega
    · rw [if_neg hgt]
      refine ⟨fun i1 j1 h1 h2 hbf => ?_, hB⟩
      rcases hbf with hbf | ⟨hb1, hb2⟩
      · exact hA i1 j1 h1 h2 (Or.inl hbf)
      · by_cases hj1 : j1 = j
        · subst hj1
          subst hb1
          omega
        · exact hA i1 j1 h1 h2 (Or.inr ⟨hb1, by omega⟩)

theorem seedOuter_inv (l : List SensorNode) :
    ∀ (rest : List SensorNode) (i : Nat) (st : Seeds), l.drop i = rest →
      SeedInv l st i (i + 1) →
      SeedInv l (seedOuter i rest st) l.length (l.length + 1) := by
  intro rest
  induction rest with
  | nil =>
    intro i st hd ⟨hA, hB⟩
    have hi : l.length ≤ i := by
      by_contra hlt
      have := List.drop_eq_getElem_cons (show i < l.length by omega)
      rw [this] at hd
      cases hd
    exact ⟨fun i1 j1 h1 h2 _ => hA i1 j1 h1 h2 (Or.inl (by omega)), hB⟩
  | cons a rest ih =>
    intro i st hd hinv
    obtain ⟨ha, hrest, hil⟩ := drop_cons_getElem? hd
    simp only [seedOuter]
    apply ih (i + 1) _ hrest
    obtain ⟨hA, hB⟩ := seedInner_inv l a i ha rest (i + 1) st hrest (by omega) hinv
    refine ⟨fun i1 j1 h1 h2 hbf => hA i1 j1 h1 h2 ?_, hB⟩
    rcases hbf with hbf | ⟨hb1, hb2⟩
    · by_cases hi1 : i1 = i
      · exact Or.inr ⟨hi1, h2⟩
      · exact Or.inl (by omega)
    · omega

theorem pickSeeds_inv (l : List SensorNode) :
    SeedInv l (pickSeeds l) l.length (l.length + 1) := by
  apply seedOuter_inv l l 0 ⟨0, 0, 1⟩ (by simp)
  refine ⟨fun i1 j1 h1 _ hbf => ?_, Or.inl ⟨rfl, rfl, rfl⟩⟩
  rcases hbf with hbf | ⟨hb1, hb2⟩ <;> omega

/-- Seeds of a list whose pairwise distances fit in an `int`: a pair at the largest
Manhattan distance, the first such pair in the order of the loops. -/
theorem pickSeeds_spec (l : List SensorNode) (h2 : 2 ≤ l.length)
    (hno : ∀ a ∈ l, ∀ b ∈ l, manhattan a b ≤ INT_MAX) :
    (pickSeeds l).seed1 < (pickSeeds l).seed2 ∧ (pickSeeds l).seed2 < l.length ∧
    ∃ e1 e2, l[(pickSeeds l).seed1]? = some e1 ∧ l[(pickSeeds l).seed2]? = some e2 ∧
      (∀ i j a b, i < j → l[i]? = some a → l[j]? = some b →
        manhattan a b ≤ manhattan e1 e2 ∧
        (pairBefore i j (pickSeeds l).seed1 (pickSeeds l).seed2 →
          manhattan a b < manhattan e1 e2)) ∧
      ((∀ a ∈ l, ∀ b ∈ l, a.x = b.x ∧ a.y = b.y) →
        (pickSeeds l).seed1 = 0 ∧ (pickSeeds l).seed2 = 1) := by
  obtain ⟨hb1, hb2⟩ := pickSeeds_bound l h2
  obtain ⟨hA, hB⟩ := pickSeeds_inv l
  generalize pickSeeds l = sd at hb1 hb2 hA hB
  have hs1 : sd.seed1 < l.length := by omega
  have hD : ∀ i j a b, l[i]? = some a → l[j]? = some b → pairDistance l i j = manhattan a b := by
    intro i j a b ha hb
    simp only [pairDistance, ha, hb]
    exact seedDistance_eq a b (hno a (List.getElem?_mem ha) b (List.getElem?_mem hb))
  have hjl : ∀ (j : Nat) (b : SensorNode), l[j]? = some b → j < l.length := by
    intro j b hb
    by_contra hge
    rw [List.getElem?_eq_none (by omega)] at hb
    cases hb
  refine ⟨hb1, hb2, l[sd.seed1], l[sd.seed2], List.getElem?_eq_getElem hs1,
    List.getElem?_eq_getElem hb2, ?_, ?_⟩
  · intro i j a b hij ha hb
    have hj := hjl j b hb
    have hDs := hD sd.seed1 sd.seed2 _ _ (List.getElem?_eq_getElem hs1)
      (List.getElem?_eq_getElem hb2)
    have hle := hA i j hij hj (Or.inl (by omega))
    rw [hD i j a b ha hb] at hle
    rcases hB with ⟨h0, h1, h2⟩ | ⟨h0, h1, h3⟩
    · have hn := manhattan_nonneg l[sd.seed1] l[sd.seed2]
      have hle2 := hA sd.seed1 sd.seed2 hb1 hb2 (Or.inl (by omega))
      rw [hDs] at hle2
      refine ⟨by omega, fun hbf => ?_⟩
      rcases hbf with hbf | ⟨hbf1, hbf2⟩ <;> omega
    · rw [hDs] at h1
      refine ⟨by omega, fun hbf => ?_⟩
      have := h3 i j hij hj hbf
      rw [hD i j a b ha hb] at this
      omega
  · intro hall
    rcases hB with ⟨_, h1, h2⟩ | ⟨h0, h1, _⟩
    · exact ⟨h1, h2⟩
    · have hDs := hD sd.seed1 sd.seed2 _ _ (List.getElem?_eq_getElem hs1)
        (List.getElem?_eq_getElem hb2)
      have hxy := hall l[sd.seed1] (List.getElem_mem _) l[sd.seed2] (List.getElem_mem _)
      have hz : manhattan l[sd.seed1] l[sd.seed2] = 0 := by
        unfold manhattan
        rw [hxy.1, hxy.2]
        simp
      omega

theorem wrapInt_le (z : Int) : wrapInt z ≤ INT_MAX := by
  unfold wrapInt INT_MAX
  omega

theorem chooseLoop_spec (h : Heap) (n : RTreeNode) (sb : BoundingBox) (c0 : Nat)
    (hl : n.is_leaf = false) :
    ∀ (k i : Nat) (st : Nat × Int),
      (∀ j, i ≤ j → j < i + k → ∃ c cn, n.children[j]? = some c ∧ deref h c = some cn) →
      ChooseInv h n sb c0 i st →
      ∃ st1, chooseLoop h n sb i k st = some st1 ∧ ChooseInv h n sb c0 (i + k) st1 := by
  intro k
  induction k with
  | zero => intro i st _ hinv; exact ⟨st, rfl, hinv⟩
  | succ k ih =>
    intro i st hall ⟨hA, hB⟩
    obtain ⟨c, cn, hc, hcn⟩ := hall i (Nat.le_refl _) (by omega)
    have hE : slotEnlargement h n sb i = enlargement cn.bbox sb := by
      simp [slotEnlargement, childSlot, hl, hc, hcn]
    simp only [chooseLoop, childSlot, hl, Bool.false_eq_true, if_false, hc, hcn]
    have e : i + (k + 1) = i + 1 + k := by omega
    rw [e]
    apply ih (i + 1) _ (fun j h1 h2 => hall j (by omega) (by omega))
    by_cases hlt : enlargement cn.bbox sb < st.2
    · rw [if_pos hlt]
      refine ⟨fun j hj => ?_, Or.inr ⟨i, by omega, hc, hE, fun j hj => ?_⟩⟩
      · show enlargement cn.bbox sb ≤ slotEnlargement h n sb j
        by_cases hji : j = i
        · rw [hji, hE]
        · have := hA j (by omega)
          omega
      · show enlargement cn.bbox sb < slotEnlargement h n sb j
        have := hA j hj
        omega
    · rw [if_neg hlt]
      refine ⟨fun j hj => ?_, ?_⟩
      · by_cases hji : j = i
        · rw [hji, hE]
          omega
        · exact hA j (by omega)
      · rcases hB with hB | ⟨m, hm, hB⟩
        · exact Or.inl hB
        · exact Or.inr ⟨m, by omega, hB⟩

theorem slotEnlargement_le (h : Heap) (n : RTreeNode) (sb : BoundingBox) (j : Nat) :
    slotEnlargement h n sb j ≤ INT_MAX := by
  unfold slotEnlargement
  split
  · exact wrapInt_le _
  · unfold INT_MAX
    omega

/-- One step of the descent at an internal node with at least one child: the loop ends on
the child in the first slot of least enlargement, and the descent goes on from there. -/
theorem descend_step (h : Heap) (s : SensorNode) {p : Nat} {n : RTreeNode}
    (hd : deref h p = some n) (hl : n.is_leaf = false) (h1 : 1 ≤ n.num_entries)
    (hall : ∀ j, j < n.num_entries → ∃ c cn, n.children[j]? = some c ∧ deref h c = some cn) :
    ∃ i c, i < n.num_entries ∧ n.children[i]? = some c ∧
      (∀ j, j < n.num_entries →
        slotEnlargement h n (createBoundingBoxForSensor s) i ≤
          slotEnlargement h n (createBoundingBoxForSensor s) j ∧
        (j < i → slotEnlargement h n (createBoundingBoxForSensor s) i <
          slotEnlargement h n (createBoundingBoxForSensor s) j)) ∧
      ∀ k, descend (k + 1) h p s = descend k h c s := by
  obtain ⟨c0, cn0, hc0, hcn0⟩ := hall 0 (by omega)
  obtain ⟨st1, hst, hA, hB⟩ := chooseLoop_spec h n (createBoundingBoxForSensor s) c0 hl
    n.num_entries 0 (c0, INT_MAX) (fun j _ hj => hall j (by omega))
    ⟨fun j hj => by omega, Or.inl ⟨rfl, rfl⟩⟩
  rw [Nat.zero_add] at hA hB
  have hstep : ∀ k, descend (k + 1) h p s = descend k h st1.1 s := by
    intro k
    simp only [descend, hd, hl, Bool.false_eq_true, if_false, childSlot, hc0, hst]
  rcases hB with ⟨hmax, hfst⟩ | ⟨m, hm, hcm, hem, hlow⟩
  · refine ⟨0, c0, by omega, hc0, fun j hj => ⟨?_, fun hj0 => by omega⟩, ?_⟩
    · have h2 := hA j hj
      have h3 := slotEnlargement_le h n (createBoundingBoxForSensor s) 0
      omega
    · rw [← hfst]
      exact hstep
  · refine ⟨m, st1.1, hm, hcm, fun j hj => ⟨?_, fun hjm => ?_⟩, hstep⟩
    · have := hA j hj
      omega
    · have := hlow j hjm
      omega

theorem wrapInt_of_fits {z : Int} (hz : fitsInt z) : wrapInt z = z := by
  unfold fitsInt INT_MIN INT_MAX at hz
  unfold wrapInt
  omega

theorem area_eq_exact {b : BoundingBox} (hb : AreaFits b) : area b = exactArea b := by
  obtain ⟨h1, h2, h3⟩ := hb
  unfold area
  rw [wrapInt_of_fits h1, wrapInt_of_fits h2]
  exact wrapInt_of_fits h3

theorem enlargement_eq_exact {b e : BoundingBox} (hf : EnlargementFits b e) :
    enlargement b e = exactEnlargement b e := by
  obtain ⟨h1, h2, h3⟩ := hf
  unfold enlargement
  rw [area_eq_exact h1, area_eq_exact h2]
  exact wrapInt_of_fits h3

/-! ## C11: range query on a tree whose boxes cover their entries -/

/-- C11: on a tree of any height in which the box of every node contains the boxes of all
of its entries, `rangeQuery` returns; the visitor is invoked on exactly the stored records
whose point lies within or on the boundary of the query box, once for each occurrence in
the pre-order sequence of the stored records, and the counter grows by the number of
invocations. A subtree whose box does not overlap the query box is left without any
invocation, and it holds no record within the query box. -/
theorem rangeQuery_covering (h : Heap) (f p k : Nat) (q : BoundingBox)
    (acc : List SensorNode × Nat) (ht : IsTree f h p) (hc : Covering f h p) :
    rangeQuery (f + k) h p q acc =
        some (acc.1 ++ (treeRecords f h p).filter (inBox q),
              acc.2 + ((treeRecords f h p).filter (inBox q)).length) ∧
    (∀ n, deref h p = some n → overlaps n.bbox q = false →
      rangeQuery (f + k) h p q acc = some acc ∧ (treeRecords f h p).filter (inBox q) = []) := by
  have hmain := rangeQuery_reached h q f p ht k acc
  rw [reached_filter_covering h q f p hc] at hmain
  refine ⟨hmain, fun n hd hov => ?_⟩
  have hnil : (treeRecords f h p).filter (inBox q) = [] := by
    rw [List.filter_eq_nil_iff]
    intro s hs hin
    have := overlaps_of_inBox (covering_records h f p n hc hd s hs) hin
    rw [hov] at this
    exact absurd this (by decide)
  refine ⟨?_, hnil⟩
  rw [hmain, hnil]
  simp

/-- C11 on `tree2`: the query box (2,2,11,11) reports (2,2), (3,3) and (10,10), count 3;
the query box (20,20,30,30), which the root's box does not overlap, reports nothing. -/
theorem rangeQuery_covering_tree2 :
    rangeQuery 2 tree2 0 ⟨2, 2, 11, 11⟩ ([], 0) =
      some ([⟨2, 2, 0, 0, 0⟩, ⟨3, 3, 0, 0, 0⟩, ⟨10, 10, 0, 0, 0⟩], 3) ∧
    rangeQuery 2 tree2 0 ⟨20, 20, 30, 30⟩ ([], 0) = some ([], 0) ∧
    (treeRecords 2 tree2 0).filter (inBox ⟨20, 20, 30, 30⟩) = [] := by
  have h1 := (rangeQuery_covering tree2 2 0 0 ⟨2, 2, 11, 11⟩ ([], 0) isTree_tree2
    covering_tree2).1
  have h2 := (rangeQuery_covering tree2 2 0 0 ⟨20, 20, 30, 30⟩ ([], 0) isTree_tree2
    covering_tree2).2 _ rfl rfl
  exact ⟨h1, h2.1, h2.2⟩

/-! ## C12: delete undoes insert on a root leaf -/

/-- C12: on a parentless leaf holding fewer than MAX_ENTRIES records, none of them at r's
coordinates, inserting r and then deleting a target with r's coordinates both return and
give back the same entries in the same order and the same entry count; no other node is
touched. From the empty tree, inserting one point and deleting it leaves a single leaf
root with zero entries, on which every search returns NULL. -/
theorem delete_undoes_insert (h : Heap) (p : Nat) (n : RTreeNode) (r t : SensorNode)
    (fuel : Nat) (uninit : Nat → BoundingBox) (hd : deref h p = some n)
    (hl : n.is_leaf = true) (hpar : n.parent = none) (hb : n.num_entries ≤ n.sensors.length)
    (hlt : n.num_entries < MAX_ENTRIES)
    (habs : ∀ s ∈ leafEntries n, ¬ (s.x = r.x ∧ s.y = r.y))
    (htx : t.x = r.x) (hty : t.y = r.y) :
    (∃ h1 h2 n2, insertSensorIntoRTree (fuel + 1) h p r uninit = some h1 ∧
      deleteSensorFromRTree (fuel + 1) h1 p t = some (h2, false) ∧
      deref h2 p = some n2 ∧ n2.is_leaf = true ∧ n2.parent = none ∧
      leafEntries n2 = leafEntries n ∧ n2.num_entries = n.num_entries ∧
      h2.length = h.length ∧ (∀ a, a ≠ p → deref h2 a = deref h a)) ∧
    (∃ h1 h2, insertSensorIntoRTree (fuel + 1) (initialHeap uninit) 0 r uninit = some h1 ∧
      deleteSensorFromRTree (fuel + 1) h1 0 t = some (h2, false) ∧
      h2.length = 1 ∧ RootLeaf h2 0 [] ∧
      (∀ n2, deref h2 0 = some n2 → n2.num_entries = 0) ∧
      ∀ (k : Nat) (target : SensorNode), searchSensorInRTree (k + 1) h2 0 target = some none) := by
  constructor
  · obtain ⟨h1, h2, hins, hdel, hr2, hlen, hfr⟩ :=
      insert_delete_leaf r t fuel uninit hd hl hpar hb hlt habs htx hty
    obtain ⟨n2, hn2, hl2, hp2, hb2, hes2, _⟩ := hr2
    refine ⟨h1, h2, n2, hins, hdel, hn2, hl2, hp2, hes2, ?_, hlen, hfr⟩
    have e1 := congrArg List.length hes2
    unfold leafEntries at e1
    rw [List.length_take, List.length_take] at e1
    omega
  · obtain ⟨h1, h2, hins, hdel, hr2, hlen, _⟩ :=
      insert_delete_leaf (h := initialHeap uninit) (p := 0) r t fuel uninit rfl rfl rfl
        (Nat.zero_le _) (show 0 < MAX_ENTRIES by decide)
        (fun s hs => by simp [leafEntries, freshNode] at hs)
        htx hty
    have hr3 : RootLeaf h2 0 [] := hr2
    refine ⟨h1, h2, hins, hdel, hlen, hr3, fun n2 hn2 => ?_, fun k target => ?_⟩
    · obtain ⟨m, hm, _, _, hbm, hesm, _⟩ := hr3
      rw [hn2] at hm
      have := Option.some.inj hm
      subst this
      have e1 : (leafEntries n2).length = 0 := by rw [hesm]; rfl
      unfold leafEntries at e1
      rw [List.length_take] at e1
      omega
    · rw [search_rootLeaf k target hr3]
      rfl

set_option maxRecDepth 20000 in
/-- C12 on scenario 3 and on a leaf with a stale box: inserting (5,5,1,2,3) into the empty
tree and deleting (5,5) leaves the single leaf root with zero entries; inserting
(3,3,9,9,9) into the leaf that holds (1,1) and (2,2) with the box (0,0,9,9) and deleting
(3,3) gives back the two entries in their order. -/
theorem delete_undoes_insert_scenario3 :
    ((insertSensorIntoRTree 1 (initialHeap zeroMem) 0 ⟨5, 5, 1, 2, 3⟩ zeroMem).bind
        (fun h1 => deleteSensorFromRTree 1 h1 0 ⟨5, 5, 0, 0, 0⟩)).map
        (fun r => (r.1.length, (deref r.1 0).map (fun n => (n.is_leaf, n.num_entries)), r.2)) =
      some (1, some (true, 0), false) ∧
    (∃ h1 h2 n2, insertSensorIntoRTree 1
        [some ⟨true, ⟨0, 0, 9, 9⟩, [], scenario2, 2, none⟩] 0 ⟨3, 3, 9, 9, 9⟩ zeroMem = some h1 ∧
      deleteSensorFromRTree 1 h1 0 ⟨3, 3, 0, 0, 0⟩ = some (h2, false) ∧
      deref h2 0 = some n2 ∧ leafEntries n2 = scenario2 ∧ n2.num_entries = 2) := by
  refine ⟨rfl, ?_⟩
  obtain ⟨⟨h1, h2, n2, hins, hdel, hn2, _, _, he, hc, _, _⟩, _⟩ :=
    delete_undoes_insert [some ⟨true, ⟨0, 0, 9, 9⟩, [], scenario2, 2, none⟩] 0
      ⟨true, ⟨0, 0, 9, 9⟩, [], scenario2, 2, none⟩
      ⟨3, 3, 9, 9, 9⟩ ⟨3, 3, 0, 0, 0⟩ 0 zeroMem rfl rfl rfl (by decide) (by decide) (by decide)
      rfl rfl
  exact ⟨h1, h2, n2, hins, hdel, hn2, he, hc⟩

/-! ## C13: the overlap test -/

/-- C13: `overlaps a b` holds exactly when `a.min_x <= b.max_x`, `b.min_x <= a.max_x`,
`a.min_y <= b.max_y` and `b.min_y <= a.max_y`; it is symmetric; well-formed boxes that
share only an edge or only a corner overlap; and for well-formed boxes it holds exactly
when some integer point lies in both boxes. -/
theorem overlaps_spec (a b : BoundingBox) :
    (overlaps a b = true ↔
      a.min_x ≤ b.max_x ∧ b.min_x ≤ a.max_x ∧ a.min_y ≤ b.max_y ∧ b.min_y ≤ a.max_y) ∧
    overlaps a b = overlaps b a ∧
    (a.min_x ≤ a.max_x ∧ a.min_y ≤ a.max_y ∧ b.min_x ≤ b.max_x ∧ b.min_y ≤ b.max_y →
      (a.max_x = b.min_x ∧ a.min_y ≤ b.max_y ∧ b.min_y ≤ a.max_y → overlaps a b = true) ∧
      (a.max_y = b.min_y ∧ a.min_x ≤ b.max_x ∧ b.min_x ≤ a.max_x → overlaps a b = true) ∧
      (a.max_x = b.min_x ∧ a.max_y = b.min_y → overlaps a b = true) ∧
      (a.max_x = b.min_x ∧ a.min_y = b.max_y → overlaps a b = true) ∧
      (overlaps a b = true ↔
        ∃ x y : Int, (a.min_x ≤ x ∧ x ≤ a.max_x ∧ a.min_y ≤ y ∧ y ≤ a.max_y) ∧
          (b.min_x ≤ x ∧ x ≤ b.max_x ∧ b.min_y ≤ y ∧ y ≤ b.max_y))) := by
  have key : ∀ c d : BoundingBox, overlaps c d = true ↔
      c.min_x ≤ d.max_x ∧ d.min_x ≤ c.max_x ∧ c.min_y ≤ d.max_y ∧ d.min_y ≤ c.max_y := by
    intro c d
    unfold overlaps
    simp only [Bool.not_eq_true', Bool.or_eq_false_iff, decide_eq_false_iff_not, gt_iff_lt,
      not_lt]
    constructor
    · rintro ⟨⟨⟨h1, h2⟩, h3⟩, h4⟩
      exact ⟨h1, h2, h3, h4⟩
    · rintro ⟨h1, h2, h3, h4⟩
      exact ⟨⟨⟨h1, h2⟩, h3⟩, h4⟩
  refine ⟨key a b, ?_, ?_⟩
  · rw [Bool.eq_iff_iff, key a b, key b a]
    constructor
    · rintro ⟨h1, h2, h3, h4⟩
      exact ⟨h2, h1, h4, h3⟩
    · rintro ⟨h1, h2, h3, h4⟩
      exact ⟨h2, h1, h4, h3⟩
  · rintro ⟨wa1, wa2, wb1, wb2⟩
    refine ⟨?_, ?_, ?_, ?_, ?_⟩
    · rintro ⟨h1, h2, h3⟩
      rw [key]
      omega
    · rintro ⟨h1, h2, h3⟩
      rw [key]
      omega
    · rintro ⟨h1, h2⟩
      rw [key]
      omega
    · rintro ⟨h1, h2⟩
      rw [key]
      omega
    · rw [key]
      constructor
      · rintro ⟨h1, h2, h3, h4⟩
        refine ⟨max a.min_x b.min_x, max a.min_y b.min_y, ?_, ?_⟩
        · refine ⟨le_max_left _ _, max_le wa1 h2, le_max_left _ _, max_le wa2 h4⟩
        · refine ⟨le_max_right _ _, max_le h1 wb1, le_max_right _ _, max_le h3 wb2⟩
      · rintro ⟨x, y, ⟨h1, h2, h3, h4⟩, ⟨h5, h6, h7, h8⟩⟩
        omega

/-! ## C14: range query after an insertion that leaves a box stale -/

set_option maxRecDepth 20000 in
/-- C14 at the failing input: `tree2` has exact boxes (recomputing any box changes
nothing); inserting r = (20,20,1,2,3) triggers no split (no node is allocated) and stores
r in the tree; the query box (15,15,25,25) contains r's point, yet the range query on
the root reports nothing, and so does the degenerate query box at r's point: the
root's stale box (0,0,12,12) prunes the whole tree. A query box that also overlaps
the stale box, (0,0,25,25), does report r. -/
theorem stale_box_hides_inserted_record :
    (∀ a, a < 3 → updateBoundingBox tree2 a = some tree2) ∧
    (insertSensorIntoRTree 2 tree2 0 ⟨20, 20, 1, 2, 3⟩ zeroMem).map
        (fun h1 => (h1.length, treeRecords 2 h1 0)) =
      some (3, [⟨0, 0, 0, 0, 0⟩, ⟨1, 1, 0, 0, 0⟩, ⟨2, 2, 0, 0, 0⟩, ⟨3, 3, 0, 0, 0⟩,
        ⟨10, 10, 0, 0, 0⟩, ⟨12, 12, 0, 0, 0⟩, ⟨20, 20, 1, 2, 3⟩]) ∧
    inBox ⟨15, 15, 25, 25⟩ ⟨20, 20, 1, 2, 3⟩ = true ∧
    (insertSensorIntoRTree 2 tree2 0 ⟨20, 20, 1, 2, 3⟩ zeroMem).bind
        (fun h1 => rangeQuery 2 h1 0 ⟨15, 15, 25, 25⟩ ([], 0)) = some ([], 0) ∧
    (insertSensorIntoRTree 2 tree2 0 ⟨20, 20, 1, 2, 3⟩ zeroMem).bind
        (fun h1 => rangeQuery 2 h1 0 ⟨20, 20, 20, 20⟩ ([], 0)) = some ([], 0) ∧
    ((insertSensorIntoRTree 2 tree2 0 ⟨20, 20, 1, 2, 3⟩ zeroMem).bind
        (fun h1 => rangeQuery 2 h1 0 ⟨0, 0, 25, 25⟩ ([], 0))).map
        (fun r => (r.1.contains ⟨20, 20, 1, 2, 3⟩, r.2)) = some (true, 7) := by
  refine ⟨?_, rfl, rfl, rfl, rfl, rfl⟩
  intro a ha
  interval_cases a <;> rfl

/-! ## C15: the records a deletion destroys -/

set_option maxRecDepth 20000 in
/-- C15 at the failing input: `fullTree3` has exact boxes and occupancy within bounds and
stores ten records. Deleting (0,0) merges leaf 3 with leaf 4, which leaves the internal
node 1 with a single child; the borrow at the internal level then overwrites the root's
slot of node 1 with leaf 7 taken from node 2. The tree reachable from the root holds six
records afterwards: besides (0,0), the records (1,1), (10,10) and (11,11), which leaf 3
still holds, are no longer in it. -/
theorem internal_borrow_loses_records :
    (∀ a, a < 8 → updateBoundingBox fullTree3 a = some fullTree3) ∧
    Occupancy fullTree3 0 ∧
    treeRecords 3 fullTree3 0 =
      [⟨0, 0, 0, 0, 0⟩, ⟨1, 1, 0, 0, 0⟩, ⟨10, 10, 0, 0, 0⟩, ⟨11, 11, 0, 0, 0⟩,
       ⟨20, 20, 0, 0, 0⟩, ⟨21, 21, 0, 0, 0⟩, ⟨30, 30, 0, 0, 0⟩, ⟨31, 31, 0, 0, 0⟩,
       ⟨40, 40, 0, 0, 0⟩, ⟨41, 41, 0, 0, 0⟩] ∧
    (deleteSensorFromRTree 3 fullTree3 0 ⟨0, 0, 0, 0, 0⟩).map
        (fun r => treeRecords 3 r.1 0) =
      some [⟨40, 40, 0, 0, 0⟩, ⟨41, 41, 0, 0, 0⟩, ⟨20, 20, 0, 0, 0⟩, ⟨21, 21, 0, 0, 0⟩,
        ⟨30, 30, 0, 0, 0⟩, ⟨31, 31, 0, 0, 0⟩] ∧
    (deleteSensorFromRTree 3 fullTree3 0 ⟨0, 0, 0, 0, 0⟩).bind
        (fun r => (deref r.1 0).map (fun n => (n.children.take n.num_entries))) =
      some [7, 2] ∧
    (deleteSensorFromRTree 3 fullTree3 0 ⟨0, 0, 0, 0, 0⟩).bind
        (fun r => (deref r.1 3).map leafEntries) =
      some [⟨1, 1, 0, 0, 0⟩, ⟨10, 10, 0, 0, 0⟩, ⟨11, 11, 0, 0, 0⟩] := by
  refine ⟨?_, occupancy_of_check rfl, rfl, rfl, rfl, rfl⟩
  intro a ha
  interval_cases a <;> rfl

/-! ## C16: deletion enters only the first overlapping child -/

set_option maxRecDepth 20000 in
/-- C16: there is a tree with exact boxes and occupancy within bounds (`overlapTree`) that
stores a record at p = (5,5), found by the search, for which `deleteSensorFromRTree`
removes nothing: it returns the heap unchanged after "Sensor not found in the tree.".
At the root the loop stops at child 0, the first whose box overlaps p; the box of
child 1 overlaps p too, and that child holds the record. -/
theorem delete_misses_later_overlapping_child :
    ∃ (h : Heap) (r : SensorNode),
      (∀ a, a < h.length → updateBoundingBox h a = some h) ∧
      Occupancy h 0 ∧ IsTree 2 h 0 ∧
      r ∈ treeRecords 2 h 0 ∧
      searchSensorInRTree 2 h 0 ⟨r.x, r.y, 0, 0, 0⟩ = some (some r) ∧
      deleteSensorFromRTree 2 h 0 ⟨r.x, r.y, 0, 0, 0⟩ = some (h, true) ∧
      (∃ root c1 n1, deref h 0 = some root ∧
        overlapLoop h root (createBoundingBoxForSensor r) 0 root.num_entries = some (some 0) ∧
        childSlot root 1 = some c1 ∧ deref h c1 = some n1 ∧
        overlaps n1.bbox (createBoundingBoxForSensor r) = true ∧ r ∈ leafEntries n1) := by
  refine ⟨overlapTree, ⟨5, 5, 7, 8, 9⟩, ?_, occupancy_of_check rfl, ?_, by decide, rfl, rfl,
    ⟨_, 2, _, rfl, rfl, rfl, rfl, rfl, by decide⟩⟩
  · intro a ha
    match a, ha with
    | 0, _ => rfl
    | 1, _ => rfl
    | 2, _ => rfl
  · refine ⟨_, rfl, fun hl => absurd hl (by decide), fun _ i hi => ?_⟩
    match i, hi with
    | 0, _ => exact ⟨1, rfl, _, rfl, fun _ => by decide, fun hl => absurd hl (by decide)⟩
    | 1, _ => exact ⟨2, rfl, _, rfl, fun _ => by decide, fun hl => absurd hl (by decide)⟩

/-! ## C17: the descent of an insertion -/

set_option maxRecDepth 20000 in
/-- C17 fails as stated: `ovTree` has exact boxes, and for the new point (46341,46341) the
enlargement of leaf 1 is 2147488281 and that of leaf 2 is 46341; `int` arithmetic turns
the first into -2147479015, and the descent moves to leaf 1, the child of greater
enlargement. -/
theorem insert_descends_overflow_counterexample :
    (∀ a, a < 3 → updateBoundingBox ovTree a = some ovTree) ∧
    (deref ovTree 0).map (fun n =>
        (slotExactEnlargement ovTree n ⟨46341, 46341, 46341, 46341⟩ 0,
         slotExactEnlargement ovTree n ⟨46341, 46341, 46341, 46341⟩ 1,
         slotEnlargement ovTree n ⟨46341, 46341, 46341, 46341⟩ 0,
         slotEnlargement ovTree n ⟨46341, 46341, 46341, 46341⟩ 1)) =
      some (2147488281, 46341, -2147479015, 46341) ∧
    descend 2 ovTree 0 ⟨46341, 46341, 0, 0, 0⟩ = some 1 ∧
    (deref ovTree 0).bind (fun n => childSlot n 0) = some 1 := by
  refine ⟨?_, by decide, by decide, rfl⟩
  intro a ha
  interval_cases a <;> rfl

/-- C17 (amended): at an internal node with at least one child whose children are allocated
and whose enlargements `area(union(child box, new point)) - area(child box)` are computed
without `int` overflow, the descent of `insertSensorIntoRTree` moves to the child in the
first slot whose enlargement is the least among the slots of the node. On every
well-formed tree the descent reaches a leaf; when that leaf holds fewer than
MAX_ENTRIES records, the insertion returns, writes only that leaf, at an index below
the MAX_ENTRIES slots allocated, and the leaf holds the new record as its last entry
afterwards, one entry more than before. -/
theorem insert_descends_least_enlargement (h : Heap) (r d fuel : Nat) (s : SensorNode)
    (uninit : Nat → BoundingBox) (hw : WellFormed d h r) :
    (∀ p n, deref h p = some n → n.is_leaf = false → 1 ≤ n.num_entries →
      (∀ j, j < n.num_entries → ∃ c cn, n.children[j]? = some c ∧ deref h c = some cn ∧
        EnlargementFits cn.bbox (createBoundingBoxForSensor s)) →
      ∃ i c, i < n.num_entries ∧ childSlot n i = some c ∧
        (∀ j, j < n.num_entries →
          slotExactEnlargement h n (createBoundingBoxForSensor s) i ≤
            slotExactEnlargement h n (createBoundingBoxForSensor s) j ∧
          (j < i → slotExactEnlargement h n (createBoundingBoxForSensor s) i <
            slotExactEnlargement h n (createBoundingBoxForSensor s) j)) ∧
        ∀ k, descend (k + 1) h p s = descend k h c s) ∧
    (∃ q n, descend (d + 1 + fuel) h r s = some q ∧ deref h q = some n ∧ n.is_leaf = true ∧
      insertSlot (d + 1 + fuel) h r s = some n.num_entries ∧
      (n.num_entries < MAX_ENTRIES →
        n.num_entries < CAPACITY ∧
        ∃ n1, insertSensorIntoRTree (d + 1 + fuel) h r s uninit = some (store h q n1) ∧
          n1.is_leaf = true ∧ n1.num_entries = n.num_entries + 1 ∧
          leafEntries n1 = leafEntries n ++ [s] ∧ sensorSlot n1 n.num_entries = some s)) := by
  constructor
  · intro p n hd hl h1 hall
    obtain ⟨i, c, hi, hc, hmin, hstep⟩ := descend_step h s hd hl h1 (fun j hj => by
      obtain ⟨c, cn, hc, hcn, _⟩ := hall j hj
      exact ⟨c, cn, hc, hcn⟩)
    have heq : ∀ j, j < n.num_entries →
        slotEnlargement h n (createBoundingBoxForSensor s) j =
          slotExactEnlargement h n (createBoundingBoxForSensor s) j := by
      intro j hj
      obtain ⟨c, cn, hc, hcn, hfit⟩ := hall j hj
      simp only [slotEnlargement, slotExactEnlargement, childSlot, hl, Bool.false_eq_true,
        if_false, hc, Option.some_bind, hcn]
      exact enlargement_eq_exact hfit
    refine ⟨i, c, hi, by simp [childSlot, hl, hc], fun j hj => ?_, hstep⟩
    rw [← heq i hi, ← heq j hj]
    exact hmin j hj
  · obtain ⟨q, hq, n, hn, hl, hb⟩ := descend_wellFormed h s d r hw fuel
    refine ⟨q, n, hq, hn, hl, by simp [insertSlot, hq, hn], fun hroom => ⟨hroom, ?_⟩⟩
    obtain ⟨q2, n2, n1, hq2, hn2, hins, hl1, hn1, _, hes1, _, _⟩ :=
      insert_no_overflow h r d fuel s uninit hw (by
        intro q3 n3 hq3 hn3
        rw [hq] at hq3
        have := Option.some.inj hq3
        subst this
        rw [hn] at hn3
        have := Option.some.inj hn3
        subst this
        exact hroom)
    rw [hq] at hq2
    have hqq := Option.some.inj hq2
    subst hqq
    rw [hn] at hn2
    have hnn := Option.some.inj hn2
    subst hnn
    refine ⟨n1, hins, hl1, hn1, hes1, ?_⟩
    have hlen : (leafEntries n).length = n.num_entries := by
      unfold leafEntries
      rw [List.length_take]
      omega
    have hget : (leafEntries n1)[n.num_entries]? = some s := by
      rw [hes1, List.getElem?_append_right (by omega), hlen]
      simp
    unfold leafEntries at hget
    rw [List.getElem?_take_of_lt (by omega)] at hget
    simp [sensorSlot, hl1, hget]

set_option maxRecDepth 20000 in
/-- The amended C17 on `tree2`: for the point (11,11) the enlargements of the two leaves are
112 and 0, computed without overflow; the descent reaches leaf 2, which holds two
records, and the insertion stores the record in slot 2 as its last entry. For the point
(5,5) the enlargements are 16 and 45 and the descent reaches leaf 1. -/
theorem insert_descends_least_enlargement_tree2 :
    (deref tree2 0).map (fun n =>
        (slotExactEnlargement tree2 n ⟨11, 11, 11, 11⟩ 0,
         slotExactEnlargement tree2 n ⟨11, 11, 11, 11⟩ 1,
         slotExactEnlargement tree2 n ⟨5, 5, 5, 5⟩ 0,
         slotExactEnlargement tree2 n ⟨5, 5, 5, 5⟩ 1)) = some (112, 0, 16, 45) ∧
    (∃ i c, i < 2 ∧ (deref tree2 0).bind (fun n => childSlot n i) = some c ∧
      ∀ k, descend (k + 1) tree2 0 ⟨11, 11, 1, 2, 3⟩ = descend k tree2 c ⟨11, 11, 1, 2, 3⟩) ∧
    descend 2 tree2 0 ⟨11, 11, 1, 2, 3⟩ = some 2 ∧
    descend 2 tree2 0 ⟨5, 5, 1, 2, 3⟩ = some 1 ∧
    (∃ n1, insertSensorIntoRTree 2 tree2 0 ⟨11, 11, 1, 2, 3⟩ zeroMem = some (store tree2 2 n1) ∧
      leafEntries n1 = [⟨10, 10, 0, 0, 0⟩, ⟨12, 12, 0, 0, 0⟩, ⟨11, 11, 1, 2, 3⟩] ∧
      sensorSlot n1 2 = some ⟨11, 11, 1, 2, 3⟩) := by
  obtain ⟨hstep, q, n, hq, hn, _, _, hroom⟩ :=
    insert_descends_least_enlargement tree2 0 1 0 ⟨11, 11, 1, 2, 3⟩ zeroMem wellFormed_tree2
  have hq2 : descend 2 tree2 0 ⟨11, 11, 1, 2, 3⟩ = some 2 := rfl
  have hqe : q = 2 := by
    have e : descend (1 + 1 + 0) tree2 0 ⟨11, 11, 1, 2, 3⟩ = some 2 := hq2
    rw [e] at hq
    exact (Option.some.inj hq).symm
  subst hqe
  have hne : n = ⟨true, ⟨10, 10, 12, 12⟩, [], [⟨10, 10, 0, 0, 0⟩, ⟨12, 12, 0, 0, 0⟩], 2, some 0⟩ :=
    (Option.some.inj hn).symm
  subst hne
  obtain ⟨_, n1, hins, _, _, hes, hslot⟩ := hroom (by decide)
  obtain ⟨i, c, hi, hc, _, hd⟩ := hstep 0 ⟨false, ⟨0, 0, 12, 12⟩, [1, 2], [], 2, none⟩ rfl rfl
    (by decide) (fun j hj => by
      have hj2 : j < 2 := hj
      interval_cases j
      · exact ⟨1, _, rfl, rfl, by
          unfold EnlargementFits AreaFits fitsInt
          decide⟩
      · exact ⟨2, _, rfl, rfl, by
          unfold EnlargementFits AreaFits fitsInt
          decide⟩)
  exact ⟨by decide, ⟨i, c, hi, hc, hd⟩, hq2, rfl, n1, hins, hes, hslot⟩

/-! ## C18: the seeds of a split -/

set_option maxRecDepth 20000 in
/-- C18 fails as stated: on the leaf holding (0,0), (1,0) and (2147483647,1) the distance of
entries 0 and 2 is 2147483648, which `int` arithmetic turns into -2147483648, so the
seeds are entries 1 and 2, at the smaller distance 2147483647. Nor are the seeds at the
largest distance as computed: on the entries (0,0), (2147483647,1), (0,0) no computed
distance exceeds 0, the seeds stay entries 0 and 1, whose computed distance is
-2147483648, below the 0 of entries 0 and 2. -/
theorem seeds_counterexample :
    pickSeeds (leafEntries farLeaf) = ⟨2147483647, 1, 2⟩ ∧
    manhattan ⟨1, 0, 0, 0, 0⟩ ⟨2147483647, 1, 0, 0, 0⟩ = 2147483647 ∧
    manhattan ⟨0, 0, 0, 0, 0⟩ ⟨2147483647, 1, 0, 0, 0⟩ = 2147483648 ∧
    seedDistance ⟨0, 0, 0, 0, 0⟩ ⟨2147483647, 1, 0, 0, 0⟩ = -2147483648 ∧
    (splitEntries farLeaf ⟨0, 0, 0, 0⟩ ⟨0, 0, 0, 0⟩).map
        (fun st => (st.node1.sensors.head?, st.node2.sensors.head?)) =
      some (some ⟨1, 0, 0, 0, 0⟩, some ⟨2147483647, 1, 0, 0, 0⟩) ∧
    pickSeeds [⟨0, 0, 0, 0, 0⟩, ⟨2147483647, 1, 0, 0, 0⟩, ⟨0, 0, 0, 0, 0⟩] = ⟨0, 0, 1⟩ ∧
    seedDistance ⟨0, 0, 0, 0, 0⟩ ⟨0, 0, 0, 0, 0⟩ = 0 := by
  refine ⟨by decide, by decide, by decide, by decide, by decide, by decide, by decide⟩

/-- C18, amended: for every leaf with at least two entries whose pairwise Manhattan distances
fit in an `int`, the seeds chosen by step 1 of `splitNode` are two distinct entries
(seed1 < seed2) at the largest Manhattan distance of all pairs of entries; every pair that
comes earlier in (i, j) index order is at a strictly smaller distance; and when all
points coincide the seeds are entries 0 and 1. -/
theorem seeds_farthest_first (n : RTreeNode) (hl : n.is_leaf = true)
    (h2 : 2 ≤ n.num_entries) (hb : n.num_entries ≤ n.sensors.length)
    (hno : ∀ a ∈ leafEntries n, ∀ b ∈ leafEntries n, manhattan a b ≤ INT_MAX) :
    (pickSeeds (leafEntries n)).seed1 < (pickSeeds (leafEntries n)).seed2 ∧
    (pickSeeds (leafEntries n)).seed2 < n.num_entries ∧
    ∃ e1 e2, sensorSlot n (pickSeeds (leafEntries n)).seed1 = some e1 ∧
      sensorSlot n (pickSeeds (leafEntries n)).seed2 = some e2 ∧
      (∀ i j a b, i < j → j < n.num_entries → sensorSlot n i = some a →
        sensorSlot n j = some b →
        manhattan a b ≤ manhattan e1 e2 ∧
        ((i < (pickSeeds (leafEntries n)).seed1 ∨
          (i = (pickSeeds (leafEntries n)).seed1 ∧ j < (pickSeeds (leafEntries n)).seed2)) →
          manhattan a b < manhattan e1 e2)) ∧
      ((∀ a ∈ leafEntries n, ∀ b ∈ leafEntries n, a.x = b.x ∧ a.y = b.y) →
        (pickSeeds (leafEntries n)).seed1 = 0 ∧ (pickSeeds (leafEntries n)).seed2 = 1) := by
  have hlen : (leafEntries n).length = n.num_entries := by
    unfold leafEntries
    rw [List.length_take]
    omega
  have hslot : ∀ i, i < n.num_entries → sensorSlot n i = (leafEntries n)[i]? := by
    intro i hi
    unfold sensorSlot leafEntries
    rw [hl, if_pos rfl, List.getElem?_take_of_lt hi]
  obtain ⟨h1, h3, e1, e2, he1, he2, hmax, hco⟩ :=
    pickSeeds_spec (leafEntries n) (by omega) hno
  rw [hlen] at h3
  refine ⟨h1, h3, e1, e2, by rw [hslot _ (by omega)]; exact he1,
    by rw [hslot _ h3]; exact he2, fun i j a b hij hj ha hb => ?_, hco⟩
  rw [hslot i (by omega)] at ha
  rw [hslot j hj] at hb
  exact hmax i j a b hij ha hb

/-- The amended C18 on the overflowed leaf of scenario 1: the seeds are entries 0 and 4,
(0,0) and (40,40), at distance 80. -/
theorem seeds_farthest_first_scenario1 :
    (pickSeeds (leafEntries fiveLeaf)).seed1 = 0 ∧ (pickSeeds (leafEntries fiveLeaf)).seed2 = 4 ∧
    ∃ e1 e2, sensorSlot fiveLeaf 0 = some e1 ∧ sensorSlot fiveLeaf 4 = some e2 ∧
      manhattan e1 e2 = 80 ∧
      ∀ i j a b, i < j → j < 5 → sensorSlot fiveLeaf i = some a → sensorSlot fiveLeaf j = some b →
        manhattan a b ≤ manhattan e1 e2 := by
  have hno : ∀ a ∈ leafEntries fiveLeaf, ∀ b ∈ leafEntries fiveLeaf,
      manhattan a b ≤ INT_MAX := by decide
  obtain ⟨_, _, e1, e2, he1, he2, hmax, _⟩ :=
    seeds_farthest_first fiveLeaf rfl (by decide) (by decide) hno
  have s1 : (pickSeeds (leafEntries fiveLeaf)).seed1 = 0 := by decide
  have s2 : (pickSeeds (leafEntries fiveLeaf)).seed2 = 4 := by decide
  rw [s1] at he1
  rw [s2] at he2
  refine ⟨s1, s2, e1, e2, he1, he2, ?_, fun i j a b hij hj ha hb => (hmax i j a b hij hj ha hb).1⟩
  have h1 : e1 = ⟨0, 0, 0, 0, 0⟩ := (Option.some.inj he1).symm
  have h2 : e2 = ⟨40, 40, 0, 0, 0⟩ := (Option.some.inj he2).symm
  subst h1 h2
  decide

/-! ## C19: borrow and merge at leaf level -/

set_option maxRecDepth 20000 in
/-- C19 at the failing input: `mergeTree` has exact boxes and two leaves of MIN_ENTRIES
records. Deleting (0,0) leaves leaf 1 with one entry; its sibling, leaf 2, cannot lend,
so leaf 1 takes both entries of leaf 2, leaf 2 is freed and the root keeps the single
child 1. The box of leaf 1 is not recomputed after the merge: it stays (1,1,1,1) while
the entries span (1,1,11,11), and the root's box, recomputed from it, is (1,1,1,1)
too. The search for the merged record (10,10) returns NULL and the range query
(5,5,20,20) reports nothing. -/
theorem leaf_merge_leaves_box_stale :
    (∀ a, a < 3 → updateBoundingBox mergeTree a = some mergeTree) ∧
    Occupancy mergeTree 0 ∧
    (deleteSensorFromRTree 2 mergeTree 0 ⟨0, 0, 0, 0, 0⟩).bind
        (fun r => (deref r.1 1).map (fun n => (leafEntries n, n.bbox))) =
      some ([⟨1, 1, 0, 0, 0⟩, ⟨10, 10, 0, 0, 0⟩, ⟨11, 11, 0, 0, 0⟩], ⟨1, 1, 1, 1⟩) ∧
    leafBox [⟨1, 1, 0, 0, 0⟩, ⟨10, 10, 0, 0, 0⟩, ⟨11, 11, 0, 0, 0⟩] = ⟨1, 1, 11, 11⟩ ∧
    (deleteSensorFromRTree 2 mergeTree 0 ⟨0, 0, 0, 0, 0⟩).bind
        (fun r => (deref r.1 0).map
          (fun n => (n.children.take n.num_entries, n.num_entries, n.bbox))) =
      some ([1], 1, ⟨1, 1, 1, 1⟩) ∧
    (deleteSensorFromRTree 2 mergeTree 0 ⟨0, 0, 0, 0, 0⟩).map (fun r => deref r.1 2) =
      some none ∧
    (deleteSensorFromRTree 2 mergeTree 0 ⟨0, 0, 0, 0, 0⟩).bind
        (fun r => searchSensorInRTree 2 r.1 0 ⟨10, 10, 0, 0, 0⟩) = some none ∧
    (deleteSensorFromRTree 2 mergeTree 0 ⟨0, 0, 0, 0, 0⟩).bind
        (fun r => rangeQuery 2 r.1 0 ⟨5, 5, 20, 20⟩ ([], 0)) = some ([], 0) := by
  refine ⟨?_, occupancy_of_check rfl, rfl, rfl, rfl, rfl, rfl, rfl⟩
  intro a ha
  interval_cases a <;> rfl

/-! ## C20: what the search returns -/

/-- C20: on every tree `searchSensorInRTree` returns. A record it returns is stored in the
tree, has the target's x and y, and is the first record with these coordinates in the
pre-order sequence of the records of the leaves reached through nodes whose boxes overlap
the target's degenerate box; it returns NULL exactly when no record of that sequence
has the target's coordinates; the target's payload plays no part. -/
theorem search_first_match (h : Heap) (f p k : Nat) (t : SensorNode) (ht : IsTree f h p) :
    searchSensorInRTree (f + k) h p t =
        some ((reachedRecords (createBoundingBoxForSensor t) f h p).find? (sameXY t)) ∧
    (∀ r, searchSensorInRTree (f + k) h p t = some (some r) →
      r ∈ treeRecords f h p ∧ r.x = t.x ∧ r.y = t.y ∧
      ∃ before after,
        reachedRecords (createBoundingBoxForSensor t) f h p = before ++ r :: after ∧
        ∀ s ∈ before, ¬ (s.x = t.x ∧ s.y = t.y)) ∧
    (searchSensorInRTree (f + k) h p t = some none ↔
      ∀ s ∈ reachedRecords (createBoundingBoxForSensor t) f h p, ¬ (s.x = t.x ∧ s.y = t.y)) ∧
    (∀ t2 : SensorNode, t2.x = t.x → t2.y = t.y →
      searchSensorInRTree (f + k) h p t2 = searchSensorInRTree (f + k) h p t) := by
  have hmain := search_reached h t f p ht k
  refine ⟨hmain, fun r hr => ?_, ?_, fun t2 hx hy => ?_⟩
  · rw [hmain] at hr
    have hf := Option.some.inj hr
    have hmem := List.mem_of_find?_eq_some hf
    rw [List.find?_eq_some] at hf
    obtain ⟨hp, as, bs, he, hb⟩ := hf
    have hxy : r.x = t.x ∧ r.y = t.y := by simpa [sameXY] using hp
    refine ⟨(reached_sublist h _ f p).subset hmem, hxy.1, hxy.2, as, bs, he, fun s hs => ?_⟩
    have := hb s hs
    intro hxy2
    simp [sameXY, hxy2.1, hxy2.2] at this
  · rw [hmain]
    constructor
    · intro hn s hs
      have := List.find?_eq_none.mp (Option.some.inj hn) s hs
      simpa [sameXY] using this
    · intro hall
      congr 1
      rw [List.find?_eq_none]
      intro s hs
      have := hall s hs
      simpa [sameXY] using this
  · have e1 : createBoundingBoxForSensor t2 = createBoundingBoxForSensor t := by
      simp [createBoundingBoxForSensor, hx, hy]
    have e2 : sameXY t2 = sameXY t := by
      funext s
      simp [sameXY, hx, hy]
    rw [search_reached h t2 f p ht k, hmain, e1, e2]

/-- C20 on `tree2`: the search for (12,12) with a foreign payload returns the stored record
(12,12,0,0,0); the search for (11,11), which no record has, returns NULL. -/
theorem search_first_match_tree2 :
    searchSensorInRTree 2 tree2 0 ⟨12, 12, 7, 8, 9⟩ = some (some ⟨12, 12, 0, 0, 0⟩) ∧
    searchSensorInRTree 2 tree2 0 ⟨11, 11, 0, 0, 0⟩ = some none := by
  have h1 := (search_first_match tree2 2 0 0 ⟨12, 12, 7, 8, 9⟩ isTree_tree2).1
  have h2 := (search_first_match tree2 2 0 0 ⟨11, 11, 0, 0, 0⟩ isTree_tree2).1
  exact ⟨h1, h2⟩

/-! ## Lemmas on the union of boxes and on point queries -/

theorem expand_comm (a b : BoundingBox) : expandToInclude a b = expandToInclude b a := by
  simp only [expandToInclude, BoundingBox.mk.injEq]
  refine ⟨?_, ?_, ?_, ?_⟩ <;> split_ifs <;> omega

theorem expand_assoc (a b c : BoundingBox) :
    expandToInclude (expandToInclude a b) c = expandToInclude a (expandToInclude b c) := by
  simp only [expandToInclude, BoundingBox.mk.injEq]
  refine ⟨?_, ?_, ?_, ?_⟩ <;> split_ifs <;> omega

theorem expand_idem (a : BoundingBox) : expandToInclude a a = a := by
  obtain ⟨x1, y1, x2, y2⟩ := a
  simp [expandToInclude]

theorem expand_least {B a b : BoundingBox} (ha : B.contains a) (hb : B.contains b) :
    B.contains (expandToInclude a b) := by
  unfold BoundingBox.contains expandToInclude at *
  dsimp only
  refine ⟨?_, ?_, ?_, ?_⟩ <;> split_ifs <;> omega

theorem contains_antisymm {a b : BoundingBox} (h1 : a.contains b) (h2 : b.contains a) :
    a = b := by
  obtain ⟨x1, y1, x2, y2⟩ := a
  obtain ⟨u1, v1, u2, v2⟩ := b
  unfold BoundingBox.contains at h1 h2
  dsimp only at h1 h2
  simp only [BoundingBox.mk.injEq]
  omega

theorem contains_refl (a : BoundingBox) : a.contains a := by
  unfold BoundingBox.contains
  omega

theorem foldl_expand_init (l : List BoundingBox) :
    ∀ b : BoundingBox, (l.foldl expandToInclude b).contains b := by
  induction l with
  | nil => intro b; exact contains_refl b
  | cons e l ih =>
    intro b
    exact contains_trans (ih _) (expand_contains_left b e)

theorem foldl_expand_mem (l : List BoundingBox) :
    ∀ (b e : BoundingBox), e ∈ l → (l.foldl expandToInclude b).contains e := by
  induction l with
  | nil => intro b e he; cases he
  | cons x l ih =>
    intro b e he
    rcases List.mem_cons.mp he with rfl | hmem
    · exact contains_trans (foldl_expand_init l _) (expand_contains_right b e)
    · exact ih _ e hmem

theorem foldl_expand_least (B : BoundingBox) (l : List BoundingBox) :
    ∀ b : BoundingBox, B.contains b → (∀ e ∈ l, B.contains e) →
      B.contains (l.foldl expandToInclude b) := by
  induction l with
  | nil => intro b hb _; exact hb
  | cons x l ih =>
    intro b hb hall
    exact ih _ (expand_least hb (hall x (List.mem_cons_self _ _)))
      (fun e he => hall e (List.mem_cons_of_mem _ he))

theorem unionBoxes_contains (l : List BoundingBox) (e : BoundingBox) (he : e ∈ l) :
    (unionBoxes l).contains e := by
  cases l with
  | nil => cases he
  | cons b rest =>
    rcases List.mem_cons.mp he with rfl | hmem
    · exact foldl_expand_init rest e
    · exact foldl_expand_mem rest b e hmem

theorem unionBoxes_least (l : List BoundingBox) (hne : l ≠ []) (B : BoundingBox)
    (hall : ∀ e ∈ l, B.contains e) : B.contains (unionBoxes l) := by
  cases l with
  | nil => exact absurd rfl hne
  | cons b rest =>
    exact foldl_expand_least B rest b (hall b (List.mem_cons_self _ _))
      (fun e he => hall e (List.mem_cons_of_mem _ he))

theorem unionBoxes_perm {l1 l2 : List BoundingBox} (hp : l1.Perm l2) (hne : l2 ≠ []) :
    unionBoxes l1 = unionBoxes l2 := by
  have hne1 : l1 ≠ [] := by
    intro h0
    rw [h0] at hp
    exact hne hp.symm.eq_nil
  apply contains_antisymm
  · exact unionBoxes_least l2 hne _ (fun e he => unionBoxes_contains l1 e (hp.symm.subset he))
  · exact unionBoxes_least l1 hne1 _ (fun e he => unionBoxes_contains l2 e (hp.subset he))

theorem foldl_expand_attained (l : List BoundingBox) :
    ∀ b : BoundingBox,
      (∃ e ∈ b :: l, (l.foldl expandToInclude b).min_x = e.min_x) ∧
      (∃ e ∈ b :: l, (l.foldl expandToInclude b).min_y = e.min_y) ∧
      (∃ e ∈ b :: l, (l.foldl expandToInclude b).max_x = e.max_x) ∧
      (∃ e ∈ b :: l, (l.foldl expandToInclude b).max_y = e.max_y) := by
  induction l with
  | nil =>
    intro b
    exact ⟨⟨b, by simp, rfl⟩, ⟨b, by simp, rfl⟩, ⟨b, by simp, rfl⟩, ⟨b, by simp, rfl⟩⟩
  | cons x l ih =>
    intro b
    have key : ∀ (g : BoundingBox → Int),
        (g (expandToInclude b x) = g b ∨ g (expandToInclude b x) = g x) →
        (∃ e ∈ expandToInclude b x :: l,
          g (l.foldl expandToInclude (expandToInclude b x)) = g e) →
        ∃ e ∈ b :: x :: l, g ((x :: l).foldl expandToInclude b) = g e := by
      intro g hg ⟨e, he, heq⟩
      rcases List.mem_cons.mp he with rfl | hmem
      · rcases hg with hg | hg
        · exact ⟨b, by simp, by rw [List.foldl_cons, heq, hg]⟩
        · exact ⟨x, by simp, by rw [List.foldl_cons, heq, hg]⟩
      · exact ⟨e, by simp [hmem], by rw [List.foldl_cons, heq]⟩
    obtain ⟨h1, h2, h3, h4⟩ := ih (expandToInclude b x)
    refine ⟨key (fun c => c.min_x) ?_ h1, key (fun c => c.min_y) ?_ h2,
      key (fun c => c.max_x) ?_ h3, key (fun c => c.max_y) ?_ h4⟩ <;>
    · simp only [expandToInclude]
      split_ifs
      · exact Or.inl rfl
      · exact Or.inr rfl

/-- The loop of `updateBoundingBox` folds `expandToInclude` over the boxes of the entries, when
these can be read and do not change with the box of the node itself. -/
theorem updateLoop_fold (p : Nat) (h0 : Heap) (n0 : RTreeNode) (E : Nat → BoundingBox)
    (hp : p < h0.length) :
    ∀ (k i : Nat) (b : BoundingBox),
      (∀ j, i ≤ j → j < i + k → ∀ c : BoundingBox,
        entryBox (store h0 p { n0 with bbox := c }) { n0 with bbox := c } j = some (E j)) →
      updateLoop p i k (store h0 p { n0 with bbox := b }) =
        some (store h0 p { n0 with bbox := ((List.range' i k).map E).foldl expandToInclude b }) := by
  intro k
  induction k with
  | zero => intro i b _; rfl
  | succ k ih =>
    intro i b hE
    have hd : deref (store h0 p { n0 with bbox := b }) p = some { n0 with bbox := b } :=
      deref_store_same _ hp
    have he := hE i (Nat.le_refl _) (by omega) b
    simp only [updateLoop, hd, he, store_store]
    have := ih (i + 1) (expandToInclude b (E i)) (fun j h1 h2 => hE j (by omega) (by omega))
    rw [this]
    rfl

theorem updateBoundingBox_fold {h : Heap} {p : Nat} {n : RTreeNode} (E : Nat → BoundingBox)
    (hd : deref h p = some n) (h1 : 1 ≤ n.num_entries)
    (hE0 : ∀ j, j < n.num_entries → entryBox h n j = some (E j))
    (hE : ∀ j, j < n.num_entries → ∀ c : BoundingBox,
      entryBox (store h p { n with bbox := c }) { n with bbox := c } j = some (E j)) :
    updateBoundingBox h p =
        some (store h p { n with bbox := unionBoxes (entryBoxes h n) }) ∧
    entryBoxes h n = (List.range n.num_entries).map E := by
  have hp := deref_lt hd
  have hlist : entryBoxes h n = (List.range n.num_entries).map E := by
    unfold entryBoxes
    rw [← List.filterMap_eq_map]
    apply List.filterMap_congr
    intro j hj
    rw [hE0 j (List.mem_range.mp hj)]
    rfl
  refine ⟨?_, hlist⟩
  have h0 : ¬ n.num_entries = 0 := by omega
  unfold updateBoundingBox
  simp only [hd, h0, if_false, hE0 0 (by omega)]
  rw [updateLoop_fold p h n E hp (n.num_entries - 1) 1 (E 0)
    (fun j hj1 hj2 c => hE j (by omega) c)]
  have hr : List.range n.num_entries = 0 :: List.range' 1 (n.num_entries - 1) := by
    rw [List.range_eq_range']
    have : n.num_entries = (n.num_entries - 1) + 1 := by omega
    conv_lhs => rw [this]
    rfl
  rw [hlist, hr]
  rfl

theorem entryBox_stable (h : Heap) (p : Nat) (n : RTreeNode)
    (hleaf : n.is_leaf = true → n.num_entries ≤ n.sensors.length)
    (hint : n.is_leaf = false → ∀ j, j < n.num_entries →
      ∃ c cn, n.children[j]? = some c ∧ c ≠ p ∧ deref h c = some cn) :
    ∀ j, j < n.num_entries → ∃ e, entryBox h n j = some e ∧
      ∀ c : BoundingBox,
        entryBox (store h p { n with bbox := c }) { n with bbox := c } j = some e := by
  intro j hj
  cases hl : n.is_leaf
  · obtain ⟨c, cn, hc, hcp, hcn⟩ := hint hl j hj
    refine ⟨cn.bbox, by simp [entryBox, hl, childSlot, hc, hcn], fun b => ?_⟩
    simp [entryBox, hl, childSlot, hc, deref_store_ne _ hcp, hcn]
  · have hlt : j < n.sensors.length := by have := hleaf hl; omega
    refine ⟨createBoundingBoxForSensor n.sensors[j], ?_, fun b => ?_⟩
    · simp [entryBox, hl, sensorSlot, List.getElem?_eq_getElem hlt]
    · simp [entryBox, hl, sensorSlot, List.getElem?_eq_getElem hlt]

theorem inBox_point (t s : SensorNode) :
    inBox (createBoundingBoxForSensor t) s = sameXY t s := by
  unfold inBox sameXY createBoundingBoxForSensor
  rw [Bool.eq_iff_iff]
  simp only [decide_eq_true_eq]
  constructor
  · rintro ⟨h1, h2, h3, h4⟩
    exact ⟨by omega, by omega⟩
  · rintro ⟨h1, h2⟩
    omega

theorem find_eq_head_filter {α : Type} (f : α → Bool) (l : List α) :
    l.find? f = (l.filter f).head? := by
  induction l with
  | nil => rfl
  | cons a l ih =>
    cases hf : f a
    · rw [List.find?_cons_of_neg _ (by simp [hf]), List.filter_cons_of_neg (by simp [hf]), ih]
    · rw [List.find?_cons_of_pos _ hf, List.filter_cons_of_pos hf]
      rfl

/-! ## C21: the box updateBoundingBox computes -/

/-- C21: for every allocated node with at least one entry whose entries can be read (the
slots of a leaf written, the children of an internal node allocated and other than the
node), `updateBoundingBox` returns and sets `bbox` to `expandToInclude` folded over the
boxes of the entries, changing nothing else. That box contains every entry's box, is
contained in every box that contains them all, has each coordinate taken from some entry
(the least minimum, the greatest maximum), and does not depend on the order of the
entries. `expandToInclude` is commutative, associative and idempotent, and the box
(INT_MAX, INT_MAX, INT_MIN, INT_MIN), which `updateBoundingBox` assigns to a node with no
entries, is its identity on boxes with `int` coordinates. -/
theorem updateBoundingBox_exact (h : Heap) (p : Nat) (n : RTreeNode)
    (hd : deref h p = some n) (h1 : 1 ≤ n.num_entries)
    (hleaf : n.is_leaf = true → n.num_entries ≤ n.sensors.length)
    (hint : n.is_leaf = false → ∀ j, j < n.num_entries →
      ∃ c cn, n.children[j]? = some c ∧ c ≠ p ∧ deref h c = some cn) :
    updateBoundingBox h p = some (store h p { n with bbox := unionBoxes (entryBoxes h n) }) ∧
    (entryBoxes h n).length = n.num_entries ∧
    (∀ j, j < n.num_entries → entryBox h n j = (entryBoxes h n)[j]?) ∧
    (∀ e ∈ entryBoxes h n, (unionBoxes (entryBoxes h n)).contains e) ∧
    (∀ B : BoundingBox, (∀ e ∈ entryBoxes h n, B.contains e) →
      B.contains (unionBoxes (entryBoxes h n))) ∧
    ((∃ e ∈ entryBoxes h n, (unionBoxes (entryBoxes h n)).min_x = e.min_x) ∧
     (∃ e ∈ entryBoxes h n, (unionBoxes (entryBoxes h n)).min_y = e.min_y) ∧
     (∃ e ∈ entryBoxes h n, (unionBoxes (entryBoxes h n)).max_x = e.max_x) ∧
     (∃ e ∈ entryBoxes h n, (unionBoxes (entryBoxes h n)).max_y = e.max_y)) ∧
    (∀ l : List BoundingBox, l.Perm (entryBoxes h n) →
      unionBoxes l = unionBoxes (entryBoxes h n)) ∧
    (∀ a b : BoundingBox, expandToInclude a b = expandToInclude b a) ∧
    (∀ a b c : BoundingBox,
      expandToInclude (expandToInclude a b) c = expandToInclude a (expandToInclude b c)) ∧
    (∀ a : BoundingBox, expandToInclude a a = a) ∧
    (∀ b : BoundingBox, b.inRange →
      expandToInclude ⟨INT_MAX, INT_MAX, INT_MIN, INT_MIN⟩ b = b ∧
      expandToInclude b ⟨INT_MAX, INT_MAX, INT_MIN, INT_MIN⟩ = b) ∧
    (∀ (h2 : Heap) (p2 : Nat) (m : RTreeNode), deref h2 p2 = some m → m.num_entries = 0 →
      updateBoundingBox h2 p2 =
        some (store h2 p2 { m with bbox := ⟨INT_MAX, INT_MAX, INT_MIN, INT_MIN⟩ })) := by
  have hst := entryBox_stable h p n hleaf hint
  have hE0 : ∀ j, j < n.num_entries →
      entryBox h n j = some (((entryBox h n j).getD n.bbox)) := by
    intro j hj
    obtain ⟨e, he, _⟩ := hst j hj
    rw [he]
    rfl
  have hE : ∀ j, j < n.num_entries → ∀ c : BoundingBox,
      entryBox (store h p { n with bbox := c }) { n with bbox := c } j =
        some (((entryBox h n j).getD n.bbox)) := by
    intro j hj c
    obtain ⟨e, he, hs⟩ := hst j hj
    rw [hs c, he]
    rfl
  obtain ⟨hupd, hlist⟩ :=
    updateBoundingBox_fold (fun j => (entryBox h n j).getD n.bbox) hd h1 hE0 hE
  have hlen : (entryBoxes h n).length = n.num_entries := by
    rw [hlist, List.length_map, List.length_range]
  have hne : entryBoxes h n ≠ [] := by
    intro h0
    rw [h0] at hlen
    simp at hlen
    omega
  refine ⟨hupd, hlen, ?_, unionBoxes_contains _, unionBoxes_least _ hne, ?_,
    fun l hp => unionBoxes_perm hp hne, expand_comm, expand_assoc, expand_idem, ?_, ?_⟩
  · intro j hj
    rw [hlist, List.getElem?_map, List.getElem?_range hj]
    exact hE0 j hj
  · cases hl : entryBoxes h n with
    | nil => exact absurd hl hne
    | cons b rest => exact foldl_expand_attained rest b
  · intro b ⟨⟨_, h2⟩, ⟨_, h4⟩, ⟨h5, _⟩, ⟨h7, _⟩⟩
    obtain ⟨x1, y1, x2, y2⟩ := b
    dsimp only at h2 h4 h5 h7
    simp only [expandToInclude, BoundingBox.mk.injEq]
    constructor <;> refine ⟨?_, ?_, ?_, ?_⟩ <;> split_ifs <;> omega
  · intro h2 p2 m hm h0
    simp [updateBoundingBox, hm, h0]

set_option maxRecDepth 20000 in
/-- C21 on the root of `tree2` after leaf 2 was given the box (10,10,20,20): the boxes of
the entries are (0,0,3,3) and (10,10,20,20), and `updateBoundingBox` sets the root's box
to (0,0,20,20). -/
theorem updateBoundingBox_exact_tree2 :
    (updateBoundingBox
        (store tree2 2 ⟨true, ⟨10, 10, 20, 20⟩, [],
          [⟨10, 10, 0, 0, 0⟩, ⟨12, 12, 0, 0, 0⟩, ⟨20, 20, 1, 2, 3⟩], 3, some 0⟩) 0).bind
        (fun h1 => (deref h1 0).map (fun m => m.bbox)) = some ⟨0, 0, 20, 20⟩ ∧
    entryBoxes
        (store tree2 2 ⟨true, ⟨10, 10, 20, 20⟩, [],
          [⟨10, 10, 0, 0, 0⟩, ⟨12, 12, 0, 0, 0⟩, ⟨20, 20, 1, 2, 3⟩], 3, some 0⟩)
        ⟨false, ⟨0, 0, 12, 12⟩, [1, 2], [], 2, none⟩ = [⟨0, 0, 3, 3⟩, ⟨10, 10, 20, 20⟩] := by
  obtain ⟨hupd, _⟩ := updateBoundingBox_exact
    (store tree2 2 ⟨true, ⟨10, 10, 20, 20⟩, [],
      [⟨10, 10, 0, 0, 0⟩, ⟨12, 12, 0, 0, 0⟩, ⟨20, 20, 1, 2, 3⟩], 3, some 0⟩) 0
    ⟨false, ⟨0, 0, 12, 12⟩, [1, 2], [], 2, none⟩ rfl (by decide)
    (fun hl => absurd hl (by decide))
    (fun _ j hj => by
      have hj2 : j < 2 := hj
      interval_cases j
      · exact ⟨1, _, rfl, by decide, rfl⟩
      · exact ⟨2, _, rfl, by decide, rfl⟩)
  rw [hupd]
  exact ⟨rfl, rfl⟩

/-! ## C22: search and range query on a point -/

/-- C22: on every tree, whether its boxes are exact or stale, the range query with the
degenerate box of a point p and `searchSensorInRTree` for p both return; the search
returns the first record the range query reports, and NULL when it reports none; so the
search returns a record exactly when the count of the range query is positive. -/
theorem search_agrees_with_rangeQuery (h : Heap) (f p k : Nat) (t : SensorNode)
    (ht : IsTree f h p) :
    ∃ reported : List SensorNode,
      rangeQuery (f + k) h p (createBoundingBoxForSensor t) ([], 0) =
        some (reported, reported.length) ∧
      searchSensorInRTree (f + k) h p t = some reported.head? ∧
      ((∃ r, searchSensorInRTree (f + k) h p t = some (some r)) ↔ 0 < reported.length) := by
  have hr := rangeQuery_reached h (createBoundingBoxForSensor t) f p ht k ([], 0)
  have hs := search_reached h t f p ht k
  have hfun : inBox (createBoundingBoxForSensor t) = sameXY t := funext (inBox_point t)
  rw [hfun] at hr
  simp only [List.nil_append, Nat.zero_add] at hr
  refine ⟨_, hr, ?_, ?_⟩
  · rw [hs, find_eq_head_filter]
  · rw [hs, find_eq_head_filter]
    cases hl : (reachedRecords (createBoundingBoxForSensor t) f h p).filter (sameXY t) with
    | nil => simp
    | cons a l => simp

set_option maxRecDepth 20000 in
/-- C22 on `tree2` and on the heap with a stale root box that the insertion of (20,20,1,2,3)
into `tree2` leaves: for the point (12,12) the range query reports one record and the
search returns it; for (20,20) on the stale heap the range query reports nothing and
the search returns NULL. -/
theorem search_agrees_with_rangeQuery_tree2 :
    rangeQuery 2 tree2 0 ⟨12, 12, 12, 12⟩ ([], 0) = some ([⟨12, 12, 0, 0, 0⟩], 1) ∧
    searchSensorInRTree 2 tree2 0 ⟨12, 12, 5, 5, 5⟩ = some (some ⟨12, 12, 0, 0, 0⟩) ∧
    (∃ h1 reported, insertSensorIntoRTree 2 tree2 0 ⟨20, 20, 1, 2, 3⟩ zeroMem = some h1 ∧
      rangeQuery 2 h1 0 ⟨20, 20, 20, 20⟩ ([], 0) = some (reported, reported.length) ∧
      searchSensorInRTree 2 h1 0 ⟨20, 20, 0, 0, 0⟩ = some reported.head? ∧
      reported = []) := by
  obtain ⟨rep, hq, hs, _⟩ :=
    search_agrees_with_rangeQuery tree2 2 0 0 ⟨12, 12, 5, 5, 5⟩ isTree_tree2
  have hq2 : rangeQuery 2 tree2 0 ⟨12, 12, 12, 12⟩ ([], 0) = some ([⟨12, 12, 0, 0, 0⟩], 1) := rfl
  have hrep : rep = [⟨12, 12, 0, 0, 0⟩] := by
    have e : rangeQuery (2 + 0) tree2 0 (createBoundingBoxForSensor ⟨12, 12, 5, 5, 5⟩) ([], 0) =
        rangeQuery 2 tree2 0 ⟨12, 12, 12, 12⟩ ([], 0) := rfl
    rw [e, hq2] at hq
    exact (Prod.mk.inj (Option.some.inj hq)).1.symm
  subst hrep
  refine ⟨hq2, hs, ?_⟩
  have hins : insertSensorIntoRTree 2 tree2 0 ⟨20, 20, 1, 2, 3⟩ zeroMem =
      some (store tree2 2 ⟨true, ⟨10, 10, 20, 20⟩, [],
        [⟨10, 10, 0, 0, 0⟩, ⟨12, 12, 0, 0, 0⟩, ⟨20, 20, 1, 2, 3⟩], 3, some 0⟩) := rfl
  have ht1 : IsTree 2 (store tree2 2 ⟨true, ⟨10, 10, 20, 20⟩, [],
      [⟨10, 10, 0, 0, 0⟩, ⟨12, 12, 0, 0, 0⟩, ⟨20, 20, 1, 2, 3⟩], 3, some 0⟩) 0 := by
    refine ⟨_, rfl, fun hl => absurd hl (by decide), fun _ i hi => ?_⟩
    have hi2 : i < 2 := hi
    interval_cases i
    · exact ⟨1, rfl, _, rfl, fun _ => by decide, fun hl => absurd hl (by decide)⟩
    · exact ⟨2, rfl, _, rfl, fun _ => by decide, fun hl => absurd hl (by decide)⟩
  obtain ⟨rep2, hq3, hs3, _⟩ :=
    search_agrees_with_rangeQuery _ 2 0 0 ⟨20, 20, 0, 0, 0⟩ ht1
  refine ⟨_, rep2, hins, hq3, hs3, ?_⟩
  have e2 : rangeQuery (2 + 0) (store tree2 2 ⟨true, ⟨10, 10, 20, 20⟩, [],
      [⟨10, 10, 0, 0, 0⟩, ⟨12, 12, 0, 0, 0⟩, ⟨20, 20, 1, 2, 3⟩], 3, some 0⟩) 0
      (createBoundingBoxForSensor ⟨20, 20, 0, 0, 0⟩) ([], 0) = some ([], 0) := rfl
  rw [e2] at hq3
  exact ((Prod.mk.inj (Option.some.inj hq3)).1).symm

/-! ## C23: writes into the entry arrays -/

set_option maxRecDepth 20000 in
/-- C23 at the failing inputs. After the first four insertions of scenario 1 the root leaf
holds MAX_ENTRIES records; the fifth insertion stores its record at index 4 before it
checks for overflow, and 4 is not below the MAX_ENTRIES slots allocated. In `wideTree`
the parent holds three children; inserting (1,2) overflows leaf 1, which was full, and
`splitNode` stores the new siblings in the parent's slots 3 and 4, the second of which
is not below MAX_ENTRIES either. -/
theorem write_beyond_capacity :
    (insertAll 1 zeroMem (scenario1.take 4) (initialHeap zeroMem)).bind
        (fun h4 => (deref h4 0).map (fun n => (n.is_leaf, n.num_entries))) =
      some (true, MAX_ENTRIES) ∧
    (insertAll 1 zeroMem (scenario1.take 4) (initialHeap zeroMem)).bind
        (fun h4 => insertSlot 1 h4 0 ⟨40, 40, 0, 0, 0⟩) = some 4 ∧
    ¬ 4 < CAPACITY ∧
    (insertAll 1 zeroMem (scenario1.take 4) (initialHeap zeroMem)).bind
        (fun h4 => (insertSensorIntoRTree 1 h4 0 ⟨40, 40, 0, 0, 0⟩ zeroMem).bind
          (fun h5 => (deref h5 0).bind (fun n => sensorSlot n 4))) =
      some ⟨40, 40, 0, 0, 0⟩ ∧
    (deref wideTree 0).map (fun n => (n.num_entries, decide (n.num_entries ≤ MAX_ENTRIES))) =
      some (3, true) ∧
    (deref wideTree 1).map (fun n => (n.num_entries, decide (n.num_entries ≤ MAX_ENTRIES))) =
      some (4, true) ∧
    insertSlot 2 wideTree 0 ⟨1, 2, 0, 0, 0⟩ = some 4 ∧
    splitSlots wideTree 1 = some (3, 4) ∧
    (insertSensorIntoRTree 2 wideTree 0 ⟨1, 2, 0, 0, 0⟩ zeroMem).bind
        (fun h1 => (deref h1 0).bind
          (fun n => (childSlot n 3).bind (fun c3 => (childSlot n 4).map
            (fun c4 => (c3, c4, n.num_entries))))) =
      some (4, 5, 5) := by
  refine ⟨rfl, rfl, by decide, rfl, rfl, rfl, rfl, rfl, rfl⟩

end RTree
